import Mathlib

/-!
Letterboxd diary import: a shallow embedding of `src/main.js`.

The plugin reads a comma separated diary export, and for every row creates or
updates one Markdown document per film.  This development embeds the pure text
processing of `LetterboxdPlugin` (the CSV reader, the document synthesiser, the
merge operations and the import loop) as Lean functions and proves properties
of them.

Conventions of the embedding.

* A JavaScript string is a `Str`, a list of characters.  Every character the
  program inspects (quotes, commas, newlines, dashes, digits, `$`, white space)
  lies in the Basic Multilingual Plane, and UTF-16 is self-synchronising, so
  searching, splitting and trimming agree on characters and on code units for
  well-formed text.
* A `Row` is the ordinary object `{}` filled by `row[header] = value`.
* The vault of the host application is a finite map from paths to texts.
* The network is an input: the import loop takes the poster found for each
  row, and `getMoviePosterUrl` takes the outcome of its `fetch`.
* Numbers occur as the `watches` counter and as the status of a response,
  neither of which is negative or fractional.  A `Number` is a double that is
  a natural number, or `+Infinity`: reading a numeral and adding one round to
  the nearest double, and printing gives the shortest numeral that reads back,
  in exponent form from `1e21` on.
-/

namespace Letterboxd

/-- A JavaScript string, as the list of its characters. -/
abbrev Str := List Char

/-! ## String primitives of the host language -/

/-- White space and line terminators, the characters removed by
`String.prototype.trim`. -/
def isWhiteSpace (c : Char) : Bool :=
  c = '\t' || c = '\n' || c = '\x0b' || c = '\x0c' || c = '\r' || c = ' ' ||
  c = '\u00a0' || c = '\u1680' ||
  (decide ('\u2000' ≤ c) && decide (c ≤ '\u200a')) ||
  c = '\u2028' || c = '\u2029' || c = '\u202f' || c = '\u205f' ||
  c = '\u3000' || c = '\ufeff'

/-- Removes leading white space: `String.prototype.trimStart`. -/
def trimStart : Str → Str
  | [] => []
  | c :: cs => if isWhiteSpace c then trimStart cs else c :: cs

/-- Removes trailing white space: `String.prototype.trimEnd`. -/
def trimEnd (s : Str) : Str :=
  (trimStart s.reverse).reverse

/-- Removes white space at both ends: `String.prototype.trim`. -/
def trim (s : Str) : Str :=
  trimEnd (trimStart s)

/-- Splits at every occurrence of a one character separator:
`String.prototype.split` with a separator of length one.  The result is never
empty; the empty string splits into one empty piece. -/
def splitOn (sep : Char) : Str → List Str
  | [] => [[]]
  | c :: cs =>
    if c = sep then [] :: splitOn sep cs
    else
      match splitOn sep cs with
      | [] => [[c]]
      | piece :: pieces => (c :: piece) :: pieces

/-- Tests whether `pat` occurs in `s`: `String.prototype.includes`. -/
def includes (pat : Str) : Str → Bool
  | [] => pat.isPrefixOf []
  | c :: cs => pat.isPrefixOf (c :: cs) || includes pat cs

/-- Finds the leftmost occurrence of `pat` in `s` and returns the text before
it and the text after it. -/
def findSplit (pat : Str) : Str → Option (Str × Str)
  | [] => if pat.isPrefixOf [] then some ([], []) else none
  | c :: cs =>
    if pat.isPrefixOf (c :: cs) then some ([], (c :: cs).drop pat.length)
    else
      match findSplit pat cs with
      | some (before, after) => some (c :: before, after)
      | none => none

/-- Decimal digits, the class `\d` of a regular expression. -/
def isDigit (c : Char) : Bool :=
  decide ('0' ≤ c) && decide (c ≤ '9')

/-- The longest prefix of decimal digits, as matched by a greedy `\d+`. -/
def takeDigits : Str → Str
  | [] => []
  | c :: cs => if isDigit c then c :: takeDigits cs else []

/-! ## Numbers of the host language -/

/-- The mathematical value of a string of decimal digits. -/
def digitsValue (digits : Str) : Nat :=
  digits.foldl (fun acc c => 10 * acc + (c.toNat - '0'.toNat)) 0

/-- The decimal numeral of a natural number. -/
def decimal (n : Nat) : Str :=
  Nat.toDigits 10 n

/-- A Number value of the counter arithmetic: a double that is a natural
number, or `+Infinity`. -/
inductive Number where
  | finite (value : Nat)
  | infinity

/-- The number of binary digits of `n`, given fuel that is at least that
number. -/
def bitLength : Nat → Nat → Nat
  | 0, _ => 0
  | fuel + 1, n => if n = 0 then 0 else bitLength fuel (n / 2) + 1

/-- The Number value of a natural number: the nearest double, which keeps 53
binary digits, the one with an even significand when two are equally near, and
`+Infinity` when that takes more than 1024 binary digits. -/
def toNumber (n : Nat) : Number :=
  let shift := bitLength n n - 53
  let q := n / 2 ^ shift
  let r := n % 2 ^ shift
  let up := decide (2 ^ shift < 2 * r) || (decide (2 * r = 2 ^ shift) && decide (q % 2 = 1))
  let m := (if up then q + 1 else q) * 2 ^ shift
  if bitLength m m ≤ 1024 then .finite m else .infinity

/-- Reads a string of decimal digits: `parseInt` on the capture of `(\d+)`. -/
def parseInt (digits : Str) : Number :=
  toNumber (digitsValue digits)

/-- The sum `x + 1` of a Number and one. -/
def addOne : Number → Number
  | .finite value => toNumber (value + 1)
  | .infinity => .infinity

/-- Tests that the natural number `m` has the Number value `value`. -/
def readsBack (m value : Nat) : Bool :=
  match toNumber m with
  | .finite w => w = value
  | .infinity => false

/-- The significand with `exponent` trailing zeros that reads back as `value`,
when there is one: of the two multiples of `10 ^ exponent` around `value`, the
nearer one that reads back, and the even one when both are equally near. -/
def shortestAt (value exponent : Nat) : Option Nat :=
  let low := value / 10 ^ exponent
  let high := low + 1
  let lowOk := low != 0 && readsBack (low * 10 ^ exponent) value
  let highOk := readsBack (high * 10 ^ exponent) value
  if lowOk && highOk then
    if value - low * 10 ^ exponent < high * 10 ^ exponent - value then some low
    else if high * 10 ^ exponent - value < value - low * 10 ^ exponent then some high
    else if low % 2 = 0 then some low else some high
  else if lowOk then some low
  else if highOk then some high
  else none

/-- The shortest significand that reads back as `value` and its number of
trailing zeros, searched from `exponent` downwards. -/
def shortestFrom (value : Nat) : Nat → Nat × Nat
  | 0 => (value, 0)
  | exponent + 1 =>
    match shortestAt value (exponent + 1) with
    | some significand => (significand, exponent + 1)
    | none => shortestFrom value exponent

/-- Prints a Number as a template literal does, `Number::toString` in radix
ten: the shortest significand followed by its zeros when that makes at most 21
digits, and the exponent form otherwise. -/
def numToString : Number → Str
  | .infinity => "Infinity".toList
  | .finite value =>
    if value = 0 then "0".toList
    else
      let (significand, zeros) := shortestFrom value (decimal value).length
      let digits := decimal significand
      let n := digits.length + zeros
      if n ≤ 21 then digits ++ List.replicate zeros '0'
      else
        match digits with
        | [] => []
        | first :: rest =>
          (if rest.isEmpty then [first] else first :: '.' :: rest)
            ++ "e+".toList ++ decimal (n - 1)

/-! ## The CSV reader -/

/-- The loop of `parseCSVLine`: `result` holds the finished fields, `current`
the field being read and `inQuotes` the quoting flag. -/
def parseCSVLineLoop : Str → List Str → Str → Bool → List Str
  | [], result, current, _ => result ++ [trim current]
  | c :: rest, result, current, inQuotes =>
    if c = '"' then
      if inQuotes then
        match rest with
        | [] => parseCSVLineLoop [] result current (!inQuotes)
        | nextChar :: rest2 =>
          if nextChar = '"' then parseCSVLineLoop rest2 result (current ++ ['"']) inQuotes
          else parseCSVLineLoop (nextChar :: rest2) result current (!inQuotes)
      else parseCSVLineLoop rest result current (!inQuotes)
    else if c = ',' && !inQuotes then
      parseCSVLineLoop rest (result ++ [trim current]) [] inQuotes
    else parseCSVLineLoop rest result (current ++ [c]) inQuotes

/-- Splits one line into its fields: `parseCSVLine`. -/
def parseCSVLine (line : Str) : List Str :=
  parseCSVLineLoop line [] [] false

/-- Line terminators: the characters a `.` does not match without the `s`
flag. -/
def isLineTerminator (c : Char) : Bool :=
  c = '\n' || c = '\r' || c = '\u2028' || c = '\u2029'

/-- The header clean-up `header.replace(/^"(.*)"$/, '$1')`: when the whole
piece is a double quote, a run of characters without line terminator and a
double quote, the two outer quotes are removed; otherwise the piece is
unchanged. -/
def unquoteHeader (header : Str) : Str :=
  match header with
  | [] => header
  | first :: rest =>
    match rest.reverse with
    | [] => header
    | last :: middle =>
      if first = '"' && last = '"' && middle.all (fun c => !isLineTerminator c) then
        middle.reverse
      else header

/-! ## Rows -/

/-- A row object: its own string keyed properties, in creation order. -/
abbrev Row := List (Str × Str)

/-- The property read `row[key]`, `none` standing for `undefined`.  The program
only reads the keys `Name`, `Year`, `Rating` and the like, none of which is
inherited from `Object.prototype`. -/
def rowGet (row : Row) (key : Str) : Option Str :=
  match row with
  | [] => none
  | (k, v) :: rest => if k = key then some v else rowGet rest key

/-- Overwrites the value of an existing property, keeping its position. -/
def rowReplace (key value : Str) : Row → Row
  | [] => []
  | (k, v) :: rest =>
    if k = key then (k, value) :: rest else (k, v) :: rowReplace key value rest

/-- The assignment `row[key] = value` of a string.  Assigning a string to
`__proto__` runs the inherited setter, which ignores it. -/
def rowSet (row : Row) (key value : Str) : Row :=
  if key = "__proto__".toList then row
  else if (rowGet row key).isSome then rowReplace key value row
  else row ++ [(key, value)]

/-- The numeric value of a key that is an array index: a canonical decimal
numeral below `2 ^ 32 - 1`. -/
def arrayIndex (key : Str) : Option Nat :=
  match key with
  | [] => none
  | c :: cs =>
    if !(c :: cs).all isDigit then none
    else if c = '0' && !cs.isEmpty then none
    else if digitsValue (c :: cs) < 4294967295 then some (digitsValue (c :: cs))
    else none

/-- Inserts an indexed entry into a list sorted by index. -/
def insertIndexed (e : Nat × Str × Str) : List (Nat × Str × Str) → List (Nat × Str × Str)
  | [] => [e]
  | f :: fs => if e.1 ≤ f.1 then e :: f :: fs else f :: insertIndexed e fs

/-- Sorts indexed entries by ascending index. -/
def sortIndexed : List (Nat × Str × Str) → List (Nat × Str × Str)
  | [] => []
  | e :: es => insertIndexed e (sortIndexed es)

/-- The enumeration `Object.entries(row)`: array index keys in ascending
numeric order, then every other key in creation order. -/
def objectEntries (row : Row) : List (Str × Str) :=
  (sortIndexed (row.filterMap fun e => (arrayIndex e.1).map fun i => (i, e))).map (fun e => e.2)
    ++ row.filter fun e => (arrayIndex e.1).isNone

/-- The chain `row[k1] || row[k2] || ... || ''`: the first value that is
neither `undefined` nor empty. -/
def firstTruthy (row : Row) : List Str → Str
  | [] => []
  | k :: ks =>
    match rowGet row k with
    | some (c :: cs) => c :: cs
    | _ => firstTruthy row ks

/-- The body of `headers.forEach((header, index) => row[header] = values[index] || '')`. -/
def fillRow : List Str → List Str → Row → Row
  | [], _, row => row
  | h :: hs, values, row => fillRow hs values.tail (rowSet row h (values.headD []))

/-- The message of the error thrown by `parseCSV`. -/
def formatError : Str :=
  "CSV file must have at least a header row and one data row".toList

/-- The column names of `parseCSV`: the first line split at every comma, each
piece unquoted and trimmed. -/
def parseHeaders (first : Str) : List Str :=
  (splitOn ',' first).map fun header => trim (unquoteHeader header)

/-- The loop of `parseCSV` over the lines after the header. -/
def parseCSVRows (headers : List Str) : List Str → List Row → List Row
  | [], rows => rows
  | line :: lines, rows =>
    if (trim line).isEmpty then parseCSVRows headers lines rows
    else if (parseCSVLine line).length ≠ headers.length then parseCSVRows headers lines rows
    else parseCSVRows headers lines (rows ++ [fillRow headers (parseCSVLine line) []])

/-- Reads the whole export: `parseCSV`.  An error result stands for the thrown
`Error`. -/
def parseCSV (csvContent : Str) : Except Str (List Row) :=
  match splitOn '\n' (trim csvContent) with
  | first :: second :: more => .ok (parseCSVRows (parseHeaders first) (second :: more) [])
  | _ => .error formatError

/-! ## Replacement templates and the regular expressions of the merge -/

/-- The value of a decimal digit. -/
def digitValue (c : Char) : Nat :=
  c.toNat - '0'.toNat

/-- The capture group named by `$n` in a replacement template, when the
expression has a group of that number. -/
def captureAt (captures : List Str) (n : Nat) : Option Str :=
  if 1 ≤ n ∧ n ≤ captures.length then captures.get? (n - 1) else none

/-- The text that replaces a reference of a replacement template, and the
number of characters the reference takes after its dollar; `rest` is the
template after the dollar.  This is one step of the operation GetSubstitution:
`$$` is a dollar, `$&` the matched text, a dollar and a backquote the text
before the match, `$'` the text after it, `$n` and `$nn` a capture group when
the expression has that group; a two digit reference beyond the number of
groups is read as a one digit reference followed by a digit; any other dollar
stands for itself.  None of the expressions of the program has a named group,
so `$<` is literal. -/
def substitution (matched before after : Str) (captures : List Str) (rest : Str) : Str × Nat :=
  match rest with
  | [] => (['$'], 0)
  | d :: rest1 =>
    if d = '$' then (['$'], 1)
    else if d = '\x60' then (before, 1)
    else if d = '&' then (matched, 1)
    else if d = '\'' then (after, 1)
    else if isDigit d then
      match rest1 with
      | [] => ((captureAt captures (digitValue d)).getD ['$', d], 1)
      | e :: _ =>
        if isDigit e && decide (10 * digitValue d + digitValue e ≤ captures.length) then
          ((captureAt captures (10 * digitValue d + digitValue e)).getD ['$', d, e], 2)
        else ((captureAt captures (digitValue d)).getD ['$', d], 1)
    else (['$'], 0)

/-- The expansion of a replacement template from a position where `skip`
characters still belong to the reference just replaced. -/
def expandTemplateFrom (matched before after : Str) (captures : List Str) : Nat → Str → Str
  | _, [] => []
  | skip + 1, _ :: rest => expandTemplateFrom matched before after captures skip rest
  | 0, c :: rest =>
    if c = '$' then
      (substitution matched before after captures rest).1
        ++ expandTemplateFrom matched before after captures
            (substitution matched before after captures rest).2 rest
    else c :: expandTemplateFrom matched before after captures 0 rest

/-- The expansion of a replacement template given as a string to
`String.prototype.replace`. -/
def expandTemplate (matched before after : Str) (captures : List Str) (template : Str) : Str :=
  expandTemplateFrom matched before after captures 0 template

/-- The match of the front-matter expression of `appendWatchEntry` (a three
dash line at the start, a lazy group `(.*?)` with the `s` flag, then a newline
and three dashes): the text must begin with a three dash line, and the group
ends at the first later newline that is followed by three dashes.  Returns the
capture and the text after the match. -/
def matchFrontmatter (content : Str) : Option (Str × Str) :=
  if "---\n".toList.isPrefixOf content then findSplit "\n---".toList (content.drop 4)
  else none

/-- Removes the longest prefix of decimal digits. -/
def dropDigits : Str → Str
  | [] => []
  | c :: cs => if isDigit c then dropDigits cs else c :: cs

/-- The leftmost match of `/watches: (\d+)/`: the text before the match, the
captured digits and the text after the match. -/
def matchWatches : Str → Option (Str × Str × Str)
  | [] => none
  | c :: cs =>
    if "watches: ".toList.isPrefixOf (c :: cs) && !(takeDigits ((c :: cs).drop 9)).isEmpty then
      some ([], takeDigits ((c :: cs).drop 9), dropDigits ((c :: cs).drop 9))
    else
      match matchWatches cs with
      | some (before, digits, after) => some (c :: before, digits, after)
      | none => none

/-! ## Settings -/

/-- The settings of the plugin. -/
structure Settings where
  tmdbApiKey : Str
  outputFolder : Str
  imageSize : Str
  duplicateHandling : Str
  tags : Str

/-- The character class of `sanitizeFilename`. -/
def isForbiddenChar (c : Char) : Bool :=
  c = '\\' || c = '/' || c = '*' || c = '?' || c = ':' || c = '"' || c = '<' ||
  c = '>' || c = '|'

/-- Replaces the forbidden characters by a dash and trims: `sanitizeFilename`. -/
def sanitizeFilename (filename : Str) : Str :=
  trim (filename.map fun c => if isForbiddenChar c then '-' else c)

/-- The list of tags of the settings: `getTagsArray`. -/
def getTagsArray (settings : Settings) : List Str :=
  if settings.tags.isEmpty || (trim settings.tags).isEmpty then []
  else ((splitOn ',' settings.tags).map trim).filter fun tag => decide (tag.length > 0)

/-! ## The poster lookup -/

/-- One entry of the result list of the search response; `none` stands for a
`poster_path` that is absent or `null`. -/
structure SearchResult where
  poster_path : Option Str

/-- The decoded body of the search response; `none` stands for a body without
`results`. -/
structure SearchData where
  results : Option (List SearchResult)

/-- The outcome of the awaited `fetch` of `getMoviePosterUrl`, which is an
input of the embedding: the call is rejected, or it answers with a status and
a body; the body `none` stands for a body that `response.json()` cannot
decode. -/
inductive FetchOutcome where
  | transportFailure
  | response (status : Nat) (body : Option SearchData)

/-- The flag `response.ok`: the status is in the range 200 to 299. -/
def responseOk (status : Nat) : Bool :=
  decide (200 ≤ status) && decide (status ≤ 299)

/-- The constant `imageBaseUrl` of `getMoviePosterUrl`. -/
def imageBaseUrl (settings : Settings) : Str :=
  "https://image.tmdb.org/t/p/".toList ++ settings.imageSize

/-- The `try` block of `getMoviePosterUrl`: an error result stands for a thrown
exception, `some url` for the `return` inside the block and `none` for leaving
the block without a return. -/
def getMoviePosterUrlTry (settings : Settings) (outcome : FetchOutcome) :
    Except Str (Option Str) :=
  match outcome with
  | .transportFailure => .error "Failed to fetch".toList
  | .response status body =>
    if !responseOk status then .error ("HTTP error! status: ".toList ++ numToString (toNumber status))
    else
      match body with
      | none => .error "Unexpected token".toList
      | some data =>
        match data.results with
        | some (first :: _) =>
          match first.poster_path with
          | some (c :: cs) => .ok (some (imageBaseUrl settings ++ c :: cs))
          | _ => .ok none
        | _ => .ok none

/-- The poster lookup: `getMoviePosterUrl`, with the outcome of the network
call as an input.  The `catch` block logs the error and falls through to the
final `return ''`. -/
def getMoviePosterUrl (settings : Settings) (outcome : FetchOutcome) : Str :=
  if settings.tmdbApiKey.isEmpty then []
  else
    match getMoviePosterUrlTry settings outcome with
    | .ok (some url) => url
    | .ok none => []
    | .error _ => []

/-! ## Documents -/

/-- The replacement `String(value).replace(/'/g, "''")`. -/
def escapeQuotes (value : Str) : Str :=
  value.flatMap fun c => if c = '\'' then ['\'', '\''] else [c]

/-- The front-matter lines of the row fields: one line per entry with a value
that is not empty. -/
def frontmatterFields : List (Str × Str) → Str
  | [] => []
  | (key, value) :: entries =>
    (if value.isEmpty then [] else key ++ ": '".toList ++ escapeQuotes value ++ "'\n".toList)
      ++ frontmatterFields entries

/-- The poster line of a new front-matter, present when the URL is not empty. -/
def posterLine (posterUrl : Str) : Str :=
  if posterUrl.isEmpty then [] else "poster: '".toList ++ posterUrl ++ "'\n".toList

/-- The tag lines of a new front-matter, present when there is a tag. -/
def tagsBlock (tags : List Str) : Str :=
  if tags.length > 0 then "tags:\n".toList ++ tags.flatMap fun tag => "  - ".toList ++ tag ++ "\n".toList
  else []

/-- One sub-entry of the watch history. -/
def watchEntry (watchedDate rating review : Str) : Str :=
  "### ".toList ++ watchedDate ++ "\n".toList
    ++ (if rating.isEmpty then [] else "**Rating:** ".toList ++ rating ++ "\n".toList)
    ++ (if review.isEmpty then [] else "**Review:** ".toList ++ review ++ "\n".toList)
    ++ "\n".toList

/-- The text that `createNewMovieFile` hands to `vault.create`. -/
def createNewMovieFile (settings : Settings) (row : Row) (posterUrl : Str) : Str :=
  let frontmatter := "---\n".toList ++ frontmatterFields (objectEntries row)
    ++ posterLine posterUrl ++ "watches: 1\n".toList ++ tagsBlock (getTagsArray settings)
    ++ "---\n\n".toList
  let content := firstTruthy row ["content".toList]
  let watchedDate := firstTruthy row ["Watched Date".toList, "Date".toList]
  let rating := firstTruthy row ["Rating".toList]
  let review := firstTruthy row ["Review".toList]
  let watchHistory := "## Watch History\n\n".toList ++ watchEntry watchedDate rating review
  frontmatter ++ content ++ "\n\n".toList ++ watchHistory

/-- The counter step of `appendWatchEntry` on the captured front-matter. -/
def bumpWatches (frontmatter : Str) : Str :=
  if includes "watches:".toList frontmatter then
    match matchWatches frontmatter with
    | some (before, digits, after) =>
      before ++ "watches: ".toList ++ numToString (addOne (parseInt digits)) ++ after
    | none => frontmatter
  else frontmatter ++ "\nwatches: 2".toList

/-- The poster step of `appendWatchEntry` on the captured front-matter. -/
def addPoster (frontmatter posterUrl : Str) : Str :=
  if !posterUrl.isEmpty && !includes "poster:".toList frontmatter then
    frontmatter ++ "\nposter: '".toList ++ posterUrl ++ "'".toList
  else frontmatter

/-- The front-matter step of `appendWatchEntry`: the content with its
front-matter block replaced, or the content itself without such a block. -/
def updateFrontmatter (content posterUrl : Str) : Str :=
  match matchFrontmatter content with
  | some (frontmatter, after) =>
    expandTemplate ("---\n".toList ++ frontmatter ++ "\n---".toList) [] after []
        ("---\n".toList ++ addPoster (bumpWatches frontmatter) posterUrl ++ "\n---".toList)
      ++ after
  | none => content

/-- The history step of `appendWatchEntry`: the entry goes after the first
`## Watch History` heading followed by a blank line, or into a new section. -/
def insertWatchEntry (updatedContent newWatchEntry : Str) : Str :=
  if includes "## Watch History".toList updatedContent then
    match findSplit "## Watch History\n\n".toList updatedContent with
    | some (before, after) =>
      before ++ expandTemplate "## Watch History\n\n".toList before after
        ["## Watch History\n\n".toList] ("$1".toList ++ newWatchEntry) ++ after
    | none => updatedContent
  else updatedContent ++ "\n\n## Watch History\n\n".toList ++ newWatchEntry

/-- The merge under the append policy: `appendWatchEntry` on the text of the
existing document.  `none` is the result `false`, where nothing is written;
`some text` is the result `true` with the text given to `vault.modify`. -/
def appendWatchEntry (content : Str) (row : Row) (posterUrl watchedDate : Str) : Option Str :=
  let rating := firstTruthy row ["Rating".toList]
  let review := firstTruthy row ["Review".toList]
  if !watchedDate.isEmpty && includes ("### ".toList ++ watchedDate) content then none
  else
    some (insertWatchEntry (updateFrontmatter content posterUrl)
      (watchEntry watchedDate rating review))

/-- The captured history of `updateMovieFile`: the match of
`/(## Watch History.*)/s` after two newlines, or nothing. -/
def existingWatchHistory (content : Str) : Str :=
  match findSplit "## Watch History".toList content with
  | some (_, after) => "\n\n".toList ++ ("## Watch History".toList ++ after)
  | none => []

/-- The counter written by `updateMovieFile`: `watchCount`, one more than the
number of the first `watches: ` with digits in the existing text, and 1 when
there is none. -/
def watchCount (existingContent : Str) : Number :=
  match matchWatches existingContent with
  | some (_, digits, _) => addOne (parseInt digits)
  | none => .finite 1

/-- The merge under the update policy: the text that `updateMovieFile` hands to
`vault.modify`. -/
def updateMovieFile (settings : Settings) (content : Str) (row : Row) (posterUrl : Str) : Str :=
  let frontmatter := "---\n".toList ++ frontmatterFields (objectEntries row)
    ++ posterLine posterUrl
    ++ "watches: ".toList ++ numToString (watchCount content) ++ "\n".toList
    ++ tagsBlock (getTagsArray settings) ++ "---\n\n".toList
  let newContent := firstTruthy row ["content".toList]
  frontmatter ++ newContent ++ existingWatchHistory content

/-! ## The vault and the import loop -/

/-- Modelled from the spec: the host application's document store, which is
not part of the repository.  It is the injected collaborator of the design
notes, a finite map from document paths to document texts. -/
abbrev Vault := List (Str × Str)

/-- The text of the document at a path: `getAbstractFileByPath` followed by
`vault.read`. -/
def vaultRead (vault : Vault) (path : Str) : Option Str :=
  match vault with
  | [] => none
  | (p, text) :: rest => if p = path then some text else vaultRead rest path

/-- Replaces the text of the document at a path: `vault.modify`. -/
def vaultModify (path text : Str) : Vault → Vault
  | [] => []
  | (p, old) :: rest =>
    if p = path then (p, text) :: rest else (p, old) :: vaultModify path text rest

/-- Adds a document: `vault.create`, which is rejected when a document with
that path exists. -/
def vaultCreate (vault : Vault) (path text : Str) : Except Str Vault :=
  if (vaultRead vault path).isSome then .error "File already exists.".toList
  else .ok (vault ++ [(path, text)])

/-- The three counters of an import run. -/
structure Counters where
  count : Nat
  updated : Nat
  skipped : Nat
  deriving DecidableEq, Repr

/-- The state threaded through the import loop. -/
structure ImportState where
  vault : Vault
  counters : Counters
  deriving DecidableEq, Repr

/-- The title of a row: the first alias with a value. -/
def rowTitle (row : Row) : Str :=
  firstTruthy row ["Name".toList, "name".toList, "Title".toList, "title".toList,
    "Film".toList, "film".toList, "Movie".toList, "movie".toList]

/-- The year of a row. -/
def rowYear (row : Row) : Str :=
  firstTruthy row ["Year".toList, "year".toList]

/-- The watched date of a row, as `processCsvData` reads it. -/
def rowWatchedDate (row : Row) : Str :=
  firstTruthy row ["Watched Date".toList, "Date".toList, "date".toList]

/-- The path of the document of a row with a title. -/
def rowFilePath (settings : Settings) (row : Row) : Str :=
  settings.outputFolder ++ "/".toList
    ++ (sanitizeFilename (trim (rowTitle row))
      ++ (if (rowYear row).isEmpty then [] else " (".toList ++ rowYear row ++ ")".toList)
      ++ ".md".toList)

/-- One iteration of the loop of `processCsvData`.  `fetchPoster` stands for
the awaited `getMoviePosterUrl(cleanTitle)`.  An error result stands for an
exception, which leaves the loop. -/
def processRow (settings : Settings) (fetchPoster : Str → Str) (st : ImportState) (row : Row) :
    Except Str ImportState :=
  let title := rowTitle row
  let watchedDate := rowWatchedDate row
  if title.isEmpty || (trim title).isEmpty then
    .ok { st with counters := { st.counters with skipped := st.counters.skipped + 1 } }
  else
    let posterUrl := fetchPoster (trim title)
    let filePath := rowFilePath settings row
    let create : Except Str ImportState :=
      match vaultCreate st.vault filePath (createNewMovieFile settings row posterUrl) with
      | .ok vault =>
        .ok { vault := vault, counters := { st.counters with count := st.counters.count + 1 } }
      | .error e => .error e
    match vaultRead st.vault filePath with
    | some content =>
      if settings.duplicateHandling = "skip".toList then
        .ok { st with counters := { st.counters with skipped := st.counters.skipped + 1 } }
      else if settings.duplicateHandling = "append".toList then
        match appendWatchEntry content row posterUrl watchedDate with
        | some updatedContent =>
          .ok { vault := vaultModify filePath updatedContent st.vault,
                counters := { st.counters with updated := st.counters.updated + 1 } }
        | none => .ok { st with counters := { st.counters with skipped := st.counters.skipped + 1 } }
      else if settings.duplicateHandling = "update".toList then
        .ok { vault := vaultModify filePath (updateMovieFile settings content row posterUrl) st.vault,
              counters := { st.counters with updated := st.counters.updated + 1 } }
      else create
    | none => create

/-- The result of an import run: the documents as the run leaves them, and the
reported counters, or the message of the error that ended the run. -/
structure ImportResult where
  vault : Vault
  summary : Except Str Counters

/-- The loop of `processCsvData` over the parsed rows; `index` numbers the
rows, so that the poster lookup may answer differently at each row. -/
def processRows (settings : Settings) (fetchPoster : Nat → Str → Str) :
    Nat → List Row → ImportState → ImportResult
  | _, [], st => { vault := st.vault, summary := .ok st.counters }
  | index, row :: rows, st =>
    match processRow settings (fetchPoster index) st row with
    | .ok next => processRows settings fetchPoster (index + 1) rows next
    | .error e => { vault := st.vault, summary := .error e }

/-- The import of one export text into a vault: `processCsvData`. -/
def processCsvData (settings : Settings) (fetchPoster : Nat → Str → Str) (vault : Vault)
    (csvContent : Str) : ImportResult :=
  match parseCSV csvContent with
  | .ok rows =>
    processRows settings fetchPoster 0 rows { vault := vault, counters := ⟨0, 0, 0⟩ }
  | .error e => { vault := vault, summary := .error e }

/-! ## Definitions used to state the properties -/

/-- The CSV encoding of one value: inner double quotes doubled. -/
def escapeField (value : Str) : Str :=
  value.flatMap fun c => if c = '"' then ['"', '"'] else [c]

/-- The CSV encoding of one value, wrapped in double quotes. -/
def quoteField (value : Str) : Str :=
  '"' :: (escapeField value ++ ['"'])

/-- The CSV encoding of a list of values: quoted values joined by commas. -/
def encodeLine : List Str → Str
  | [] => []
  | [value] => quoteField value
  | value :: next :: values => quoteField value ++ ',' :: encodeLine (next :: values)


/-- The two line export of the end-to-end example. -/
def heatCsv : Str :=
  "Name,Year,Watched Date,Rating\n\"Heat\",1995,2024-01-01,5".toList

/-- The row read from the export of the end-to-end example. -/
def heatRow : Row :=
  [("Name".toList, "Heat".toList), ("Year".toList, "1995".toList),
    ("Watched Date".toList, "2024-01-01".toList), ("Rating".toList, "5".toList)]

/-- A document with one viewing, on `2024-01-10`. -/
def substringDoc : Str :=
  "---\nName: 'Heat'\nwatches: 1\n---\n\n\n\n## Watch History\n\n### 2024-01-10\n\n".toList

/-- A line is non-empty when it has a character that is not white space. -/
def isNonEmptyLine (line : Str) : Bool :=
  line.any fun c => !isWhiteSpace c

/-- The non-empty lines of a text. -/
def nonEmptyLines (text : Str) : List Str :=
  (splitOn '\n' text).filter isNonEmptyLine

/-- Counts the non-empty lines in one pass; `seen` tells whether the line
being read already has a character that is not white space. -/
def countNonEmptyFrom : Bool → Str → Nat
  | seen, [] => if seen then 1 else 0
  | seen, c :: cs =>
    if c = '\n' then (if seen then 1 else 0) + countNonEmptyFrom false cs
    else countNonEmptyFrom (seen || !isWhiteSpace c) cs

/-- The row a data line contributes: none for a blank line or a line whose
field count differs from the header count, else the row that pairs the column
names with the parsed fields. -/
def rowOfLine (headers : List Str) (line : Str) : Option Row :=
  if isNonEmptyLine line && decide ((parseCSVLine line).length = headers.length) then
    some (fillRow headers (parseCSVLine line) [])
  else none

/-- The header line of an export: the first line of the trimmed text. -/
def headerLine (csvContent : Str) : Str :=
  (splitOn '\n' (trim csvContent)).headD []

/-- The data lines of an export: the lines of the trimmed text after the
first. -/
def dataLines (csvContent : Str) : List Str :=
  (splitOn '\n' (trim csvContent)).tail

/-- Settings with the append policy, the output folder `Movies` and no tags. -/
def appendSettings : Settings :=
  { tmdbApiKey := [], outputFolder := "Movies".toList, imageSize := "w185".toList,
    duplicateHandling := "append".toList, tags := [] }

/-- A poster lookup that finds nothing. -/
def noPoster : Nat → Str → Str :=
  fun _ _ => []

/-- An export whose watched date is carried in the column `date`. -/
def lowercaseDateCsv : Str :=
  "Name,date\nHeat,2024-01-01".toList

/-- The front-matter that `updateMovieFile` regenerates from the new row, the
poster, the tags of the settings and a counter value. -/
def regeneratedFrontmatter (settings : Settings) (row : Row) (posterUrl counter : Str) : Str :=
  "---\n".toList ++ frontmatterFields (objectEntries row) ++ posterLine posterUrl
    ++ "watches: ".toList ++ counter ++ "\n".toList
    ++ tagsBlock (getTagsArray settings) ++ "---\n\n".toList

/-- An old document with the counter 5 and one viewing. -/
def countedDoc : Str :=
  "---\nwatches: 5\n---\n\n## Watch History\n\n### 2024-01-01\n\n".toList

/-- An old document without counter and with the same history section. -/
def uncountedDoc : Str :=
  "---\nName: 'Heat'\n---\n\n## Watch History\n\n### 2024-01-01\n\n".toList

/-- A front-matter block with one field and the counter 1. -/
def heatBlock : Str :=
  "Name: 'Heat'\nwatches: 1".toList

/-- The body of a document with one viewing, on `2024-01-01`. -/
def heatBody : Str :=
  "\n\n\n\n## Watch History\n\n### 2024-01-01\n\n".toList

/-- A document whose field `Review` holds the text of a counter. -/
def reviewDoc : Str :=
  "---\nName: 'Heat'\nReview: 'watches: 3 times'\nwatches: 1\n---\n\n\n\n## Watch History\n\n### 2024-01-01\n**Review:** watches: 3 times\n\n".toList

/-- The tag lines of a front-matter block, each with its leading newline. -/
def tagsTail (tags : List Str) : Str :=
  if tags.length > 0 then "\ntags:".toList ++ tags.flatMap fun tag => "\n  - ".toList ++ tag
  else []

/-- The lines of a new front-matter before its counter line: the fields of the
row and the poster. -/
def createdFields (row : Row) (posterUrl : Str) : Str :=
  frontmatterFields (objectEntries row) ++ posterLine posterUrl

/-- The front-matter block of a document made by `createNewMovieFile`, between
its two three dash lines, with the text `watches` as its counter. -/
def createdBlock (settings : Settings) (row : Row) (posterUrl watches : Str) : Str :=
  createdFields row posterUrl ++ "watches: ".toList ++ watches
    ++ tagsTail (getTagsArray settings)

/-- Two viewings of one film whose dates are `2024-01-10` and `2024-01-1`. -/
def prefixDateRows : List Row :=
  [[("Name".toList, "Heat".toList), ("Watched Date".toList, "2024-01-10".toList)],
    [("Name".toList, "Heat".toList), ("Watched Date".toList, "2024-01-1".toList)]]

/-- Two viewings of one film on distinct dates, the first with a review that
ends in a dollar. -/
def dollarReviewRows : List Row :=
  [[("Name".toList, "Heat".toList), ("Watched Date".toList, "2024-01-01".toList),
      ("Review".toList, "cost 5$".toList)],
    [("Name".toList, "Heat".toList), ("Watched Date".toList, "2024-02-02".toList)]]

/-- A document without counter in its front-matter and with the text of a
counter in its body. -/
def bodyCounterDoc : Str :=
  "---\nName: 'Heat'\n---\n\nwatches: 7\n\n## Watch History\n\n### 2024-01-01\n\n".toList

/-- Two viewings of one film on distinct dates. -/
def twoViewingRows : List Row :=
  [[("Name".toList, "Heat".toList), ("Watched Date".toList, "2024-01-01".toList),
      ("Rating".toList, "4".toList)],
    [("Name".toList, "Heat".toList), ("Watched Date".toList, "2024-02-02".toList),
      ("Rating".toList, "5".toList)]]

/-- The number of commas of a line that lie outside quotes: a comma is outside
quotes when an even number of double quotes precedes it.  `inside` tells
whether the number of double quotes read so far is odd. -/
def commasOutsideQuotes : Bool → Str → Nat
  | _, [] => 0
  | inside, c :: cs =>
    if c = '"' then commasOutsideQuotes (!inside) cs
    else (if c = ',' && !inside then 1 else 0) + commasOutsideQuotes inside cs

/-- An export whose first column name is quoted and contains a comma. -/
def quotedHeaderCsv : Str :=
  "\"Name, Original\",Year\n\"Heat, The\",1995".toList

/-- The nine characters that `sanitizeFilename` replaces. -/
def forbiddenChars : Str :=
  "\\/*?:\"<>|".toList

/-- The file name that `processCsvData` derives for a row: the sanitised title,
the year in parentheses when there is one, and the extension. -/
def rowFileName (row : Row) : Str :=
  sanitizeFilename (trim (rowTitle row))
    ++ (if (rowYear row).isEmpty then [] else " (".toList ++ rowYear row ++ ")".toList)
    ++ ".md".toList

/-- The sum of the three counters of a run. -/
def totalCount (counters : Counters) : Nat :=
  counters.count + counters.updated + counters.skipped

/-- An export with a created, an appended and an untitled row. -/
def mixedCsv : Str :=
  "Name,Watched Date\nHeat,2024-01-01\nHeat,2024-02-02\n,2024-03-03".toList

/-- Replaces every pair of single quotes by one single quote, from the left. -/
def unescapeQuotes : Str → Str
  | [] => []
  | c :: rest =>
    match rest with
    | [] => [c]
    | d :: rest2 =>
      if c = '\'' && d = '\'' then '\'' :: unescapeQuotes rest2
      else c :: unescapeQuotes (d :: rest2)

/-- The front-matter line of one column: the key, a colon and the value in
single quotes, with every single quote of the value doubled. -/
def fieldLine (column : Str × Str) : Str :=
  column.1 ++ ": '".toList ++ escapeQuotes column.2 ++ "'\n".toList

/-- One front-matter line for each column whose value is not empty, in the
order of the list. -/
def fieldLines (columns : List (Str × Str)) : Str :=
  (columns.filter fun column => !column.2.isEmpty).flatMap fieldLine

/-- A row with a column whose name is an array index. -/
def indexKeyRow : Row :=
  [("Name".toList, "Heat".toList), ("2024".toList, "x".toList)]

/-- A document with a front-matter block and no history section. -/
def plainDoc : Str :=
  "---\nwatches: 1\n---\nbody".toList

/-- A document without front-matter whose history heading is followed by one
newline only. -/
def tightHeadingDoc : Str :=
  "## Watch History\n### 2024-01-01\n".toList

/-- A document without front-matter, with a history section of one viewing. -/
def bareHistoryDoc : Str :=
  "## Watch History\n\n### 2024-01-01\n\n".toList
/-! ## The field splitter undoes CSV quoting -/

theorem parseCSVLineLoop_nil (result : List Str) (current : Str) (q : Bool) :
    parseCSVLineLoop [] result current q = result ++ [trim current] := by
  simp [parseCSVLineLoop]

theorem parseCSVLineLoop_comma (rest : Str) (result : List Str) (current : Str) :
    parseCSVLineLoop (',' :: rest) result current false
      = parseCSVLineLoop rest (result ++ [trim current]) [] false := by
  cases rest <;> simp [parseCSVLineLoop]

theorem parseCSVLineLoop_open (rest : Str) (result : List Str) (current : Str) :
    parseCSVLineLoop ('"' :: rest) result current false
      = parseCSVLineLoop rest result current true := by
  cases rest <;> simp [parseCSVLineLoop]

theorem parseCSVLineLoop_escaped (rest : Str) (result : List Str) (current : Str) :
    parseCSVLineLoop ('"' :: '"' :: rest) result current true
      = parseCSVLineLoop rest result (current ++ ['"']) true := by
  simp [parseCSVLineLoop]

theorem parseCSVLineLoop_close (rest : Str) (result : List Str) (current : Str)
    (h : rest.head? ≠ some '"') :
    parseCSVLineLoop ('"' :: rest) result current true
      = parseCSVLineLoop rest result current false := by
  cases rest with
  | nil => simp [parseCSVLineLoop]
  | cons d rest =>
    have hd : d ≠ '"' := by simpa using h
    simp [parseCSVLineLoop, hd]

theorem parseCSVLineLoop_plain (c : Char) (rest : Str) (result : List Str) (current : Str)
    (h : c ≠ '"') :
    parseCSVLineLoop (c :: rest) result current true
      = parseCSVLineLoop rest result (current ++ [c]) true := by
  cases rest <;> simp [parseCSVLineLoop, h]


theorem parseCSVLineLoop_quoted (value rest : Str) (result : List Str) (current : Str)
    (h : rest.head? ≠ some '"') :
    parseCSVLineLoop (escapeField value ++ '"' :: rest) result current true
      = parseCSVLineLoop rest result (current ++ value) false := by
  induction value generalizing current with
  | nil => simpa [escapeField] using parseCSVLineLoop_close rest result current h
  | cons c value ih =>
    by_cases hc : c = '"'
    · subst hc
      have : escapeField ('"' :: value) = '"' :: '"' :: escapeField value := by
        simp [escapeField]
      rw [this]
      simp only [List.cons_append]
      rw [parseCSVLineLoop_escaped, ih]
      simp
    · have : escapeField (c :: value) = c :: escapeField value := by
        simp [escapeField, hc]
      rw [this]
      simp only [List.cons_append]
      rw [parseCSVLineLoop_plain _ _ _ _ hc, ih]
      simp

theorem parseCSVLineLoop_encodeLine (values : List Str) (hne : values ≠ []) (result : List Str) :
    parseCSVLineLoop (encodeLine values) result [] false = result ++ values.map trim := by
  induction values generalizing result with
  | nil => exact absurd rfl hne
  | cons value values ih =>
    cases values with
    | nil =>
      have h := parseCSVLineLoop_quoted value [] result [] (by simp)
      simp only [encodeLine, quoteField]
      rw [parseCSVLineLoop_open, h, parseCSVLineLoop_nil]
      simp
    | cons next values =>
      have h := parseCSVLineLoop_quoted value (',' :: encodeLine (next :: values)) result []
        (by simp)
      simp only [encodeLine, quoteField, List.cons_append, List.append_assoc,
        List.singleton_append, List.nil_append]
      rw [parseCSVLineLoop_open, h, parseCSVLineLoop_comma, ih (by simp)]
      simp

/-- C4. `parseCSVLine` undoes CSV quoting: when every value of a non-empty list
is wrapped in double quotes with its inner double quotes doubled, and the
encoded values are joined by commas, `parseCSVLine` returns the original
values, each trimmed, in the same number and order.  (Values with a newline
included: the field splitter treats a newline as any other character.) -/
theorem parseCSVLine_encodeLine (values : List Str) (hne : values ≠ []) :
    parseCSVLine (encodeLine values) = values.map trim := by
  simpa [parseCSVLine] using parseCSVLineLoop_encodeLine values hne []

/-- C4, witness: the line `"Smith, ""Bob"""` yields the single field
`Smith, "Bob"`. -/
theorem parseCSVLine_encodeLine_witness :
    encodeLine ["Smith, \"Bob\"".toList] = "\"Smith, \"\"Bob\"\"\"".toList
      ∧ parseCSVLine "\"Smith, \"\"Bob\"\"\"".toList = ["Smith, \"Bob\"".toList] :=
  ⟨by decide, by
    have h := parseCSVLine_encodeLine ["Smith, \"Bob\"".toList] (by simp)
    have e : encodeLine ["Smith, \"Bob\"".toList] = "\"Smith, \"\"Bob\"\"\"".toList := by decide
    have t : ["Smith, \"Bob\"".toList].map trim = ["Smith, \"Bob\"".toList] := by decide
    rw [e, t] at h
    exact h⟩


/-! ## The end-to-end example and the skip policy -/

theorem parseCSV_heat : parseCSV heatCsv = .ok [heatRow] := by rfl

theorem createNewMovieFile_heat (settings : Settings) (posterUrl : Str) :
    createNewMovieFile settings heatRow posterUrl
      = "---\nName: 'Heat'\nYear: '1995'\nWatched Date: '2024-01-01'\nRating: '5'\n".toList
        ++ posterLine posterUrl ++ "watches: 1\n".toList ++ tagsBlock (getTagsArray settings)
        ++ "---\n\n\n\n## Watch History\n\n### 2024-01-01\n**Rating:** 5\n\n".toList := by
  have h1 : frontmatterFields (objectEntries heatRow)
      = "Name: 'Heat'\nYear: '1995'\nWatched Date: '2024-01-01'\nRating: '5'\n".toList := by decide
  have h2 : firstTruthy heatRow ["content".toList] = [] := by decide
  have h3 : firstTruthy heatRow ["Watched Date".toList, "Date".toList] = "2024-01-01".toList := by
    decide
  have h4 : firstTruthy heatRow ["Rating".toList] = "5".toList := by decide
  have h5 : firstTruthy heatRow ["Review".toList] = [] := by decide
  have h6 : watchEntry "2024-01-01".toList "5".toList [] = "### 2024-01-01\n**Rating:** 5\n\n".toList := by decide
  simp only [createNewMovieFile, h1, h2, h3, h4, h5, h6]
  simp


theorem processRow_heat (settings : Settings) (fetchPoster : Str → Str) :
    processRow settings fetchPoster { vault := [], counters := ⟨0, 0, 0⟩ } heatRow
      = .ok { vault := [(settings.outputFolder ++ "/Heat (1995).md".toList,
                createNewMovieFile settings heatRow (fetchPoster "Heat".toList))],
              counters := ⟨1, 0, 0⟩ } := by
  have h1 : rowTitle heatRow = "Heat".toList := by decide
  have h2 : trim "Heat".toList = "Heat".toList := by decide
  have h3 : rowYear heatRow = "1995".toList := by decide
  have h4 : sanitizeFilename "Heat".toList = "Heat".toList := by decide
  have h5 : rowFilePath settings heatRow = settings.outputFolder ++ "/Heat (1995).md".toList := by
    have h : "/".toList ++ ("Heat".toList
        ++ (if "1995".toList.isEmpty then [] else " (".toList ++ "1995".toList ++ ")".toList)
        ++ ".md".toList) = "/Heat (1995).md".toList := by decide
    simp only [rowFilePath, h1, h2, h3, h4, List.append_assoc]
    simp only [List.append_assoc] at h
    rw [h]
  simp only [processRow, h1, h2, h5, vaultRead, vaultCreate]
  rfl

/-- C7. End-to-end: on an empty document set, for every poster lookup and all
settings (tags and duplicate handling included), `processCsvData` on the two
line export of `Heat` creates exactly one document, `Heat (1995).md` under the
output folder, and reports one created, none updated and none skipped.  The
text has the front-matter lines of the four columns in order, `Rating: '5'`
among them, then the poster line if there is a poster, `watches: 1` and the
tags, and it ends with the history section holding `### 2024-01-01` and
`**Rating:** 5`. -/
theorem processCsvData_heat (settings : Settings) (fetchPoster : Nat → Str → Str) :
    (processCsvData settings fetchPoster [] heatCsv).summary = .ok ⟨1, 0, 0⟩
      ∧ (processCsvData settings fetchPoster [] heatCsv).vault
        = [(settings.outputFolder ++ "/Heat (1995).md".toList,
            "---\nName: 'Heat'\nYear: '1995'\nWatched Date: '2024-01-01'\nRating: '5'\n".toList
              ++ posterLine (fetchPoster 0 "Heat".toList) ++ "watches: 1\n".toList
              ++ tagsBlock (getTagsArray settings)
              ++ "---\n\n\n\n## Watch History\n\n### 2024-01-01\n**Rating:** 5\n\n".toList)] := by
  simp only [processCsvData, parseCSV_heat, processRows, processRow_heat,
    createNewMovieFile_heat]
  simp


/-- C8. Under the skip policy, a row whose file path names an existing
document leaves every document as it was (nothing is created, nothing is
modified), adds exactly one to the skipped counter and leaves the created and
updated counters unchanged. -/
theorem processRow_skip_existing (settings : Settings) (fetchPoster : Str → Str)
    (st : ImportState) (row : Row)
    (hpolicy : settings.duplicateHandling = "skip".toList)
    (hexists : (vaultRead st.vault (rowFilePath settings row)).isSome) :
    processRow settings fetchPoster st row
      = .ok { vault := st.vault,
              counters := { count := st.counters.count, updated := st.counters.updated,
                            skipped := st.counters.skipped + 1 } } := by
  obtain ⟨content, hcontent⟩ := Option.isSome_iff_exists.mp hexists
  unfold processRow
  simp only [hcontent, hpolicy]
  split <;> simp

/-- C8, witness: the row of `Heat` met again under the skip policy. -/
theorem processRow_skip_existing_witness :
    processRow ⟨[], "Movies".toList, [], "skip".toList, []⟩ (fun _ => [])
        { vault := [("Movies/Heat (1995).md".toList, "old".toList)], counters := ⟨3, 2, 1⟩ } heatRow
      = .ok { vault := [("Movies/Heat (1995).md".toList, "old".toList)], counters := ⟨3, 2, 2⟩ } :=
  processRow_skip_existing ⟨[], "Movies".toList, [], "skip".toList, []⟩ (fun _ => [])
    { vault := [("Movies/Heat (1995).md".toList, "old".toList)], counters := ⟨3, 2, 1⟩ } heatRow
    rfl (by decide)


/-! ## Searching a text -/

theorem includes_iff (pat s : Str) : includes pat s = true ↔ pat <:+: s := by
  induction s with
  | nil => simp [includes]
  | cons c cs ih =>
    rw [includes, Bool.or_eq_true, ih, List.infix_cons_iff, List.isPrefixOf_iff_prefix]

theorem includes_eq_false_iff (pat s : Str) : includes pat s = false ↔ ¬ pat <:+: s := by
  rw [← includes_iff]; simp

theorem findSplit_eq_some (pat s before after : Str) (h : findSplit pat s = some (before, after)) :
    s = before ++ pat ++ after := by
  induction s generalizing before with
  | nil =>
    simp only [findSplit] at h
    split at h
    · rename_i hp
      simp at hp
      simp at h
      obtain ⟨rfl, rfl⟩ := h
      simp [hp]
    · simp at h
  | cons c cs ih =>
    simp only [findSplit] at h
    split at h
    · rename_i hp
      rw [List.isPrefixOf_iff_prefix] at hp
      simp at h
      obtain ⟨rfl, rfl⟩ := h
      obtain ⟨t, ht⟩ := hp
      rw [← ht]
      simp
    · split at h
      · rename_i b a heq
        simp at h
        obtain ⟨rfl, rfl⟩ := h
        rw [ih b heq]
        simp
      · simp at h

theorem findSplit_eq_none_iff (pat s : Str) : findSplit pat s = none ↔ ¬ pat <:+: s := by
  induction s with
  | nil => simp [findSplit]
  | cons c cs ih =>
    rw [findSplit, List.infix_cons_iff]
    split
    · rename_i hp
      rw [List.isPrefixOf_iff_prefix] at hp
      simp [hp]
    · rename_i hp
      rw [List.isPrefixOf_iff_prefix] at hp
      split
      · rename_i b a heq
        have : ¬ (findSplit pat cs = none) := by simp [heq]
        simp only [ih, not_not] at this
        simp [this]
      · rename_i heq
        simp [hp, ih.mp heq]

/-- The text before the leftmost occurrence: when `pat` does not begin at any
position inside `before`, the search in `before ++ rest` continues in `rest`. -/
theorem findSplit_append (pat before rest : Str)
    (h : ∀ i, i < before.length → ¬ pat <+: before.drop i ++ rest) :
    findSplit pat (before ++ rest)
      = (findSplit pat rest).map fun r => (before ++ r.1, r.2) := by
  induction before with
  | nil => cases hr : findSplit pat rest <;> simp [hr]
  | cons c cs ih =>
    have h0 := h 0 (by simp)
    have ih2 := ih (fun i hi => by simpa using h (i + 1) (by simpa using hi))
    simp only [List.drop_zero] at h0
    rw [List.cons_append, findSplit,
      if_neg (by rw [List.isPrefixOf_iff_prefix]; simpa using h0), ih2]
    cases hr : findSplit pat rest <;> simp

theorem findSplit_self_append (pat rest : Str) :
    findSplit pat (pat ++ rest) = some ([], rest) := by
  cases pat with
  | nil => cases rest <;> simp [findSplit]
  | cons p ps =>
    simp only [List.cons_append, findSplit]
    rw [if_pos (by rw [List.isPrefixOf_iff_prefix]; exact ⟨rest, rfl⟩)]
    simp


theorem splitOn_ne_nil (sep : Char) (s : Str) : splitOn sep s ≠ [] := by
  induction s with
  | nil => simp [splitOn]
  | cons c cs ih =>
    rw [splitOn]
    split
    · simp
    · split <;> simp

theorem splitOn_cons_ne (sep c : Char) (cs : Str) (h : c ≠ sep) :
    splitOn sep (c :: cs)
      = (c :: (splitOn sep cs).headD []) :: (splitOn sep cs).tail := by
  rw [splitOn, if_neg h]
  split
  · rename_i heq
    exact absurd heq (splitOn_ne_nil sep cs)
  · rename_i first others heq
    simp [heq]

theorem splitOn_headD_initial (sep : Char) (s : Str) : (splitOn sep s).headD [] <+: s := by
  induction s with
  | nil => simp [splitOn]
  | cons c cs ih =>
    by_cases h : c = sep
    · simp [splitOn, h]
    · rw [splitOn_cons_ne sep c cs h]
      simpa [List.prefix_cons_inj] using ih

theorem infix_of_mem_splitOn (sep : Char) (s piece : Str) (h : piece ∈ splitOn sep s) :
    piece <:+: s := by
  induction s generalizing piece with
  | nil =>
    simp only [splitOn, List.mem_singleton] at h
    subst h
    exact List.infix_refl _
  | cons c cs ih =>
    by_cases hc : c = sep
    · rw [splitOn, if_pos hc] at h
      rcases List.mem_cons.mp h with h | h
      · subst h
        exact List.nil_infix
      · exact (ih piece h).trans (List.suffix_cons c cs).isInfix
    · rw [splitOn_cons_ne sep c cs hc] at h
      rcases List.mem_cons.mp h with h | h
      · subst h
        exact ((List.prefix_cons_inj c).mpr (splitOn_headD_initial sep cs)).isInfix
      · exact (ih piece (List.mem_of_mem_tail h)).trans (List.suffix_cons c cs).isInfix

/-! ## The duplicate test of the append policy -/

theorem appendWatchEntry_eq_none_iff_aux (content : Str) (row : Row)
    (posterUrl watchedDate : Str) :
    appendWatchEntry content row posterUrl watchedDate = none
      ↔ watchedDate ≠ [] ∧ "### ".toList ++ watchedDate <:+: content := by
  unfold appendWatchEntry
  simp only []
  split
  · rename_i h
    simp only [Bool.and_eq_true, Bool.not_eq_true', List.isEmpty_eq_false, includes_iff] at h
    simpa using h
  · rename_i h
    simp only [Bool.and_eq_true, Bool.not_eq_true', List.isEmpty_eq_false, includes_iff] at h
    simpa using h

/-- The duplicate test of `appendWatchEntry` is a search for a substring: the
function signals skip exactly when the watched date is not empty and the text
`### ` followed by the date occurs somewhere in the existing document; in
particular it skips when a line of the document is exactly that sub-heading. -/
theorem appendWatchEntry_eq_none_iff (content : Str) (row : Row) (posterUrl watchedDate : Str) :
    (appendWatchEntry content row posterUrl watchedDate = none
        ↔ watchedDate ≠ [] ∧ "### ".toList ++ watchedDate <:+: content)
      ∧ (watchedDate ≠ [] → "### ".toList ++ watchedDate ∈ splitOn '\n' content
          → appendWatchEntry content row posterUrl watchedDate = none) :=
  ⟨appendWatchEntry_eq_none_iff_aux content row posterUrl watchedDate,
    fun hd hmem => (appendWatchEntry_eq_none_iff_aux content row posterUrl watchedDate).mpr
      ⟨hd, infix_of_mem_splitOn _ _ _ hmem⟩⟩

/-- An instance of the duplicate test: the document with the sub-heading
`### 2024-01-10` skips a second viewing on `2024-01-10`. -/
theorem appendWatchEntry_eq_none_iff_witness :
    appendWatchEntry substringDoc [("Name".toList, "Heat".toList)] [] "2024-01-10".toList
      = none :=
  (appendWatchEntry_eq_none_iff substringDoc [("Name".toList, "Heat".toList)] []
    "2024-01-10".toList).2 (by decide) (by decide)

/-- C9, the code at the failing input. The document has the single sub-heading
`### 2024-01-10` and no line `### 2024-01-1`, yet a viewing on `2024-01-1` is
skipped and nothing is written: the duplicate test finds the text
`### 2024-01-1` at the beginning of the longer sub-heading. -/
theorem appendWatchEntry_skips_without_exact_heading :
    "### 2024-01-1".toList ∉ splitOn '\n' substringDoc
      ∧ appendWatchEntry substringDoc [("Name".toList, "Heat".toList)] [] "2024-01-1".toList
          = none := by
  decide

/-! ## The format error of the reader -/

theorem trimStart_spec (s : Str) :
    ∃ w, s = w ++ trimStart s ∧ (∀ c ∈ w, isWhiteSpace c = true)
      ∧ ∀ c ∈ (trimStart s).head?, isWhiteSpace c = false := by
  induction s with
  | nil => exact ⟨[], by simp [trimStart]⟩
  | cons c cs ih =>
    obtain ⟨w, hw, hall, hhead⟩ := ih
    by_cases hc : isWhiteSpace c = true
    · refine ⟨c :: w, ?_, ?_, ?_⟩
      · simp only [trimStart, hc, if_true, List.cons_append]
        rw [← hw]
      · intro d hd
        rcases List.mem_cons.mp hd with h | h
        · rw [h]; exact hc
        · exact hall d h
      · simpa [trimStart, hc] using hhead
    · refine ⟨[], ?_, by simp, ?_⟩
      · simp [trimStart, hc]
      · simp [trimStart, hc]

theorem trimEnd_spec (s : Str) :
    ∃ w, s = trimEnd s ++ w ∧ (∀ c ∈ w, isWhiteSpace c = true)
      ∧ ∀ c ∈ (trimEnd s).getLast?, isWhiteSpace c = false := by
  obtain ⟨w, hw, hall, hhead⟩ := trimStart_spec s.reverse
  refine ⟨w.reverse, ?_, ?_, ?_⟩
  · have := congrArg List.reverse hw
    simpa [trimEnd] using this
  · intro c hc
    exact hall c (List.mem_reverse.mp hc)
  · simpa [trimEnd, List.getLast?_reverse] using hhead

theorem trim_spec (s : Str) :
    ∃ w1 w2, s = w1 ++ trim s ++ w2 ∧ (∀ c ∈ w1, isWhiteSpace c = true)
      ∧ (∀ c ∈ w2, isWhiteSpace c = true)
      ∧ (∀ c ∈ (trim s).head?, isWhiteSpace c = false)
      ∧ ∀ c ∈ (trim s).getLast?, isWhiteSpace c = false := by
  obtain ⟨w1, h1, hall1, hhead⟩ := trimStart_spec s
  obtain ⟨w2, h2, hall2, hlast⟩ := trimEnd_spec (trimStart s)
  refine ⟨w1, w2, ?_, hall1, hall2, ?_, hlast⟩
  · unfold trim
    rw [List.append_assoc, ← h2, ← h1]
  · unfold trim
    intro c hc
    apply hhead c
    cases hte : trimEnd (trimStart s) with
    | nil => simp [hte] at hc
    | cons a as =>
      rw [hte] at hc h2
      rw [h2]
      simpa using hc


theorem length_splitOn (sep : Char) (s : Str) : (splitOn sep s).length = s.count sep + 1 := by
  induction s with
  | nil => simp [splitOn]
  | cons c cs ih =>
    by_cases h : c = sep
    · subst h
      simp [splitOn, ih]
    · rw [splitOn_cons_ne sep c cs h, List.count_cons_of_ne (Ne.symm h)]
      have := splitOn_ne_nil sep cs
      cases hs : splitOn sep cs with
      | nil => exact absurd hs this
      | cons a as => rw [hs] at ih; simpa using ih

theorem newline_isWhiteSpace : isWhiteSpace '\n' = true := by decide

theorem countNonEmptyFrom_eq (seen : Bool) (s : Str) :
    countNonEmptyFrom seen s
      = (if seen || isNonEmptyLine ((splitOn '\n' s).headD []) then 1 else 0)
        + ((splitOn '\n' s).tail.filter isNonEmptyLine).length := by
  induction s generalizing seen with
  | nil => simp [countNonEmptyFrom, splitOn, isNonEmptyLine]
  | cons c cs ih =>
    by_cases h : c = '\n'
    · subst h
      rw [countNonEmptyFrom, if_pos rfl, ih false]
      have hne := splitOn_ne_nil '\n' cs
      cases hs : splitOn '\n' cs with
      | nil => exact absurd hs hne
      | cons a as =>
        simp only [splitOn, if_true, hs, List.headD_cons, List.tail_cons, List.filter_cons,
          Bool.false_or]
        simp only [isNonEmptyLine, List.any_nil, Bool.or_false]
        split <;> split <;> simp [Nat.add_comm]
    · rw [countNonEmptyFrom, if_neg h, ih, splitOn_cons_ne _ _ _ h]
      simp only [List.headD_cons, List.tail_cons, isNonEmptyLine, List.any_cons, Bool.or_assoc]

theorem length_nonEmptyLines (s : Str) :
    (nonEmptyLines s).length = countNonEmptyFrom false s := by
  rw [countNonEmptyFrom_eq]
  unfold nonEmptyLines
  have hne := splitOn_ne_nil '\n' s
  cases hs : splitOn '\n' s with
  | nil => exact absurd hs hne
  | cons a as =>
    simp only [List.filter_cons, List.headD_cons, List.tail_cons, Bool.false_or]
    split <;> simp [Nat.add_comm]

theorem countNonEmptyFrom_append_newline (seen : Bool) (a b : Str) :
    countNonEmptyFrom seen (a ++ '\n' :: b)
      = countNonEmptyFrom seen a + countNonEmptyFrom false b := by
  induction a generalizing seen with
  | nil => simp [countNonEmptyFrom]
  | cons c cs ih =>
    by_cases h : c = '\n'
    · subst h
      rw [List.cons_append, countNonEmptyFrom, if_pos rfl, ih, countNonEmptyFrom, if_pos rfl,
        Nat.add_assoc]
    · rw [List.cons_append, countNonEmptyFrom, if_neg h, ih, countNonEmptyFrom, if_neg h]

theorem countNonEmptyFrom_white (w : Str) (hw : ∀ c ∈ w, isWhiteSpace c = true) (seen : Bool) :
    countNonEmptyFrom seen w = if seen then 1 else 0 := by
  induction w generalizing seen with
  | nil => rfl
  | cons c cs ih =>
    have hc := hw c (by simp)
    have ih2 := fun seen => ih (fun d hd => hw d (by simp [hd])) seen
    by_cases h : c = '\n'
    · subst h
      simp [countNonEmptyFrom, ih2]
    · simp [countNonEmptyFrom, h, hc, ih2]

theorem countNonEmptyFrom_append_white (seen : Bool) (a w : Str)
    (hw : ∀ c ∈ w, isWhiteSpace c = true) :
    countNonEmptyFrom seen (a ++ w) = countNonEmptyFrom seen a := by
  induction a generalizing seen with
  | nil => simpa [countNonEmptyFrom] using countNonEmptyFrom_white w hw seen
  | cons c cs ih =>
    by_cases h : c = '\n'
    · subst h
      rw [List.cons_append, countNonEmptyFrom, if_pos rfl, ih, countNonEmptyFrom, if_pos rfl]
    · rw [List.cons_append, countNonEmptyFrom, if_neg h, ih, countNonEmptyFrom, if_neg h]

theorem countNonEmptyFrom_white_append (w a : Str) (hw : ∀ c ∈ w, isWhiteSpace c = true) :
    countNonEmptyFrom false (w ++ a) = countNonEmptyFrom false a := by
  induction w with
  | nil => rfl
  | cons c cs ih =>
    have hc := hw c (by simp)
    have ih2 := ih (fun d hd => hw d (by simp [hd]))
    by_cases h : c = '\n'
    · subst h
      simp [countNonEmptyFrom, ih2]
    · simp [countNonEmptyFrom, h, hc, ih2]

theorem countNonEmptyFrom_le_one (seen : Bool) (s : Str) (h : '\n' ∉ s) :
    countNonEmptyFrom seen s ≤ 1 := by
  induction s generalizing seen with
  | nil => simp only [countNonEmptyFrom]; split <;> simp
  | cons c cs ih =>
    have hc : c ≠ '\n' := fun e => h (by simp [e])
    rw [countNonEmptyFrom, if_neg hc]
    exact ih _ (fun hm => h (by simp [hm]))

theorem countNonEmptyFrom_true_pos (s : Str) : 1 ≤ countNonEmptyFrom true s := by
  induction s with
  | nil => simp [countNonEmptyFrom]
  | cons c cs ih =>
    by_cases h : c = '\n'
    · simp [countNonEmptyFrom, h]
    · simpa [countNonEmptyFrom, h] using ih

theorem countNonEmptyFrom_pos (seen : Bool) (s : Str) (c : Char) (hc : c ∈ s)
    (hw : isWhiteSpace c = false) : 1 ≤ countNonEmptyFrom seen s := by
  induction s generalizing seen with
  | nil => simp at hc
  | cons d ds ih =>
    by_cases h : d = '\n'
    · subst h
      rcases List.mem_cons.mp hc with e | e
      · rw [e, newline_isWhiteSpace] at hw; simp at hw
      · rw [countNonEmptyFrom, if_pos rfl]
        exact Nat.le_trans (ih false e) (Nat.le_add_left _ _)
    · rw [countNonEmptyFrom, if_neg h]
      rcases List.mem_cons.mp hc with e | e
      · subst e
        simpa [hw] using countNonEmptyFrom_true_pos ds
      · exact ih _ e


theorem parseCSV_error_iff_newline (s : Str) :
    parseCSV s = .error formatError ↔ '\n' ∉ trim s := by
  have hlen := length_splitOn '\n' (trim s)
  unfold parseCSV
  split
  · rename_i first second more heq
    rw [heq] at hlen
    have : 0 < (trim s).count '\n' := by simp at hlen; omega
    simp [List.count_pos_iff.mp this]
  · rename_i hno
    have hone : (trim s).count '\n' = 0 := by
      cases hs : splitOn '\n' (trim s) with
      | nil => exact absurd hs (splitOn_ne_nil _ _)
      | cons a as =>
        cases as with
        | nil => rw [hs] at hlen; simpa using hlen.symm
        | cons b bs => exact absurd hs (hno a b bs)
    simpa using List.count_eq_zero.mp hone

theorem parseCSV_ok_or_error (s : Str) :
    parseCSV s = .error formatError ∨ ∃ rows, parseCSV s = .ok rows := by
  unfold parseCSV
  split
  · exact Or.inr ⟨_, rfl⟩
  · exact Or.inl rfl

theorem newline_mem_trim_iff (s : Str) :
    '\n' ∈ trim s ↔ 2 ≤ countNonEmptyFrom false s := by
  obtain ⟨w1, w2, hs, h1, h2, hhead, hlast⟩ := trim_spec s
  have hcount : countNonEmptyFrom false s = countNonEmptyFrom false (trim s) := by
    conv_lhs => rw [hs]
    rw [countNonEmptyFrom_append_white _ _ _ h2, countNonEmptyFrom_white_append _ _ h1]
  rw [hcount]
  constructor
  · intro hmem
    obtain ⟨a, b, hab⟩ := List.append_of_mem hmem
    rw [hab] at hhead hlast
    rw [hab, countNonEmptyFrom_append_newline]
    have ha : 1 ≤ countNonEmptyFrom false a := by
      cases a with
      | nil =>
        have := hhead '\n' (by simp)
        rw [newline_isWhiteSpace] at this
        simp at this
      | cons x xs => exact countNonEmptyFrom_pos _ _ x (by simp) (hhead x (by simp))
    have hb : 1 ≤ countNonEmptyFrom false b := by
      cases hbl : b.getLast? with
      | none =>
        have hbn : b = [] := List.getLast?_eq_none_iff.mp hbl
        subst hbn
        have := hlast '\n' (by simp)
        rw [newline_isWhiteSpace] at this
        simp at this
      | some y =>
        have hyb : y ∈ b := List.mem_of_getLast?_eq_some hbl
        have hne : b ≠ [] := List.ne_nil_of_mem hyb
        have hl : (a ++ '\n' :: b).getLast? = some y := by
          rw [List.getLast?_append, show ('\n' :: b).getLast? = b.getLast? from by
            cases b with
            | nil => exact absurd rfl hne
            | cons z zs => simp [List.getLast?_cons_cons], hbl]
          simp
        exact countNonEmptyFrom_pos _ _ y hyb (hlast y (by rw [hl]; simp))
    omega
  · intro h2le
    by_contra hno
    have := countNonEmptyFrom_le_one false (trim s) hno
    omega

/-- C6. `parseCSV` fails with its format error exactly when the text has fewer
than two non-empty lines, a line being non-empty when it has a character that
is not white space; with two or more non-empty lines it returns a sequence of
rows. -/
theorem parseCSV_error_iff (s : Str) :
    (parseCSV s = .error formatError ↔ (nonEmptyLines s).length < 2)
      ∧ ((∃ rows, parseCSV s = .ok rows) ↔ 2 ≤ (nonEmptyLines s).length) := by
  have herr : parseCSV s = .error formatError ↔ (nonEmptyLines s).length < 2 := by
    rw [parseCSV_error_iff_newline, length_nonEmptyLines, newline_mem_trim_iff]
    omega
  refine ⟨herr, ?_⟩
  constructor
  · rintro ⟨rows, hrows⟩
    by_contra hlt
    have := herr.mpr (by omega)
    rw [hrows] at this
    cases this
  · intro h2
    rcases parseCSV_ok_or_error s with h | h
    · have := herr.mp h
      omega
    · exact h


/-! ## The rows returned by the reader -/

theorem trimStart_eq_nil_iff (s : Str) : trimStart s = [] ↔ ∀ c ∈ s, isWhiteSpace c = true := by
  induction s with
  | nil => simp [trimStart]
  | cons c cs ih =>
    by_cases hc : isWhiteSpace c = true
    · simp [trimStart, hc, ih]
    · simp [trimStart, hc]

theorem trim_eq_nil_iff (s : Str) : trim s = [] ↔ ∀ c ∈ s, isWhiteSpace c = true := by
  constructor
  · intro h
    obtain ⟨w1, w2, hs, h1, h2, -, -⟩ := trim_spec s
    rw [h] at hs
    intro c hc
    rw [hs] at hc
    simp only [List.append_nil, List.mem_append] at hc
    rcases hc with hc | hc
    · exact h1 c hc
    · exact h2 c hc
  · intro h
    have : trimStart s = [] := (trimStart_eq_nil_iff s).mpr h
    simp [trim, this, trimEnd, trimStart]

theorem trim_isEmpty (line : Str) : (trim line).isEmpty = !isNonEmptyLine line := by
  rw [Bool.eq_iff_iff]
  simp only [List.isEmpty_iff, trim_eq_nil_iff, isNonEmptyLine, Bool.not_eq_true',
    List.any_eq_false, Bool.not_eq_true, Bool.not_eq_false]

theorem parseCSVRows_eq (headers : List Str) (lines : List Str) (rows : List Row) :
    parseCSVRows headers lines rows = rows ++ lines.filterMap (rowOfLine headers) := by
  induction lines generalizing rows with
  | nil => simp [parseCSVRows]
  | cons line lines ih =>
    rw [parseCSVRows, trim_isEmpty]
    by_cases hb : isNonEmptyLine line = true
    · by_cases hl : (parseCSVLine line).length = headers.length
      · simp [hb, hl, ih, rowOfLine]
      · simp [hb, hl, ih, rowOfLine]
    · simp [hb, ih, rowOfLine]

theorem rowGet_rowReplace (row : Row) (key value k : Str) :
    rowGet (rowReplace key value row) k
      = if k = key ∧ (rowGet row key).isSome then some value else rowGet row k := by
  induction row with
  | nil => simp [rowReplace, rowGet]
  | cons e row ih =>
    obtain ⟨k1, v1⟩ := e
    by_cases h1 : k1 = key
    · subst h1
      by_cases h2 : k1 = k
      · subst h2; simp [rowReplace, rowGet]
      · have h3 : ¬ k = k1 := fun e => h2 e.symm
        simp [rowReplace, rowGet, h2, h3]
    · by_cases h2 : k1 = k
      · subst h2
        simp [rowReplace, rowGet, h1]
      · simp [rowReplace, rowGet, h1, h2, ih]

theorem rowGet_append_single (row : Row) (key value k : Str) :
    rowGet (row ++ [(key, value)]) k
      = if (rowGet row k).isSome then rowGet row k else if key = k then some value else none := by
  induction row with
  | nil => simp [rowGet]
  | cons e row ih =>
    obtain ⟨k1, v1⟩ := e
    by_cases h1 : k1 = k
    · simp [rowGet, h1]
    · simp [rowGet, h1, ih]

theorem rowGet_rowSet (row : Row) (key value k : Str) :
    rowGet (rowSet row key value) k
      = if key = "__proto__".toList then rowGet row k
        else if k = key then some value else rowGet row k := by
  unfold rowSet
  by_cases hp : key = "__proto__".toList
  · simp [hp]
  · simp only [hp, if_false]
    by_cases hs : (rowGet row key).isSome = true
    · simp only [hs, if_true, rowGet_rowReplace]
      by_cases hk : k = key
      · simp [hk, hs]
      · simp [hk]
    · rw [if_neg hs, rowGet_append_single]
      by_cases hk : k = key
      · subst hk
        simp [hs]
      · have hk2 : ¬ key = k := fun e => hk e.symm
        simp only [hk, hk2, if_false]
        cases rowGet row k <;> simp

theorem rowGet_fillRow_of_not_mem (headers values : List Str) (row : Row) (k : Str)
    (h : k ∉ headers) : rowGet (fillRow headers values row) k = rowGet row k := by
  induction headers generalizing values row with
  | nil => rfl
  | cons hd hs ih =>
    have h1 : k ≠ hd := fun e => h (by simp [e])
    have h2 : k ∉ hs := fun e => h (by simp [e])
    rw [fillRow, ih _ _ h2, rowGet_rowSet]
    simp [h1]

theorem rowGet_fillRow (headers values : List Str) (row : Row) (i : Nat)
    (hi : i < headers.length)
    (hlast : headers.getD i [] ∉ headers.drop (i + 1))
    (hproto : headers.getD i [] ≠ "__proto__".toList) :
    rowGet (fillRow headers values row) (headers.getD i []) = some (values.getD i []) := by
  induction headers generalizing values row i with
  | nil => simp at hi
  | cons hd hs ih =>
    cases i with
    | zero =>
      have hnot : hd ∉ hs := by simpa using hlast
      have hp : hd ≠ "__proto__".toList := by simpa using hproto
      simp only [List.getD_cons_zero]
      rw [fillRow, rowGet_fillRow_of_not_mem _ _ _ _ hnot, rowGet_rowSet]
      simp only [hp, if_false, if_true]
      cases values <;> simp
    | succ n =>
      simp only [List.getD_cons_succ]
      rw [fillRow, ih values.tail _ n (by simpa using hi) (by simpa using hlast)
        (by simpa using hproto)]
      cases values <;> simp

/-- C5, amended. When `parseCSV` does not fail, the returned rows are exactly, in
line order, one row for each line after the first line of the trimmed text that
is not blank and has as many fields as there are column names, and no row for
any other line; so a line with a wrong field count never hides a later line.
In such a row a column name other than `__proto__` maps to the field at the
position of its last occurrence in the header; when the names are pairwise
distinct that is the field at its own position. -/
theorem parseCSV_rows (s : Str) (rows : List Row) (h : parseCSV s = .ok rows) :
    rows = (dataLines s).filterMap (rowOfLine (parseHeaders (headerLine s)))
      ∧ ∀ line row, rowOfLine (parseHeaders (headerLine s)) line = some row →
          ∀ i, i < (parseHeaders (headerLine s)).length →
            (parseHeaders (headerLine s)).getD i [] ∉ (parseHeaders (headerLine s)).drop (i + 1) →
            (parseHeaders (headerLine s)).getD i [] ≠ "__proto__".toList →
            rowGet row ((parseHeaders (headerLine s)).getD i [])
              = some ((parseCSVLine line).getD i []) := by
  constructor
  · unfold parseCSV at h
    unfold dataLines headerLine
    split at h
    · rename_i first second more heq
      rw [heq]
      simp only [Except.ok.injEq] at h
      rw [← h, parseCSVRows_eq]
      simp
    · cases h
  · intro line row hrow i hi hlast hproto
    unfold rowOfLine at hrow
    split at hrow
    · simp only [Option.some.injEq] at hrow
      rw [← hrow]
      exact rowGet_fillRow _ _ _ i hi hlast hproto
    · cases hrow

/-- C5, witness: a short line and a blank line between the header and a valid
line. -/
theorem parseCSV_rows_witness :
    parseCSV "a,b\n1\n\n3,4".toList = .ok [[("a".toList, "3".toList), ("b".toList, "4".toList)]]
      ∧ rowGet [("a".toList, "3".toList), ("b".toList, "4".toList)] "b".toList
          = some "4".toList :=
  ⟨rfl,
    (parseCSV_rows "a,b\n1\n\n3,4".toList
      [[("a".toList, "3".toList), ("b".toList, "4".toList)]] rfl).2
      "3,4".toList [("a".toList, "3".toList), ("b".toList, "4".toList)] (by decide) 1
      (by decide) (by decide) (by decide)⟩

/-- C5, counterexample. With the header `a,a` the first column name maps to the
second field of the line, not to the first. -/
theorem parseCSV_duplicate_header :
    parseCSV "a,a\n1,2".toList = .ok [[("a".toList, "2".toList)]]
      ∧ parseHeaders "a,a".toList = ["a".toList, "a".toList]
      ∧ parseCSVLine "1,2".toList = ["1".toList, "2".toList]
      ∧ rowGet [("a".toList, "2".toList)] "a".toList ≠ some "1".toList := by
  refine ⟨rfl, ?_, ?_, ?_⟩ <;> decide

/-! ## Importing the same viewing twice -/

/-- C1, the code at the failing input. The watched date is carried in the column
`date`.  The first import creates the document with an empty date in its
sub-heading, because `createNewMovieFile` reads only `Watched Date` and `Date`;
the second import of the same export therefore finds no `### 2024-01-01`,
appends a second sub-entry, raises the counter to 2 and counts the row as
updated. -/
theorem processCsvData_lowercase_date_twice :
    (processCsvData appendSettings noPoster [] lowercaseDateCsv).vault
        = [("Movies/Heat.md".toList,
            "---\nName: 'Heat'\ndate: '2024-01-01'\nwatches: 1\n---\n\n\n\n## Watch History\n\n### \n\n".toList)]
      ∧ (processCsvData appendSettings noPoster
          (processCsvData appendSettings noPoster [] lowercaseDateCsv).vault
          lowercaseDateCsv).vault
        = [("Movies/Heat.md".toList,
            "---\nName: 'Heat'\ndate: '2024-01-01'\nwatches: 2\n---\n\n\n\n## Watch History\n\n### 2024-01-01\n\n### \n\n".toList)]
      ∧ (processCsvData appendSettings noPoster
          (processCsvData appendSettings noPoster [] lowercaseDateCsv).vault
          lowercaseDateCsv).summary
        = .ok { count := 0, updated := 1, skipped := 0 } := by
  refine ⟨?_, ?_, ?_⟩ <;> rfl


/-! ## The update policy keeps the history section -/

theorem findSplit_leftmost (pat s before after : Str)
    (h : findSplit pat s = some (before, after)) (before2 after2 : Str)
    (h2 : s = before2 ++ pat ++ after2) : before.length ≤ before2.length := by
  induction s generalizing before before2 with
  | nil =>
    simp only [findSplit] at h
    split at h
    · simp only [Option.some.injEq, Prod.mk.injEq] at h
      rw [← h.1]
      simp
    · cases h
  | cons c cs ih =>
    simp only [findSplit] at h
    split at h
    · simp only [Option.some.injEq, Prod.mk.injEq] at h
      rw [← h.1]
      simp
    · rename_i hp
      rw [List.isPrefixOf_iff_prefix] at hp
      split at h
      · rename_i b a heq
        simp only [Option.some.injEq, Prod.mk.injEq] at h
        cases before2 with
        | nil =>
          exfalso
          apply hp
          rw [h2]
          exact ⟨after2, by simp⟩
        | cons d ds =>
          have hcs : cs = ds ++ pat ++ after2 := by
            simp only [List.cons_append, List.cons.injEq] at h2
            exact h2.2
          have := ih b (by rw [heq, h.2]) ds hcs
          rw [← h.1]
          simpa using this
      · cases h

/-- C3, amended. When the old text contains `## Watch History`, the text written
by `updateMovieFile` is the front-matter regenerated from the new row, the
poster, the tags and the printed counter, then the content of the row, two
newlines, and everything from the first `## Watch History` of the old text to
its end, unchanged.  The printed counter, which the function computes from the
old text, is the only trace of the old text before the heading. -/
theorem updateMovieFile_keeps_history (settings : Settings) (old : Str) (row : Row)
    (posterUrl : Str) (h : "## Watch History".toList <:+: old) :
    ∃ before after, old = before ++ "## Watch History".toList ++ after
      ∧ (∀ before2 after2, old = before2 ++ "## Watch History".toList ++ after2 →
          before.length ≤ before2.length)
      ∧ updateMovieFile settings old row posterUrl
          = regeneratedFrontmatter settings row posterUrl (numToString (watchCount old))
            ++ firstTruthy row ["content".toList]
            ++ "\n\n".toList ++ ("## Watch History".toList ++ after) := by
  cases hf : findSplit "## Watch History".toList old with
  | none => exact absurd h ((findSplit_eq_none_iff _ _).mp hf)
  | some r =>
    obtain ⟨before, after⟩ := r
    refine ⟨before, after, findSplit_eq_some _ _ _ _ hf, findSplit_leftmost _ _ _ _ hf, ?_⟩
    simp only [updateMovieFile, regeneratedFrontmatter, existingWatchHistory, hf,
      List.append_assoc]

/-- C3, witness: the old document with the counter 5 and one viewing. -/
theorem updateMovieFile_keeps_history_witness :
    ∃ before after, countedDoc = before ++ "## Watch History".toList ++ after
      ∧ (∀ before2 after2, countedDoc = before2 ++ "## Watch History".toList ++ after2 →
          before.length ≤ before2.length)
      ∧ updateMovieFile appendSettings countedDoc heatRow []
          = regeneratedFrontmatter appendSettings heatRow []
              (numToString (watchCount countedDoc))
            ++ firstTruthy heatRow ["content".toList]
            ++ "\n\n".toList ++ ("## Watch History".toList ++ after) :=
  updateMovieFile_keeps_history appendSettings countedDoc heatRow []
    ((includes_iff _ _).mp (by decide))

/-- C3, counterexample. Two old documents with the same history section and the
same new row: the text before the heading decides the counter of the output,
6 for the one and 1 for the other. -/
theorem updateMovieFile_depends_on_old_counter :
    existingWatchHistory countedDoc = existingWatchHistory uncountedDoc
      ∧ updateMovieFile appendSettings countedDoc heatRow []
        = "---\nName: 'Heat'\nYear: '1995'\nWatched Date: '2024-01-01'\nRating: '5'\nwatches: 6\n---\n\n\n\n## Watch History\n\n### 2024-01-01\n\n".toList
      ∧ updateMovieFile appendSettings uncountedDoc heatRow []
        = "---\nName: 'Heat'\nYear: '1995'\nWatched Date: '2024-01-01'\nRating: '5'\nwatches: 1\n---\n\n\n\n## Watch History\n\n### 2024-01-01\n\n".toList := by
  decide


/-! ## Occurrences of a pattern across a concatenation -/

theorem prefix_of_prefix_append_cons (pat a rest : Str) (c : Char)
    (h : pat <+: a ++ c :: rest) (hc : c ∉ pat) : pat <+: a := by
  induction a generalizing pat with
  | nil =>
    cases pat with
    | nil => exact List.prefix_refl _
    | cons p ps =>
      exfalso
      obtain ⟨t, ht⟩ := h
      simp only [List.nil_append, List.cons_append, List.cons.injEq] at ht
      exact hc (by simp [ht.1])
  | cons d ds ih =>
    cases pat with
    | nil => exact List.nil_prefix
    | cons p ps =>
      obtain ⟨t, ht⟩ := h
      simp only [List.cons_append, List.cons.injEq] at ht
      rw [ht.1]
      exact (List.prefix_cons_inj d).mpr
        (ih ps ⟨t, ht.2⟩ (fun hm => hc (List.mem_cons_of_mem _ hm)))

theorem infix_of_infix_append_cons (pat a rest : Str) (c : Char)
    (h : pat <:+: a ++ c :: rest) (hc : c ∉ pat) : pat <:+: a ∨ pat <:+: rest := by
  induction a with
  | nil =>
    rw [List.nil_append, List.infix_cons_iff] at h
    rcases h with h | h
    · exact Or.inl (prefix_of_prefix_append_cons pat [] rest c h hc).isInfix
    · exact Or.inr h
  | cons d ds ih =>
    rw [List.cons_append, List.infix_cons_iff] at h
    rcases h with h | h
    · exact Or.inl (prefix_of_prefix_append_cons pat (d :: ds) rest c h hc).isInfix
    · rcases ih h with h | h
      · exact Or.inl (h.trans (List.suffix_cons d ds).isInfix)
      · exact Or.inr h

/-- A pattern whose first character does not occur in `run` cannot start inside
`run`. -/
theorem infix_of_infix_run_append (run rest : Str) (p : Char) (ps : Str) (hp : p ∉ run)
    (h : p :: ps <:+: run ++ rest) : p :: ps <:+: rest := by
  induction run with
  | nil => simpa using h
  | cons r rs ih =>
    rcases List.infix_cons_iff.mp (by simpa using h) with h2 | h2
    · obtain ⟨t, ht⟩ := h2
      simp only [List.cons_append, List.cons.injEq] at ht
      exact absurd (by simp [ht.1]) hp
    · exact ih (fun hm => hp (List.mem_cons_of_mem _ hm)) h2

/-- A pattern in `a ++ word ++ rest` lies in `a` or in `rest`, when the first
character of the word is not in the pattern and the first character of the
pattern is not in the word. -/
theorem infix_of_infix_append_word (a rest : Str) (w : Char) (ws : Str) (p : Char) (ps : Str)
    (hw : w ∉ p :: ps) (hp : p ∉ ws)
    (h : p :: ps <:+: a ++ (w :: ws) ++ rest) : p :: ps <:+: a ∨ p :: ps <:+: rest := by
  have h2 : p :: ps <:+: a ++ w :: (ws ++ rest) := by simpa using h
  rcases infix_of_infix_append_cons (p :: ps) a (ws ++ rest) w h2 hw with h3 | h3
  · exact Or.inl h3
  · exact Or.inr (infix_of_infix_run_append ws rest p ps hp h3)

theorem infix_of_infix_concat (pat a : Str) (c : Char)
    (h : pat <:+: a ++ [c]) (hc : pat.getLast? ≠ some c) : pat <:+: a := by
  obtain ⟨s, t, hst⟩ := h
  cases hp : pat.getLast? with
  | none =>
    rw [List.getLast?_eq_none_iff.mp hp]
    exact List.nil_infix
  | some y =>
    cases ht : t.getLast? with
    | none =>
      have htn : t = [] := List.getLast?_eq_none_iff.mp ht
      subst htn
      exfalso
      apply hc
      have h1 := congrArg List.getLast? hst
      simp only [List.append_nil, List.getLast?_append, List.getLast?_singleton, hp] at h1
      rw [hp]
      simpa using h1
    | some x =>
      obtain ⟨t2, ht2⟩ : ∃ t2, t = t2 ++ [x] :=
        ⟨t.dropLast, (List.dropLast_append_getLast? x (by simpa using ht)).symm⟩
      subst ht2
      have : (s ++ pat ++ t2) ++ [x] = a ++ [c] := by simpa using hst
      exact ⟨s, t2, (List.append_inj' this rfl).1⟩

/-- A pattern whose first character does not recur in it cannot begin inside
`a` and run into a text that begins with that character, unless it occurs in
`a`. -/
theorem not_prefix_drop_of_head_unique (c : Char) (ps a rest : Str) (hc : c ∉ ps)
    (ha : ¬ (c :: ps) <:+: a) (i : Nat) (hi : i < a.length) :
    ¬ (c :: ps) <+: a.drop i ++ c :: rest := by
  intro hpre
  have hz : a.drop i <:+ a := List.drop_suffix i a
  cases hd : a.drop i with
  | nil =>
    have := List.drop_eq_nil_iff.mp hd
    omega
  | cons z zs =>
    rw [hd] at hpre hz
    obtain ⟨t, ht⟩ := hpre
    simp only [List.cons_append, List.cons.injEq] at ht
    have h1 : ps <+: zs ++ c :: rest := ⟨t, ht.2⟩
    have h2 : ps <+: zs := prefix_of_prefix_append_cons ps zs rest c h1 hc
    apply ha
    have h3 : (c :: ps) <+: z :: zs := by
      rw [← ht.1]
      exact (List.prefix_cons_inj c).mpr h2
    exact h3.isInfix.trans hz.isInfix

/-- A pattern that extends `start` cannot begin inside `a` when `start` does not
occur in `a` and the last character of `a` is not one of `start`. -/
theorem not_prefix_drop_of_last (start pat a rest : Str) (hp : start <+: pat)
    (ha : ¬ start <:+: a) (hlast : ∀ c, a.getLast? = some c → c ∉ start)
    (i : Nat) (hi : i < a.length) : ¬ pat <+: a.drop i ++ rest := by
  intro hpre
  have hz : a.drop i <:+ a := List.drop_suffix i a
  have hl : (a.drop i).getLast? = a.getLast? := by
    rw [List.getLast?_drop, if_neg (by omega)]
  cases hg : a.getLast? with
  | none =>
    have := List.getLast?_eq_none_iff.mp hg
    subst this
    simp at hi
  | some c =>
    rw [hg] at hl
    obtain ⟨ys, hys⟩ := List.getLast?_eq_some_iff.mp hl
    rw [hys] at hpre hz
    have h1 : start <+: ys ++ c :: rest := by
      have := hp.trans hpre
      simpa using this
    have h2 := prefix_of_prefix_append_cons start ys rest c h1 (hlast c hg)
    exact ha ((h2.isInfix.trans (List.prefix_append ys [c]).isInfix).trans hz.isInfix)

theorem findSplit_at (pat before after : Str)
    (h : ∀ i, i < before.length → ¬ pat <+: before.drop i ++ (pat ++ after)) :
    findSplit pat (before ++ (pat ++ after)) = some (before, after) := by
  rw [findSplit_append pat before (pat ++ after) h, findSplit_self_append]
  simp

/-! ## Replacement templates without a dollar -/

theorem expandTemplate_of_not_mem (matched before after : Str) (captures : List Str)
    (template : Str) (h : '$' ∉ template) :
    expandTemplate matched before after captures template = template := by
  unfold expandTemplate
  induction template with
  | nil => simp [expandTemplateFrom]
  | cons c cs ih =>
    have hc : c ≠ '$' := fun e => h (by simp [e])
    have hcs : '$' ∉ cs := fun e => h (by simp [e])
    simp [expandTemplateFrom, hc, ih hcs]

theorem expandTemplate_first_capture (matched before after capture template : Str)
    (h : '$' ∉ template) (hd : ∀ c ∈ template.head?, isDigit c = false) :
    expandTemplate matched before after [capture] ('$' :: '1' :: template)
      = capture ++ template := by
  have hrest := expandTemplate_of_not_mem matched before after [capture] template h
  unfold expandTemplate at hrest ⊢
  have hsub : substitution matched before after [capture] ('1' :: template) = (capture, 1) := by
    cases template with
    | nil => simp [substitution, captureAt, isDigit, digitValue]
    | cons e es =>
      have he : isDigit e = false := hd e (by simp)
      have h1 : isDigit '1' = true := by decide
      simp [substitution, captureAt, digitValue, he, h1]
  rw [expandTemplateFrom, if_pos rfl, hsub]
  simp only [expandTemplateFrom, hrest]


/-! ## The front-matter step of the append policy -/

theorem matchFrontmatter_block (frontmatter rest : Str)
    (h : ¬ "\n---".toList <:+: frontmatter) :
    matchFrontmatter ("---\n".toList ++ frontmatter ++ "\n---".toList ++ rest)
      = some (frontmatter, rest) := by
  have hfind : findSplit "\n---".toList (frontmatter ++ ("\n---".toList ++ rest))
      = some (frontmatter, rest) :=
    findSplit_at _ _ _ (fun i hi =>
      not_prefix_drop_of_head_unique '\n' "---".toList frontmatter ("---".toList ++ rest)
        (by decide) h i hi)
  unfold matchFrontmatter
  rw [if_pos (by simp)]
  simpa using hfind

theorem matchFrontmatter_eq_some (content frontmatter rest : Str)
    (h : matchFrontmatter content = some (frontmatter, rest)) :
    content = "---\n".toList ++ frontmatter ++ "\n---".toList ++ rest := by
  unfold matchFrontmatter at h
  split at h
  · rename_i hp
    rw [List.isPrefixOf_iff_prefix] at hp
    obtain ⟨t, ht⟩ := hp
    have := findSplit_eq_some _ _ _ _ h
    rw [← ht] at this ⊢
    simp only [String.toList, List.drop_append_of_le_length, List.length_cons,
      List.length_nil, List.append_assoc] at this ⊢
    simp at this
    simp [this]
  · cases h

theorem updateFrontmatter_block (frontmatter rest posterUrl : Str)
    (h : ¬ "\n---".toList <:+: frontmatter)
    (hd : '$' ∉ addPoster (bumpWatches frontmatter) posterUrl) :
    updateFrontmatter ("---\n".toList ++ frontmatter ++ "\n---".toList ++ rest) posterUrl
      = "---\n".toList ++ addPoster (bumpWatches frontmatter) posterUrl ++ "\n---".toList
        ++ rest := by
  unfold updateFrontmatter
  rw [matchFrontmatter_block frontmatter rest h]
  simp only []
  rw [expandTemplate_of_not_mem]
  intro hm
  simp only [List.mem_append] at hm
  rcases hm with (hm | hm) | hm
  · revert hm; decide
  · exact hd hm
  · revert hm; decide


/-! ## The counter expression -/

theorem takeDigits_append_dropDigits (s : Str) : takeDigits s ++ dropDigits s = s := by
  induction s with
  | nil => rfl
  | cons c cs ih => by_cases h : isDigit c = true <;> simp [takeDigits, dropDigits, h, ih]

theorem isDigit_of_mem_takeDigits (s : Str) : ∀ c ∈ takeDigits s, isDigit c = true := by
  induction s with
  | nil => simp [takeDigits]
  | cons d ds ih =>
    by_cases h : isDigit d = true
    · intro c hc
      simp only [takeDigits, h, if_true, List.mem_cons] at hc
      rcases hc with hc | hc
      · rw [hc]; exact h
      · exact ih c hc
    · simp [takeDigits, h]

theorem head_dropDigits (s : Str) : ∀ c ∈ (dropDigits s).head?, isDigit c = false := by
  induction s with
  | nil => simp [dropDigits]
  | cons d ds ih =>
    by_cases h : isDigit d = true
    · simpa [dropDigits, h] using ih
    · simp [dropDigits, h]

theorem takeDigits_append (digits rest : Str) (hd : ∀ c ∈ digits, isDigit c = true)
    (hr : ∀ c ∈ rest.head?, isDigit c = false) : takeDigits (digits ++ rest) = digits := by
  induction digits with
  | nil =>
    cases rest with
    | nil => rfl
    | cons r rs => simp [takeDigits, hr r (by simp)]
  | cons d ds ih =>
    simp [takeDigits, hd d (by simp), ih (fun c hc => hd c (by simp [hc]))]

theorem dropDigits_append (digits rest : Str) (hd : ∀ c ∈ digits, isDigit c = true)
    (hr : ∀ c ∈ rest.head?, isDigit c = false) : dropDigits (digits ++ rest) = rest := by
  induction digits with
  | nil =>
    cases rest with
    | nil => rfl
    | cons r rs => simp [dropDigits, hr r (by simp)]
  | cons d ds ih =>
    simp [dropDigits, hd d (by simp), ih (fun c hc => hd c (by simp [hc]))]

theorem matchWatches_eq_some (s before digits after : Str)
    (h : matchWatches s = some (before, digits, after)) :
    s = before ++ "watches: ".toList ++ digits ++ after ∧ digits ≠ []
      ∧ (∀ c ∈ digits, isDigit c = true) ∧ ∀ c ∈ after.head?, isDigit c = false := by
  induction s generalizing before with
  | nil => simp [matchWatches] at h
  | cons c cs ih =>
    rw [matchWatches] at h
    split at h
    · rename_i hcond
      simp only [Bool.and_eq_true, Bool.not_eq_true', List.isPrefixOf_iff_prefix] at hcond
      obtain ⟨⟨t, ht⟩, hne⟩ := hcond
      simp only [Option.some.injEq, Prod.mk.injEq] at h
      obtain ⟨rfl, rfl, rfl⟩ := h
      have hdrop : (c :: cs).drop 9 = t := by
        rw [← ht]
        simp
      rw [hdrop] at hne ⊢
      refine ⟨?_, ?_, isDigit_of_mem_takeDigits t, head_dropDigits t⟩
      · rw [← ht]
        simp [takeDigits_append_dropDigits]
      · intro e
        rw [e] at hne
        simp at hne
    · split at h
      · rename_i b d a heq
        simp only [Option.some.injEq, Prod.mk.injEq] at h
        obtain ⟨rfl, rfl, rfl⟩ := h
        obtain ⟨h1, h2, h3, h4⟩ := ih b heq
        refine ⟨?_, h2, h3, h4⟩
        rw [h1]
        simp
      · cases h

theorem matchWatches_at (before digits after : Str) (hne : digits ≠ [])
    (hd : ∀ c ∈ digits, isDigit c = true) (ha : ∀ c ∈ after.head?, isDigit c = false)
    (hleft : ∀ i, i < before.length → ∀ d t, isDigit d = true →
      (before ++ "watches: ".toList ++ digits ++ after).drop i ≠ "watches: ".toList ++ d :: t) :
    matchWatches (before ++ "watches: ".toList ++ digits ++ after)
      = some (before, digits, after) := by
  induction before with
  | nil =>
    have htake := takeDigits_append digits after hd ha
    have hdrop := dropDigits_append digits after hd ha
    have e : [] ++ "watches: ".toList ++ digits ++ after
        = 'w' :: ("atches: ".toList ++ (digits ++ after)) := by simp
    have hdrop9 : ('w' :: ("atches: ".toList ++ (digits ++ after))).drop 9 = digits ++ after := by
      simp
    rw [e, matchWatches, hdrop9, htake, hdrop, if_pos]
    rw [Bool.and_eq_true, List.isPrefixOf_iff_prefix]
    exact ⟨⟨digits ++ after, by simp⟩, by simpa using hne⟩
  | cons c cs ih =>
    have h0 := hleft 0 (by simp)
    have ih2 := ih (fun i hi d t hdt => by
      have := hleft (i + 1) (by simpa using hi) d t hdt
      simpa using this)
    simp only [List.cons_append, List.append_assoc] at ih2 h0 ⊢
    rw [matchWatches]
    rw [if_neg, ih2]
    intro hcond
    simp only [Bool.and_eq_true, Bool.not_eq_true', List.isPrefixOf_iff_prefix] at hcond
    obtain ⟨⟨t, ht⟩, hne2⟩ := hcond
    have hdrop : (c :: (cs ++ ("watches: ".toList ++ (digits ++ after)))).drop 9 = t := by
      rw [← ht]
      simp
    rw [hdrop] at hne2
    cases t with
    | nil => simp [takeDigits] at hne2
    | cons d t2 =>
      by_cases hdd : isDigit d = true
      · exact h0 d t2 hdd (by simpa using ht.symm)
      · simp [takeDigits, hdd] at hne2


/-! ## Numbers: rounding to a double and printing -/

theorem bitLength_zero (fuel : Nat) : bitLength fuel 0 = 0 := by
  cases fuel <;> simp [bitLength]

theorem bitLength_bounds : ∀ fuel n : Nat, n ≤ fuel →
    n < 2 ^ bitLength fuel n ∧ (n ≠ 0 → 2 ^ (bitLength fuel n - 1) ≤ n)
  | 0, n, h => by
    have : n = 0 := by omega
    subst this
    simp [bitLength]
  | fuel + 1, n, h => by
    by_cases hn : n = 0
    · subst hn
      simp [bitLength]
    · have hle : n / 2 ≤ fuel := by omega
      obtain ⟨hlt, hge⟩ := bitLength_bounds fuel (n / 2) hle
      simp only [bitLength, hn, if_false, Nat.add_sub_cancel]
      refine ⟨?_, fun _ => ?_⟩
      · rw [pow_succ]; omega
      · by_cases h2 : n / 2 = 0
        · rw [h2, bitLength_zero]; simp; omega
        · have := hge h2
          have hpos : 1 ≤ bitLength fuel (n / 2) := by
            rcases Nat.eq_zero_or_pos (bitLength fuel (n / 2)) with h0 | h0
            · rw [h0] at hlt; simp at hlt; exact absurd hlt h2
            · exact h0
          have e : 2 ^ bitLength fuel (n / 2) = 2 ^ (bitLength fuel (n / 2) - 1) * 2 := by
            rw [← pow_succ]; congr 1; omega
          rw [e]; omega

theorem bitLength_le (n k : Nat) (h : n < 2 ^ k) : bitLength n n ≤ k := by
  by_cases hn : n = 0
  · subst hn; simp [bitLength_zero]
  · have := (bitLength_bounds n n le_rfl).2 hn
    by_contra hc
    have hk : k ≤ bitLength n n - 1 := by omega
    have := Nat.pow_le_pow_right (by decide : 0 < 2) hk
    omega

theorem lt_bitLength (n k : Nat) (h : 2 ^ k ≤ n) : k < bitLength n n := by
  have := (bitLength_bounds n n le_rfl).1
  by_contra hc
  have hk : bitLength n n ≤ k := by omega
  have := Nat.pow_le_pow_right (by decide : 0 < 2) hk
  omega

theorem toNumber_of_lt (n : Nat) (h : n < 2 ^ 53) : toNumber n = .finite n := by
  have hb : bitLength n n ≤ 53 := bitLength_le n 53 h
  have hs : bitLength n n - 53 = 0 := by omega
  have hb2 : bitLength n n ≤ 1024 := by omega
  simp [toNumber, hs, Nat.mod_one, hb2]

theorem toNumber_two_pow : toNumber (2 ^ 53) = .finite (2 ^ 53) := by
  have h1 : 53 < bitLength (2 ^ 53) (2 ^ 53) := lt_bitLength _ 53 le_rfl
  have h2 : bitLength (2 ^ 53) (2 ^ 53) ≤ 54 := bitLength_le _ 54 (by norm_num)
  have hs : bitLength (2 ^ 53) (2 ^ 53) - 53 = 1 := by omega
  have hb : bitLength (2 ^ 53) (2 ^ 53) ≤ 1024 := by omega
  unfold toNumber
  simp only [hs]
  norm_num
  intro hc
  norm_num at hb
  omega

theorem toNumber_of_le (n : Nat) (h : n ≤ 2 ^ 53) : toNumber n = .finite n := by
  rcases Nat.lt_or_ge n (2 ^ 53) with h1 | h1
  · exact toNumber_of_lt n h1
  · have : n = 2 ^ 53 := le_antisymm h h1
    rw [this]; exact toNumber_two_pow

theorem toNumber_ge (m w : Nat) (hm : 2 ^ 53 + 2 ≤ m) (h : toNumber m = .finite w) :
    2 ^ 53 + 2 ≤ w := by
  have hL : 53 < bitLength m m := lt_bitLength m 53 (by omega)
  have hlow := (bitLength_bounds m m le_rfl).2 (by omega)
  obtain ⟨s, hs⟩ : ∃ s, bitLength m m = 53 + (s + 1) := ⟨bitLength m m - 54, by omega⟩
  have hshift : bitLength m m - 53 = s + 1 := by omega
  have hq : 2 ^ 52 ≤ m / 2 ^ (s + 1) := by
    rw [Nat.le_div_iff_mul_le (by positivity)]
    have : bitLength m m - 1 = 52 + (s + 1) := by omega
    rw [this, pow_add] at hlow
    exact hlow
  have hbase : 2 ^ 53 + 2 ≤ m / 2 ^ (s + 1) * 2 ^ (s + 1) := by
    rcases Nat.eq_zero_or_pos s with h0 | h0
    · subst h0
      norm_num at hq ⊢
      omega
    · have h4 : 2 ^ 2 ≤ 2 ^ (s + 1) := Nat.pow_le_pow_right (by decide) (by omega)
      calc 2 ^ 53 + 2 ≤ 2 ^ 52 * 2 ^ 2 := by norm_num
        _ ≤ m / 2 ^ (s + 1) * 2 ^ (s + 1) := Nat.mul_le_mul hq h4
  unfold toNumber at h
  simp only [hshift] at h
  split at h <;> split at h
  · injection h with h
    rw [← h]
    exact le_trans hbase (Nat.mul_le_mul_right _ (Nat.le_succ _))
  · cases h
  · injection h with h
    rw [← h]
    exact hbase
  · cases h

theorem readsBack_exact (m v : Nat) (hv : v ≤ 2 ^ 53) (hm : m ≠ 2 ^ 53 + 1)
    (h : readsBack m v = true) : m = v := by
  unfold readsBack at h
  rcases Nat.lt_or_ge m (2 ^ 53 + 1) with h1 | h1
  · rw [toNumber_of_le m (by omega)] at h
    simpa using h
  · cases hn : toNumber m with
    | infinity => rw [hn] at h; cases h
    | finite w =>
      have := toNumber_ge m w (by omega) hn
      rw [hn] at h
      have e : w = v := by simpa using h
      omega

theorem toDigitsCore_eq (n : Nat) : ∀ fuel ds, n < fuel →
    Nat.toDigitsCore 10 fuel n ds = Nat.toDigitsCore 10 (n + 1) n [] ++ ds := by
  induction n using Nat.strong_induction_on with
  | _ n ih =>
    intro fuel ds hf
    obtain ⟨f, rfl⟩ : ∃ f, fuel = f + 1 := ⟨fuel - 1, by omega⟩
    rw [Nat.toDigitsCore, Nat.toDigitsCore]
    by_cases h0 : n / 10 = 0
    · simp [h0]
    · have hlt : n / 10 < n := by omega
      simp only [h0, if_false]
      rw [ih (n / 10) hlt f _ (by omega), ih (n / 10) hlt n _ hlt]
      simp

theorem decimal_mul_ten (n : Nat) (h : 0 < n) : decimal (n * 10) = decimal n ++ ['0'] := by
  unfold decimal Nat.toDigits
  rw [Nat.toDigitsCore]
  have h1 : n * 10 / 10 = n := by omega
  have h2 : n * 10 % 10 = 0 := by omega
  have h3 : n ≠ 0 := by omega
  simp only [h1, h2, h3, if_false]
  rw [toDigitsCore_eq n (n * 10) _ (by omega)]
  rfl

theorem decimal_mul_pow (n : Nat) (h : 0 < n) (j : Nat) :
    decimal (n * 10 ^ j) = decimal n ++ List.replicate j '0' := by
  induction j with
  | zero => simp
  | succ j ih =>
    rw [pow_succ, ← mul_assoc, decimal_mul_ten _ (by positivity), ih, List.replicate_succ',
      List.append_assoc]

theorem decimal_length_le (n e : Nat) (he : 0 < e) (h : n < 10 ^ e) : (decimal n).length ≤ e := by
  have := Nat.repr_length n e he h
  simpa [Nat.repr, decimal] using this

theorem shortestAt_exact (v j s : Nat) (hv : v ≤ 2 ^ 53)
    (h : shortestAt v (j + 1) = some s) : s * 10 ^ (j + 1) = v ∧ 0 < s := by
  have hodd : ∀ c : Nat, c * 10 ^ (j + 1) ≠ 2 ^ 53 + 1 := by
    intro c hc
    rw [pow_succ, ← mul_assoc] at hc
    omega
  have hlow : (v / 10 ^ (j + 1) != 0 && readsBack (v / 10 ^ (j + 1) * 10 ^ (j + 1)) v) = true →
      v / 10 ^ (j + 1) * 10 ^ (j + 1) = v ∧ 0 < v / 10 ^ (j + 1) := by
    intro hl
    simp only [Bool.and_eq_true, bne_iff_ne] at hl
    exact ⟨readsBack_exact _ _ hv (hodd _) hl.2, Nat.pos_of_ne_zero hl.1⟩
  have hhigh : readsBack ((v / 10 ^ (j + 1) + 1) * 10 ^ (j + 1)) v = true →
      (v / 10 ^ (j + 1) + 1) * 10 ^ (j + 1) = v ∧ 0 < v / 10 ^ (j + 1) + 1 :=
    fun hh => ⟨readsBack_exact _ _ hv (hodd _) hh, Nat.succ_pos _⟩
  unfold shortestAt at h
  simp only at h
  split at h
  · rename_i hboth
    simp only [Bool.and_eq_true] at hboth
    split at h
    · injection h with h; subst h; exact hlow (by simpa using hboth.1)
    · split at h
      · injection h with h; subst h; exact hhigh hboth.2
      · split at h
        · injection h with h; subst h; exact hlow (by simpa using hboth.1)
        · injection h with h; subst h; exact hhigh hboth.2
  · split at h
    · rename_i hl
      injection h with h; subst h; exact hlow hl
    · split at h
      · rename_i hh
        injection h with h; subst h; exact hhigh hh
      · cases h

theorem shortestFrom_exact (v : Nat) (hv : v ≤ 2 ^ 53) (hpos : 0 < v) :
    ∀ j, (shortestFrom v j).1 * 10 ^ (shortestFrom v j).2 = v ∧ 0 < (shortestFrom v j).1
  | 0 => by simp [shortestFrom, hpos]
  | j + 1 => by
    unfold shortestFrom
    cases h : shortestAt v (j + 1) with
    | none => exact shortestFrom_exact v hv hpos j
    | some s => exact shortestAt_exact v j s hv h

/-- Up to `2 ^ 53` a Number prints as its decimal numeral. -/
theorem numToString_finite (v : Nat) (hv : v ≤ 2 ^ 53) :
    numToString (.finite v) = decimal v := by
  unfold numToString
  by_cases h0 : v = 0
  · subst h0; rfl
  · obtain ⟨he, hs⟩ := shortestFrom_exact v hv (Nat.pos_of_ne_zero h0) (decimal v).length
    have hd := decimal_mul_pow _ hs (shortestFrom v (decimal v).length).2
    rw [he] at hd
    have hlen : (decimal v).length ≤ 16 := decimal_length_le v 16 (by decide) (by
      have : (2 : Nat) ^ 53 < 10 ^ 16 := by norm_num
      omega)
    have hlen2 : (decimal (shortestFrom v (decimal v).length).1).length
        + (shortestFrom v (decimal v).length).2 ≤ 21 := by
      have := congrArg List.length hd
      simp only [List.length_append, List.length_replicate] at this
      omega
    simp only [h0, if_false, hlen2, if_true]
    exact hd.symm

/-- Below `2 ^ 53` reading a numeral, adding one and printing is exact. -/
theorem numToString_addOne_parseInt (digits : Str) (h : digitsValue digits < 2 ^ 53) :
    numToString (addOne (parseInt digits)) = decimal (digitsValue digits + 1) := by
  unfold parseInt
  rw [toNumber_of_lt _ h]
  simp only [addOne]
  rw [toNumber_of_le _ (by omega)]
  exact numToString_finite _ (by omega)

theorem isDigit_digitChar (k : Nat) (h : k < 10) : isDigit (Nat.digitChar k) = true := by
  interval_cases k <;> decide

theorem isDigit_of_mem_toDigitsCore (fuel n : Nat) (ds : List Char)
    (hds : ∀ c ∈ ds, isDigit c = true) :
    ∀ c ∈ Nat.toDigitsCore 10 fuel n ds, isDigit c = true := by
  induction fuel generalizing n ds with
  | zero => simpa [Nat.toDigitsCore] using hds
  | succ fuel ih =>
    have hnew : ∀ c ∈ Nat.digitChar (n % 10) :: ds, isDigit c = true := by
      intro c hc
      rcases List.mem_cons.mp hc with hc | hc
      · rw [hc]
        exact isDigit_digitChar _ (Nat.mod_lt _ (by decide))
      · exact hds c hc
    rw [Nat.toDigitsCore]
    split
    · exact hnew
    · exact ih _ _ hnew

theorem toDigitsCore_ne_nil (fuel n : Nat) (ds : List Char) (hds : ds ≠ []) :
    Nat.toDigitsCore 10 fuel n ds ≠ [] := by
  induction fuel generalizing n ds with
  | zero => simpa [Nat.toDigitsCore] using hds
  | succ fuel ih =>
    rw [Nat.toDigitsCore]
    split
    · simp
    · exact ih _ _ (by simp)

theorem isDigit_of_mem_decimal (n : Nat) : ∀ c ∈ decimal n, isDigit c = true :=
  isDigit_of_mem_toDigitsCore _ _ [] (by simp)

theorem decimal_ne_nil (n : Nat) : decimal n ≠ [] := by
  unfold decimal Nat.toDigits
  rw [Nat.toDigitsCore]
  split
  · simp
  · exact toDigitsCore_ne_nil _ _ _ (by simp)

/-- A printed Number starts with a digit or with the `I` of `Infinity`. -/
theorem numToString_head (x : Number) :
    ∃ c rest, numToString x = c :: rest ∧ (isDigit c = true ∨ c = 'I') := by
  cases x with
  | infinity => exact ⟨'I', "nfinity".toList, rfl, Or.inr rfl⟩
  | finite v =>
    unfold numToString
    by_cases h0 : v = 0
    · exact ⟨'0', [], by simp [h0], Or.inl (by decide)⟩
    · simp only [h0, if_false]
      generalize shortestFrom v (decimal v).length = found
      obtain ⟨s, z⟩ := found
      simp only []
      cases hd : decimal s with
      | nil => exact absurd hd (decimal_ne_nil s)
      | cons first rest =>
        have hfirst : isDigit first = true := isDigit_of_mem_decimal s first (by simp [hd])
        split
        · exact ⟨first, rest ++ List.replicate z '0', by simp, Or.inl hfirst⟩
        · refine ⟨first, (if rest.isEmpty then [] else '.' :: rest)
            ++ ("e+".toList ++ decimal ((first :: rest).length + z - 1)), ?_, Or.inl hfirst⟩
          cases rest <;> simp

/-- A printed Number consists of digits and of characters of `.e+Infinity`. -/
theorem mem_numToString (x : Number) :
    ∀ c ∈ numToString x, isDigit c = true ∨ c ∈ ".e+Infinity".toList := by
  cases x with
  | infinity =>
    intro c hc
    exact Or.inr (by
      simp only [numToString, String.toList, List.mem_cons, List.mem_nil_iff] at hc ⊢
      tauto)
  | finite v =>
    intro c hc
    unfold numToString at hc
    by_cases h0 : v = 0
    · simp only [h0, if_true] at hc
      left
      have : c = '0' := by simpa using hc
      rw [this]; decide
    · simp only [h0, if_false] at hc
      generalize shortestFrom v (decimal v).length = found at hc
      obtain ⟨s, z⟩ := found
      simp only [] at hc
      have hdig := isDigit_of_mem_decimal s
      cases hd : decimal s with
      | nil => exact absurd hd (decimal_ne_nil s)
      | cons first rest =>
        rw [hd] at hc hdig
        split at hc
        · rcases List.mem_append.mp hc with h | h
          · exact Or.inl (hdig c h)
          · rw [List.eq_of_mem_replicate h]
            exact Or.inl (by decide)
        · simp only [List.mem_append] at hc
          rcases hc with (h | h) | h
          · split at h
            · exact Or.inl (hdig c (by simp at h; simp [h]))
            · rcases List.mem_cons.mp h with h | h
              · exact Or.inl (hdig c (by simp [h]))
              · rcases List.mem_cons.mp h with h | h
                · right; rw [h]; decide
                · exact Or.inl (hdig c (by simp [h]))
          · right
            simp only [String.toList, List.mem_cons, List.mem_nil_iff] at h ⊢
            tauto
          · exact Or.inl (isDigit_of_mem_decimal _ c h)

theorem bumpWatches_of_match (frontmatter before digits after : Str)
    (h : matchWatches frontmatter = some (before, digits, after)) :
    bumpWatches frontmatter
      = before ++ "watches: ".toList ++ numToString (addOne (parseInt digits)) ++ after := by
  have hs := (matchWatches_eq_some _ _ _ _ h).1
  have hinc : includes "watches:".toList frontmatter = true := by
    rw [includes_iff, hs]
    exact ⟨before, " ".toList ++ digits ++ after, by simp⟩
  simp only [bumpWatches, hinc, h, if_true]

theorem bumpWatches_of_absent (frontmatter : Str) (h : ¬ "watches:".toList <:+: frontmatter) :
    bumpWatches frontmatter = frontmatter ++ "\nwatches: 2".toList := by
  have hinc : includes "watches:".toList frontmatter = false :=
    (includes_eq_false_iff _ _).mpr h
  unfold bumpWatches
  rw [hinc]
  simp

theorem bumpWatches_cases (frontmatter : Str) :
    (∃ before digits after, frontmatter = before ++ "watches: ".toList ++ digits ++ after
        ∧ digits ≠ []
        ∧ bumpWatches frontmatter
          = before ++ "watches: ".toList ++ numToString (addOne (parseInt digits)) ++ after)
      ∨ bumpWatches frontmatter = frontmatter
      ∨ bumpWatches frontmatter = frontmatter ++ "\nwatches: 2".toList := by
  by_cases hinc : "watches:".toList <:+: frontmatter
  · cases hm : matchWatches frontmatter with
    | none =>
      refine Or.inr (Or.inl ?_)
      unfold bumpWatches
      rw [(includes_iff _ _).mpr hinc, hm]
      simp
    | some r =>
      obtain ⟨before, digits, after⟩ := r
      obtain ⟨h1, h2, -, -⟩ := matchWatches_eq_some _ _ _ _ hm
      exact Or.inl ⟨before, digits, after, h1, h2, bumpWatches_of_match _ _ _ _ hm⟩
  · exact Or.inr (Or.inr (bumpWatches_of_absent _ hinc))

/-- A pattern in `x` followed by a new line `line` lies in `x`, when it cannot
reach into the line. -/
theorem infix_of_infix_append_line (pat x tail : Str) (w : Char)
    (hw : w ∉ pat) (hlast : pat.getLast? ≠ some '\n') (htail : ¬ pat <:+: tail)
    (h : pat <:+: x ++ '\n' :: w :: tail) : pat <:+: x := by
  have h2 : pat <:+: (x ++ ['\n']) ++ w :: tail := by simpa using h
  rcases infix_of_infix_append_cons pat _ tail w h2 hw with h3 | h3
  · exact infix_of_infix_concat pat x '\n' h3 hlast
  · exact absurd h3 htail

theorem infix_bumpWatches (p : Char) (ps frontmatter : Str)
    (hp : isDigit p = false ∧ p ∉ ".e+Infinity".toList)
    (hdig : ∀ c ∈ p :: ps, isDigit c = false ∧ c ≠ 'I') (hw : 'w' ∉ p :: ps)
    (hlast : (p :: ps).getLast? ≠ some '\n') (htail : ¬ p :: ps <:+: "atches: 2".toList)
    (h : p :: ps <:+: bumpWatches frontmatter) : p :: ps <:+: frontmatter := by
  rcases bumpWatches_cases frontmatter with ⟨before, digits, after, hfm, -, hb⟩ | hb | hb
  · rw [hb] at h
    obtain ⟨w, ws, hnum, hw2⟩ := numToString_head (addOne (parseInt digits))
    have hmem := mem_numToString (addOne (parseInt digits))
    rw [hnum] at h hmem
    have hw3 : w ∉ p :: ps := by
      intro hm
      rcases hw2 with hw2 | hw2
      · rw [(hdig w hm).1] at hw2
        cases hw2
      · exact (hdig w hm).2 hw2
    have hp2 : p ∉ ws := by
      intro hm
      rcases hmem p (List.mem_cons_of_mem _ hm) with h1 | h1
      · rw [hp.1] at h1
        cases h1
      · exact hp.2 h1
    rcases infix_of_infix_append_word (before ++ "watches: ".toList) after w ws p ps hw3 hp2 h
      with h1 | h1
    · rw [hfm]
      exact h1.trans ⟨[], digits ++ after, by simp⟩
    · rw [hfm]
      exact h1.trans ⟨before ++ "watches: ".toList ++ digits, [], by simp⟩
  · rwa [hb] at h
  · rw [hb] at h
    exact infix_of_infix_append_line (p :: ps) frontmatter "atches: 2".toList 'w' hw hlast htail
      (by simpa using h)

theorem infix_addPoster (pat x posterUrl : Str) (c : Char) (hc : c ∈ pat)
    (hurl : c ∉ posterUrl) (hc2 : c ∉ "oster: '".toList) (hp : 'p' ∉ pat)
    (hlast : pat.getLast? ≠ some '\n')
    (h : pat <:+: addPoster x posterUrl) : pat <:+: x := by
  unfold addPoster at h
  split at h
  · refine infix_of_infix_append_line pat x ("oster: '".toList ++ posterUrl ++ "'".toList) 'p'
      hp hlast ?_ (by simpa using h)
    intro hin
    have := hin.subset hc
    simp only [List.mem_append] at this
    rcases this with (hm | hm) | hm
    · exact hc2 hm
    · exact hurl hm
    · exact hc2 (by simp at hm; simp [hm])
  · exact h


theorem singleton_infix_of_mem (c : Char) (s : Str) (h : c ∈ s) : [c] <:+: s := by
  obtain ⟨a, b, hab⟩ := List.append_of_mem h
  exact ⟨a, b, by simp [hab]⟩

theorem not_infix_block (pat frontmatter : Str) (hn : '\n' ∉ pat)
    (hdash : ¬ pat <:+: "---".toList) (h : ¬ pat <:+: frontmatter) :
    ¬ pat <:+: "---\n".toList ++ frontmatter ++ "\n---".toList := by
  intro hin
  have h1 : pat <:+: ("---".toList ++ '\n' :: frontmatter) ++ '\n' :: "---".toList := by
    simpa using hin
  rcases infix_of_infix_append_cons pat _ _ '\n' h1 hn with h2 | h2
  · rcases infix_of_infix_append_cons pat _ _ '\n' h2 hn with h3 | h3
    · exact hdash h3
    · exact h h3
  · exact hdash h2

/-- The history step leaves a leading part of the text alone when the heading
does not begin inside it. -/
theorem insertWatchEntry_after_leading (u rest entry : Str)
    (hu : ∀ i, i < u.length → ¬ "## Watch History".toList <+: u.drop i ++ rest) :
    ∃ rest2, insertWatchEntry (u ++ rest) entry = u ++ rest2 := by
  unfold insertWatchEntry
  split
  · have hfind := findSplit_append "## Watch History\n\n".toList u rest (fun i hi hpre =>
      hu i hi (List.IsPrefix.trans ⟨"\n\n".toList, by simp⟩ hpre))
    rw [hfind]
    cases findSplit "## Watch History\n\n".toList rest with
    | none => exact ⟨rest, rfl⟩
    | some r => exact ⟨_, by simp only [Option.map_some', List.append_assoc]; rfl⟩
  · exact ⟨_, by simp only [List.append_assoc]; rfl⟩

theorem appendWatchEntry_block (frontmatter rest : Str) (row : Row)
    (posterUrl watchedDate out : Str)
    (hblock : ¬ "\n---".toList <:+: frontmatter) (hdollar : '$' ∉ frontmatter)
    (hheading : ¬ "## Watch History".toList <:+: frontmatter)
    (hposter : ∀ c ∈ posterUrl, c ≠ '$' ∧ c ≠ '\n' ∧ c ≠ '#')
    (hout : appendWatchEntry ("---\n".toList ++ frontmatter ++ "\n---".toList ++ rest) row
      posterUrl watchedDate = some out) :
    ∃ rest2, out = "---\n".toList ++ addPoster (bumpWatches frontmatter) posterUrl
          ++ "\n---".toList ++ rest2
      ∧ matchFrontmatter out = some (addPoster (bumpWatches frontmatter) posterUrl, rest2) := by
  have hd2 : '$' ∉ addPoster (bumpWatches frontmatter) posterUrl := by
    intro hm
    have h1 := infix_addPoster ['$'] _ posterUrl '$' (by simp)
      (fun hu => (hposter _ hu).1 rfl) (by decide) (by decide) (by decide)
      (singleton_infix_of_mem _ _ hm)
    have h2 := infix_bumpWatches '$' [] frontmatter (by decide) (by decide) (by decide)
      (by decide) (by rw [← includes_eq_false_iff]; decide) h1
    exact hdollar (h2.subset (by simp))
  have hb2 : ¬ "\n---".toList <:+: addPoster (bumpWatches frontmatter) posterUrl := by
    intro hm
    have h1 := infix_addPoster _ _ posterUrl '\n' (by decide)
      (fun hu => (hposter _ hu).2.1 rfl) (by decide) (by decide) (by decide) hm
    exact hblock (infix_bumpWatches _ _ frontmatter (by decide) (by decide) (by decide)
      (by decide) (by rw [← includes_eq_false_iff]; decide) h1)
  have hh2 : ¬ "## Watch History".toList <:+: addPoster (bumpWatches frontmatter) posterUrl := by
    intro hm
    have h1 := infix_addPoster _ _ posterUrl '#' (by decide)
      (fun hu => (hposter _ hu).2.2 rfl) (by decide) (by decide) (by decide) hm
    exact hheading (infix_bumpWatches _ _ frontmatter (by decide) (by decide) (by decide)
      (by decide) (by rw [← includes_eq_false_iff]; decide) h1)
  unfold appendWatchEntry at hout
  simp only [] at hout
  split at hout
  · cases hout
  · simp only [Option.some.injEq] at hout
    rw [updateFrontmatter_block frontmatter rest posterUrl hblock hd2] at hout
    have hu := not_prefix_drop_of_last "## Watch History".toList "## Watch History".toList
      ("---\n".toList ++ addPoster (bumpWatches frontmatter) posterUrl ++ "\n---".toList) rest
      (List.prefix_refl _)
      (not_infix_block _ _ (by decide) (by rw [← includes_eq_false_iff]; decide) hh2)
      (by
        intro c hc
        simp only [List.getLast?_append, String.toList] at hc
        simp at hc
        rw [← hc]
        decide)
    obtain ⟨rest2, hrest2⟩ := insertWatchEntry_after_leading _ rest
      (watchEntry watchedDate (firstTruthy row ["Rating".toList])
        (firstTruthy row ["Review".toList])) hu
    rw [hrest2] at hout
    refine ⟨rest2, hout.symm, ?_⟩
    rw [← hout]
    exact matchFrontmatter_block _ rest2 hb2


theorem matchWatches_eq_none (s : Str)
    (h : ∀ before d t, isDigit d = true → s ≠ before ++ "watches: ".toList ++ d :: t) :
    matchWatches s = none := by
  cases hm : matchWatches s with
  | none => rfl
  | some r =>
    obtain ⟨before, digits, after⟩ := r
    obtain ⟨h1, h2, h3, -⟩ := matchWatches_eq_some _ _ _ _ hm
    cases digits with
    | nil => exact absurd rfl h2
    | cons d ds => exact absurd (by simpa using h1) (h before d (ds ++ after) (h3 d (by simp)))

/-- The front-matter step of an append that is not skipped.  Let the existing
document be a three dash line, a block that
contains neither a newline followed by three dashes, nor a dollar, nor
`## Watch History`, then a newline with three dashes and the rest; let the
poster URL contain no dollar, newline or `#`; and let the append not be
skipped.  Then the output is a three dash line, the updated block, a newline
with three dashes and a rest, and the updated block is what the front-matter
expression captures in the output.  The updated block is `addPoster` of the
bumped block, and the bumped block is: the block with the number of its
leftmost `watches: ` followed by digits replaced by that number plus one and
every other character unchanged; the block itself when it contains `watches:`
but nowhere `watches: ` followed by a digit; the block followed by the line
`watches: 2` when it does not contain `watches:`.  (The sum is exact below
`2 ^ 53`.) -/
theorem appendWatchEntry_counter (frontmatter rest : Str) (row : Row)
    (posterUrl watchedDate out : Str)
    (hblock : ¬ "\n---".toList <:+: frontmatter) (hdollar : '$' ∉ frontmatter)
    (hheading : ¬ "## Watch History".toList <:+: frontmatter)
    (hposter : ∀ c ∈ posterUrl, c ≠ '$' ∧ c ≠ '\n' ∧ c ≠ '#')
    (hout : appendWatchEntry ("---\n".toList ++ frontmatter ++ "\n---".toList ++ rest) row
      posterUrl watchedDate = some out) :
    (∃ rest2, out = "---\n".toList ++ addPoster (bumpWatches frontmatter) posterUrl
          ++ "\n---".toList ++ rest2
        ∧ matchFrontmatter out = some (addPoster (bumpWatches frontmatter) posterUrl, rest2))
      ∧ (∀ before digits after,
          frontmatter = before ++ "watches: ".toList ++ digits ++ after →
          digits ≠ [] → (∀ c ∈ digits, isDigit c = true) →
          (∀ c ∈ after.head?, isDigit c = false) →
          (∀ i, i < before.length → ∀ d t, isDigit d = true →
            frontmatter.drop i ≠ "watches: ".toList ++ d :: t) →
          digitsValue digits < 2 ^ 53 →
          bumpWatches frontmatter
            = before ++ "watches: ".toList ++ decimal (digitsValue digits + 1) ++ after)
      ∧ ("watches:".toList <:+: frontmatter →
          (∀ before d t, isDigit d = true →
            frontmatter ≠ before ++ "watches: ".toList ++ d :: t) →
          bumpWatches frontmatter = frontmatter)
      ∧ (¬ "watches:".toList <:+: frontmatter →
          bumpWatches frontmatter = frontmatter ++ "\nwatches: 2".toList) := by
  refine ⟨appendWatchEntry_block frontmatter rest row posterUrl watchedDate out hblock hdollar
    hheading hposter hout, ?_, ?_, bumpWatches_of_absent frontmatter⟩
  · intro before digits after hfm hne hd ha hleft hsafe
    subst hfm
    rw [← numToString_addOne_parseInt digits hsafe]
    exact bumpWatches_of_match _ _ _ _ (matchWatches_at before digits after hne hd ha hleft)
  · intro hinc hnone
    unfold bumpWatches
    rw [(includes_iff _ _).mpr hinc, matchWatches_eq_none _ hnone]
    simp

/-- An instance of the front-matter step: a second viewing appended to a
document with the counter 1. -/
theorem appendWatchEntry_counter_witness :
    bumpWatches heatBlock = "Name: 'Heat'\nwatches: 2".toList
      ∧ ∃ rest2, "---\nName: 'Heat'\nwatches: 2\n---\n\n\n\n## Watch History\n\n### 2024-02-02\n\n### 2024-01-01\n\n".toList
          = "---\n".toList ++ addPoster (bumpWatches heatBlock) [] ++ "\n---".toList ++ rest2
        ∧ matchFrontmatter "---\nName: 'Heat'\nwatches: 2\n---\n\n\n\n## Watch History\n\n### 2024-02-02\n\n### 2024-01-01\n\n".toList
          = some (addPoster (bumpWatches heatBlock) [], rest2) :=
  have h := appendWatchEntry_counter heatBlock heatBody [("Name".toList, "Heat".toList)] []
    "2024-02-02".toList
    "---\nName: 'Heat'\nwatches: 2\n---\n\n\n\n## Watch History\n\n### 2024-02-02\n\n### 2024-01-01\n\n".toList
    ((includes_eq_false_iff _ _).mp (by decide)) (by decide)
    ((includes_eq_false_iff _ _).mp (by decide)) (by simp) (by decide)
  ⟨h.2.1 "Name: 'Heat'\n".toList "1".toList [] (by decide) (by decide) (by decide) (by decide)
      (by
        intro i hi d t hd
        have hi2 : i < 13 := hi
        interval_cases i <;> simp [heatBlock])
      (by decide),
    h.1⟩

/-- C10, the code at the failing input. The field `Review` of the front-matter
holds the text `watches: 3 times` before the counter line `watches: 1`: the
append, which is not skipped, changes that field to `watches: 4 times` and
leaves the counter at 1. -/
theorem appendWatchEntry_bumps_review :
    appendWatchEntry reviewDoc [("Name".toList, "Heat".toList)] [] "2024-02-02".toList
      = some "---\nName: 'Heat'\nReview: 'watches: 4 times'\nwatches: 1\n---\n\n\n\n## Watch History\n\n### 2024-02-02\n\n### 2024-01-01\n**Review:** watches: 3 times\n\n".toList := by
  decide


/-! ## Two viewings of one film under the append policy -/

theorem newline_flatMap_lines (tags : List Str) :
    "\n".toList ++ tags.flatMap (fun tag => "  - ".toList ++ tag ++ "\n".toList)
      = tags.flatMap (fun tag => "\n  - ".toList ++ tag) ++ "\n".toList := by
  induction tags with
  | nil => rfl
  | cons t ts ih =>
    simp only [List.flatMap_cons, List.append_assoc]
    rw [← ih]
    simp

theorem newline_tagsBlock (tags : List Str) :
    "\n".toList ++ tagsBlock tags = tagsTail tags ++ "\n".toList := by
  unfold tagsBlock tagsTail
  split
  · have := newline_flatMap_lines tags
    simp only [List.append_assoc] at this ⊢
    simp only [String.toList, List.cons_append, List.nil_append, List.cons.injEq, true_and]
      at this ⊢
    exact this
  · rfl

theorem createNewMovieFile_eq (settings : Settings) (row : Row) (posterUrl : Str) :
    createNewMovieFile settings row posterUrl
      = "---\n".toList ++ createdBlock settings row posterUrl "1".toList ++ "\n---".toList
        ++ ("\n\n".toList ++ firstTruthy row ["content".toList] ++ "\n\n".toList
          ++ ("## Watch History\n\n".toList
            ++ watchEntry (firstTruthy row ["Watched Date".toList, "Date".toList])
                (firstTruthy row ["Rating".toList]) (firstTruthy row ["Review".toList]))) := by
  have h := newline_tagsBlock (getTagsArray settings)
  unfold createNewMovieFile createdBlock createdFields
  simp only [List.append_assoc]
  have e : "watches: 1\n".toList ++ (tagsBlock (getTagsArray settings) ++ ("---\n\n".toList
        ++ (firstTruthy row ["content".toList] ++ ("\n\n".toList ++ ("## Watch History\n\n".toList
          ++ watchEntry (firstTruthy row ["Watched Date".toList, "Date".toList])
            (firstTruthy row ["Rating".toList]) (firstTruthy row ["Review".toList]))))))
      = "watches: ".toList ++ ("1".toList ++ (tagsTail (getTagsArray settings)
        ++ ("\n---".toList ++ ("\n\n".toList ++ (firstTruthy row ["content".toList]
          ++ ("\n\n".toList ++ ("## Watch History\n\n".toList
            ++ watchEntry (firstTruthy row ["Watched Date".toList, "Date".toList])
              (firstTruthy row ["Rating".toList]) (firstTruthy row ["Review".toList])))))))) := by
    have e1 : "watches: 1\n".toList = "watches: ".toList ++ ("1".toList ++ "\n".toList) := by
      decide
    have e2 : "---\n\n".toList = "---".toList ++ "\n\n".toList := by decide
    have e3 : "\n---".toList = "\n".toList ++ "---".toList := by decide
    rw [e1, e2, e3]
    simp only [List.append_assoc]
    rw [← List.append_assoc "\n".toList (tagsBlock _), h]
    simp only [List.append_assoc]
  rw [e]


theorem updatedBlock_clean (frontmatter posterUrl : Str)
    (hblock : ¬ "\n---".toList <:+: frontmatter) (hdollar : '$' ∉ frontmatter)
    (hheading : ¬ "## Watch History".toList <:+: frontmatter)
    (hposter : ∀ c ∈ posterUrl, c ≠ '$' ∧ c ≠ '\n' ∧ c ≠ '#') :
    '$' ∉ addPoster (bumpWatches frontmatter) posterUrl
      ∧ ¬ "\n---".toList <:+: addPoster (bumpWatches frontmatter) posterUrl
      ∧ ¬ "## Watch History".toList <:+: addPoster (bumpWatches frontmatter) posterUrl := by
  refine ⟨?_, ?_, ?_⟩
  · intro hm
    have h1 := infix_addPoster ['$'] _ posterUrl '$' (by simp)
      (fun hu => (hposter _ hu).1 rfl) (by decide) (by decide) (by decide)
      (singleton_infix_of_mem _ _ hm)
    have h2 := infix_bumpWatches '$' [] frontmatter (by decide) (by decide) (by decide)
      (by decide) (by rw [← includes_eq_false_iff]; decide) h1
    exact hdollar (h2.subset (by simp))
  · intro hm
    have h1 := infix_addPoster _ _ posterUrl '\n' (by decide)
      (fun hu => (hposter _ hu).2.1 rfl) (by decide) (by decide) (by decide) hm
    exact hblock (infix_bumpWatches _ _ frontmatter (by decide) (by decide) (by decide)
      (by decide) (by rw [← includes_eq_false_iff]; decide) h1)
  · intro hm
    have h1 := infix_addPoster _ _ posterUrl '#' (by decide)
      (fun hu => (hposter _ hu).2.2 rfl) (by decide) (by decide) (by decide) hm
    exact hheading (infix_bumpWatches _ _ frontmatter (by decide) (by decide) (by decide)
      (by decide) (by rw [← includes_eq_false_iff]; decide) h1)

theorem head_tagsTail (tags : List Str) : ∀ c ∈ (tagsTail tags).head?, isDigit c = false := by
  unfold tagsTail
  split
  · intro c hc
    simp at hc
    rw [← hc]
    decide
  · simp

theorem bumpWatches_createdBlock (settings : Settings) (row : Row) (posterUrl : Str)
    (hcounter : ∀ d, isDigit d = true →
      ¬ "watches: ".toList ++ [d] <:+: createdFields row posterUrl) :
    bumpWatches (createdBlock settings row posterUrl "1".toList)
      = createdBlock settings row posterUrl "2".toList := by
  have hm := matchWatches_at (createdFields row posterUrl) "1".toList
    (tagsTail (getTagsArray settings)) (by decide) (by decide) (head_tagsTail _)
    (by
      intro i hi d t hd heq
      have hw : 'w' ∉ "atches: ".toList ++ [d] := by
        intro hm
        simp only [List.mem_append, List.mem_singleton] at hm
        rcases hm with hm | hm
        · revert hm; decide
        · rw [← hm] at hd
          revert hd; decide
      refine not_prefix_drop_of_head_unique 'w' ("atches: ".toList ++ [d])
        (createdFields row posterUrl)
        ("atches: ".toList ++ ("1".toList ++ tagsTail (getTagsArray settings))) hw
        (by simpa using hcounter d hd) i hi ?_
      rw [List.append_assoc, List.append_assoc, List.drop_append_of_le_length (by omega)] at heq
      have e : ('w' :: ("atches: ".toList ++ ("1".toList ++ tagsTail (getTagsArray settings))))
          = "watches: ".toList ++ ("1".toList ++ tagsTail (getTagsArray settings)) := by simp
      rw [e, heq]
      exact ⟨t, by simp⟩)
  have hb := bumpWatches_of_match _ _ _ _ hm
  unfold createdBlock
  rw [hb]
  have e2 : numToString (addOne (parseInt "1".toList)) = "2".toList := by decide
  rw [e2]

/-- The history step at the first heading: the entry goes right after it. -/
theorem insertWatchEntry_at (u v entry : Str)
    (hfirst : ∀ i, i < u.length →
      ¬ "## Watch History\n\n".toList <+: u.drop i ++ ("## Watch History\n\n".toList ++ v))
    (hdollar : '$' ∉ entry) (hhead : ∀ c ∈ entry.head?, isDigit c = false) :
    insertWatchEntry (u ++ ("## Watch History\n\n".toList ++ v)) entry
      = u ++ ("## Watch History\n\n".toList ++ (entry ++ v)) := by
  have hinc : includes "## Watch History".toList (u ++ ("## Watch History\n\n".toList ++ v))
      = true := by
    rw [includes_iff]
    exact ⟨u, "\n\n".toList ++ v, by simp⟩
  have hexp := expandTemplate_first_capture "## Watch History\n\n".toList u v
    "## Watch History\n\n".toList entry hdollar hhead
  have e : "$1".toList ++ entry = '$' :: '1' :: entry := rfl
  unfold insertWatchEntry
  rw [hinc, findSplit_at _ u v hfirst]
  simp only [if_true, e, hexp, List.append_assoc]


theorem head_watchEntry (watchedDate rating review : Str) :
    ∀ c ∈ (watchEntry watchedDate rating review).head?, isDigit c = false := by
  intro c hc
  simp [watchEntry] at hc
  rw [← hc]
  decide

theorem dollar_not_mem_watchEntry (watchedDate rating review : Str)
    (hd : '$' ∉ watchedDate) (hr : '$' ∉ rating) (hv : '$' ∉ review) :
    '$' ∉ watchEntry watchedDate rating review := by
  by_cases h1 : rating.isEmpty = true <;> by_cases h2 : review.isEmpty = true <;>
    simp [watchEntry, h1, h2, hd, hr, hv]

theorem appendWatchEntry_created (settings : Settings) (row1 row2 : Row)
    (poster1 poster2 watchedDate : Str)
    (hblock : ¬ "\n---".toList <:+: createdBlock settings row1 poster1 "1".toList)
    (hdollar : '$' ∉ createdBlock settings row1 poster1 "1".toList)
    (hheading : ¬ "## Watch History".toList <:+: createdBlock settings row1 poster1 "1".toList)
    (hcounter : ∀ d, isDigit d = true →
      ¬ "watches: ".toList ++ [d] <:+: createdFields row1 poster1)
    (hcontent : ¬ "## Watch History".toList <:+: firstTruthy row1 ["content".toList])
    (hposter : ∀ c ∈ poster2, c ≠ '$' ∧ c ≠ '\n' ∧ c ≠ '#')
    (hentry : '$' ∉ watchedDate ∧ '$' ∉ firstTruthy row2 ["Rating".toList]
      ∧ '$' ∉ firstTruthy row2 ["Review".toList])
    (hnew : ¬ "### ".toList ++ watchedDate <:+: createNewMovieFile settings row1 poster1) :
    appendWatchEntry (createNewMovieFile settings row1 poster1) row2 poster2 watchedDate
      = some ("---\n".toList ++ addPoster (createdBlock settings row1 poster1 "2".toList) poster2
          ++ "\n---".toList
          ++ ("\n\n".toList ++ firstTruthy row1 ["content".toList] ++ "\n\n".toList
            ++ ("## Watch History\n\n".toList
              ++ (watchEntry watchedDate (firstTruthy row2 ["Rating".toList])
                    (firstTruthy row2 ["Review".toList])
                ++ watchEntry (firstTruthy row1 ["Watched Date".toList, "Date".toList])
                    (firstTruthy row1 ["Rating".toList])
                    (firstTruthy row1 ["Review".toList]))))) := by
  obtain ⟨hd2, -, hh2⟩ := updatedBlock_clean _ poster2 hblock hdollar hheading hposter
  have hskip : includes ("### ".toList ++ watchedDate) (createNewMovieFile settings row1 poster1)
      = false := (includes_eq_false_iff _ _).mpr hnew
  unfold appendWatchEntry
  simp only [hskip, Bool.and_false]
  rw [if_neg (by simp), createNewMovieFile_eq, updateFrontmatter_block _ _ _ hblock hd2,
    bumpWatches_createdBlock settings row1 poster1 hcounter] at *
  have hnot : ¬ "## Watch History".toList <:+: "---\n".toList
      ++ addPoster (createdBlock settings row1 poster1 "2".toList) poster2 ++ "\n---".toList
      ++ ("\n\n".toList ++ firstTruthy row1 ["content".toList] ++ "\n\n".toList) := by
    intro hin
    have hb := not_infix_block _ _ (by decide) (by rw [← includes_eq_false_iff]; decide) hh2
    have h1 : "## Watch History".toList <:+: ("---\n".toList
        ++ addPoster (createdBlock settings row1 poster1 "2".toList) poster2 ++ "\n---".toList)
        ++ '\n' :: ([] ++ '\n' :: (firstTruthy row1 ["content".toList] ++ '\n' :: ['\n'])) := by
      simpa using hin
    rcases infix_of_infix_append_cons _ _ _ '\n' h1 (by decide) with h2 | h2
    · exact hb h2
    · rcases infix_of_infix_append_cons _ _ _ '\n' h2 (by decide) with h3 | h3
      · exact absurd (List.eq_nil_of_infix_nil h3) (by decide)
      · rcases infix_of_infix_append_cons _ _ _ '\n' h3 (by decide) with h4 | h4
        · exact hcontent h4
        · exact absurd ((includes_iff _ _).mpr h4) (by decide)
  have hfirst := not_prefix_drop_of_last "## Watch History".toList "## Watch History\n\n".toList
    _ ("## Watch History\n\n".toList
      ++ watchEntry (firstTruthy row1 ["Watched Date".toList, "Date".toList])
        (firstTruthy row1 ["Rating".toList]) (firstTruthy row1 ["Review".toList]))
    ⟨"\n\n".toList, by decide⟩ hnot
    (by
      intro c hc
      simp only [List.getLast?_append, String.toList] at hc
      simp at hc
      rw [← hc]
      decide)
  have hins := insertWatchEntry_at _ (watchEntry
      (firstTruthy row1 ["Watched Date".toList, "Date".toList])
      (firstTruthy row1 ["Rating".toList]) (firstTruthy row1 ["Review".toList]))
    (watchEntry watchedDate (firstTruthy row2 ["Rating".toList])
      (firstTruthy row2 ["Review".toList]))
    hfirst (dollar_not_mem_watchEntry _ _ _ hentry.1 hentry.2.1 hentry.2.2)
    (head_watchEntry _ _ _)
  simp only [List.append_assoc] at hins ⊢
  rw [hins]


theorem trim_nil : trim [] = [] := rfl

theorem processRow_create (settings : Settings) (fetchPoster : Str → Str) (row : Row)
    (counters : Counters) (htitle : trim (rowTitle row) ≠ []) :
    processRow settings fetchPoster { vault := [], counters := counters } row
      = .ok { vault := [(rowFilePath settings row,
                createNewMovieFile settings row (fetchPoster (trim (rowTitle row))))],
              counters := { counters with count := counters.count + 1 } } := by
  have h1 : (rowTitle row).isEmpty = false := by
    cases h : rowTitle row with
    | nil => rw [h] at htitle; exact absurd trim_nil htitle
    | cons c cs => rfl
  have h2 : (trim (rowTitle row)).isEmpty = false := by
    cases h : trim (rowTitle row) with
    | nil => exact absurd h htitle
    | cons c cs => rfl
  simp [processRow, h1, h2, vaultRead, vaultCreate]

theorem processRow_append (settings : Settings) (fetchPoster : Str → Str) (row : Row)
    (counters : Counters) (path content updated : Str)
    (hpolicy : settings.duplicateHandling = "append".toList)
    (htitle : trim (rowTitle row) ≠ []) (hpath : rowFilePath settings row = path)
    (happend : appendWatchEntry content row (fetchPoster (trim (rowTitle row)))
      (rowWatchedDate row) = some updated) :
    processRow settings fetchPoster { vault := [(path, content)], counters := counters } row
      = .ok { vault := [(path, updated)],
              counters := { counters with updated := counters.updated + 1 } } := by
  have h1 : (rowTitle row).isEmpty = false := by
    cases h : rowTitle row with
    | nil => rw [h] at htitle; exact absurd trim_nil htitle
    | cons c cs => rfl
  have h2 : (trim (rowTitle row)).isEmpty = false := by
    cases h : trim (rowTitle row) with
    | nil => exact absurd h htitle
    | cons c cs => rfl
  have h3 : ¬ ("append".toList = "skip".toList) := by decide
  simp [processRow, h1, h2, vaultRead, hpath, hpolicy, h3, happend, vaultModify]

theorem rowFilePath_congr (settings : Settings) (row1 row2 : Row)
    (hsame : rowTitle row2 = rowTitle row1) (hyear : rowYear row2 = rowYear row1) :
    rowFilePath settings row2 = rowFilePath settings row1 := by
  simp [rowFilePath, hsame, hyear]

/-- Two viewings under the append policy, where no step of the text surgery is
misled.  Starting with no document, two rows with the same title and year are
imported one after the other.  Suppose the
front-matter block written for the first row contains no dollar, no newline
followed by three dashes and no `## Watch History`, and no `watches: `
followed by a digit before its counter line; the content of the first row does
not contain `## Watch History`; the second poster URL contains no dollar,
newline or `#`; the second date, rating and review contain no dollar; and the
text `### ` followed by the second date does not occur in the first document.
Then the run creates one document and updates it once, and the document is:
the block of the first row with the counter `watches: 2` (and the second
poster line, if that poster is new), the content, the heading
`## Watch History`, the sub-entry of the second row and then the sub-entry of
the first row, whose date is read from `Watched Date` or `Date`. -/
theorem processRows_two_viewings (settings : Settings) (fetchPoster : Nat → Str → Str)
    (row1 row2 : Row)
    (hpolicy : settings.duplicateHandling = "append".toList)
    (htitle : trim (rowTitle row1) ≠ [])
    (hsame : rowTitle row2 = rowTitle row1) (hyear : rowYear row2 = rowYear row1)
    (hblock : ¬ "\n---".toList <:+:
      createdBlock settings row1 (fetchPoster 0 (trim (rowTitle row1))) "1".toList)
    (hdollar : '$' ∉ createdBlock settings row1 (fetchPoster 0 (trim (rowTitle row1))) "1".toList)
    (hheading : ¬ "## Watch History".toList <:+:
      createdBlock settings row1 (fetchPoster 0 (trim (rowTitle row1))) "1".toList)
    (hcounter : ∀ d, isDigit d = true →
      ¬ "watches: ".toList ++ [d] <:+: createdFields row1 (fetchPoster 0 (trim (rowTitle row1))))
    (hcontent : ¬ "## Watch History".toList <:+: firstTruthy row1 ["content".toList])
    (hposter : ∀ c ∈ fetchPoster 1 (trim (rowTitle row1)), c ≠ '$' ∧ c ≠ '\n' ∧ c ≠ '#')
    (hentry : '$' ∉ rowWatchedDate row2 ∧ '$' ∉ firstTruthy row2 ["Rating".toList]
      ∧ '$' ∉ firstTruthy row2 ["Review".toList])
    (hnew : ¬ "### ".toList ++ rowWatchedDate row2 <:+:
      createNewMovieFile settings row1 (fetchPoster 0 (trim (rowTitle row1)))) :
    (processRows settings fetchPoster 0 [row1, row2] { vault := [], counters := ⟨0, 0, 0⟩ }).summary
        = .ok { count := 1, updated := 1, skipped := 0 }
      ∧ (processRows settings fetchPoster 0 [row1, row2]
          { vault := [], counters := ⟨0, 0, 0⟩ }).vault
        = [(rowFilePath settings row1,
            "---\n".toList
              ++ addPoster (createdBlock settings row1 (fetchPoster 0 (trim (rowTitle row1)))
                  "2".toList) (fetchPoster 1 (trim (rowTitle row1)))
              ++ "\n---".toList
              ++ ("\n\n".toList ++ firstTruthy row1 ["content".toList] ++ "\n\n".toList
                ++ ("## Watch History\n\n".toList
                  ++ (watchEntry (rowWatchedDate row2) (firstTruthy row2 ["Rating".toList])
                        (firstTruthy row2 ["Review".toList])
                    ++ watchEntry (firstTruthy row1 ["Watched Date".toList, "Date".toList])
                        (firstTruthy row1 ["Rating".toList])
                        (firstTruthy row1 ["Review".toList])))))] := by
  have happ := appendWatchEntry_created settings row1 row2
    (fetchPoster 0 (trim (rowTitle row1))) (fetchPoster 1 (trim (rowTitle row1)))
    (rowWatchedDate row2) hblock hdollar hheading hcounter hcontent hposter hentry hnew
  have hstep1 := processRow_create settings (fetchPoster 0) row1 ⟨0, 0, 0⟩ htitle
  have hstep2 := processRow_append settings (fetchPoster 1) row2 ⟨0 + 1, 0, 0⟩
    (rowFilePath settings row1)
    (createNewMovieFile settings row1 (fetchPoster 0 (trim (rowTitle row1)))) _ hpolicy
    (by rw [hsame]; exact htitle) (rowFilePath_congr settings row1 row2 hsame hyear)
    (by rw [hsame]; exact happ)
  simp only [processRows, hstep1, hstep2]
  exact ⟨trivial, trivial⟩

/-- An instance of two viewings: `Heat` on `2024-01-01` and on `2024-02-02`. -/
theorem processRows_two_viewings_witness :
    (processRows appendSettings noPoster 0 twoViewingRows
        { vault := [], counters := ⟨0, 0, 0⟩ }).summary
        = .ok { count := 1, updated := 1, skipped := 0 }
      ∧ (processRows appendSettings noPoster 0 twoViewingRows
          { vault := [], counters := ⟨0, 0, 0⟩ }).vault
        = [("Movies/Heat.md".toList,
            "---\nName: 'Heat'\nWatched Date: '2024-01-01'\nRating: '4'\nwatches: 2\n---\n\n\n\n## Watch History\n\n### 2024-02-02\n**Rating:** 5\n\n### 2024-01-01\n**Rating:** 4\n\n".toList)] :=
  processRows_two_viewings appendSettings noPoster
    [("Name".toList, "Heat".toList), ("Watched Date".toList, "2024-01-01".toList),
      ("Rating".toList, "4".toList)]
    [("Name".toList, "Heat".toList), ("Watched Date".toList, "2024-02-02".toList),
      ("Rating".toList, "5".toList)]
    rfl (by decide) (by decide) (by decide)
    ((includes_eq_false_iff _ _).mp (by decide)) (by decide)
    ((includes_eq_false_iff _ _).mp (by decide))
    (fun d _ h => (includes_eq_false_iff "watches: ".toList _).mp (by decide)
      ((List.prefix_append "watches: ".toList [d]).isInfix.trans h))
    ((includes_eq_false_iff _ _).mp (by decide)) (by decide) (by decide)
    ((includes_eq_false_iff _ _).mp (by decide))

/-- C2, the code at the failing input. Two rows of `Heat` with the distinct
dates `2024-01-10` and `2024-01-1` are imported under the append policy into
an empty vault.  The second date is the beginning of the first: the second row
is counted as skipped, and the document keeps the one sub-entry
`### 2024-01-10` and `watches: 1`. -/
theorem processRows_prefix_date_skipped :
    (processRows appendSettings noPoster 0 prefixDateRows
        { vault := [], counters := ⟨0, 0, 0⟩ }).summary
        = .ok { count := 1, updated := 0, skipped := 1 }
      ∧ (processRows appendSettings noPoster 0 prefixDateRows
          { vault := [], counters := ⟨0, 0, 0⟩ }).vault
        = [("Movies/Heat.md".toList,
            "---\nName: 'Heat'\nWatched Date: '2024-01-10'\nwatches: 1\n---\n\n\n\n## Watch History\n\n### 2024-01-10\n\n".toList)] :=
  ⟨rfl, rfl⟩

/-- Two viewings on distinct dates where the first review ends in a dollar.  The
front-matter step of the second import writes the block back through
`String.replace`, where the dollar and the quote after it stand for the text
after the match: the body is copied into the field `Review`, and the document
ends with three sub-entries. -/
theorem processRows_dollar_review :
    (processRows appendSettings noPoster 0 dollarReviewRows
        { vault := [], counters := ⟨0, 0, 0⟩ }).vault
      = [("Movies/Heat.md".toList,
          "---\nName: 'Heat'\nWatched Date: '2024-01-01'\nReview: 'cost 5\n\n\n\n## Watch History\n\n### 2024-02-02\n\n### 2024-01-01\n**Review:** cost 5$\n\n\nwatches: 2\n---\n\n\n\n## Watch History\n\n### 2024-01-01\n**Review:** cost 5$\n\n".toList)] :=
  rfl


/-! ## The same viewing imported twice, with the date in `Watched Date` or `Date` -/

theorem firstTruthy_append (row : Row) (keys more : List Str) (h : firstTruthy row keys ≠ []) :
    firstTruthy row (keys ++ more) = firstTruthy row keys := by
  induction keys with
  | nil => exact absurd rfl h
  | cons k ks ih =>
    simp only [List.cons_append, firstTruthy] at h ⊢
    cases hk : rowGet row k with
    | none =>
      simp only [hk] at h ⊢
      exact ih h
    | some v =>
      cases v with
      | nil =>
        simp only [hk] at h ⊢
        exact ih h
      | cons c cs => rfl

/-- The second import of a row is a skip when its date is carried in
`Watched Date` or `Date`: the document made by `createNewMovieFile` holds the
sub-heading of that date. -/
theorem appendWatchEntry_same_row (settings : Settings) (row : Row) (poster1 poster2 : Str)
    (h : firstTruthy row ["Watched Date".toList, "Date".toList] ≠ []) :
    appendWatchEntry (createNewMovieFile settings row poster1) row poster2 (rowWatchedDate row)
      = none := by
  have hdate : rowWatchedDate row = firstTruthy row ["Watched Date".toList, "Date".toList] :=
    firstTruthy_append row ["Watched Date".toList, "Date".toList] ["date".toList] h
  rw [hdate]
  refine (appendWatchEntry_eq_none_iff_aux _ row poster2 _).mpr ⟨h, ?_⟩
  rw [createNewMovieFile_eq]
  have hp : "### ".toList ++ firstTruthy row ["Watched Date".toList, "Date".toList]
      <+: watchEntry (firstTruthy row ["Watched Date".toList, "Date".toList])
        (firstTruthy row ["Rating".toList]) (firstTruthy row ["Review".toList]) := by
    unfold watchEntry
    simp only [List.append_assoc]
    exact List.prefix_append _ _
  have hs : watchEntry (firstTruthy row ["Watched Date".toList, "Date".toList])
        (firstTruthy row ["Rating".toList]) (firstTruthy row ["Review".toList])
      <:+ "---\n".toList ++ createdBlock settings row poster1 "1".toList ++ "\n---".toList
        ++ ("\n\n".toList ++ firstTruthy row ["content".toList] ++ "\n\n".toList
          ++ ("## Watch History\n\n".toList
            ++ watchEntry (firstTruthy row ["Watched Date".toList, "Date".toList])
                (firstTruthy row ["Rating".toList]) (firstTruthy row ["Review".toList]))) :=
    ((List.suffix_append _ _).trans (List.suffix_append _ _)).trans (List.suffix_append _ _)
  exact hp.isInfix.trans hs.isInfix


/-! ## The number and the content of the fields of a line -/

theorem parseCSVLineLoop_other (c : Char) (rest : Str) (result : List Str) (current : Str)
    (q : Bool) (hq : c ≠ '"') (hc : c ≠ ',') :
    parseCSVLineLoop (c :: rest) result current q
      = parseCSVLineLoop rest result (current ++ [c]) q := by
  cases rest <;> simp [parseCSVLineLoop, hq, hc]

theorem parseCSVLineLoop_comma_inside (rest : Str) (result : List Str) (current : Str) :
    parseCSVLineLoop (',' :: rest) result current true
      = parseCSVLineLoop rest result (current ++ [',']) true := by
  cases rest <;> simp [parseCSVLineLoop]

theorem length_parseCSVLineLoop (n : Nat) :
    ∀ (s : Str) (result : List Str) (current : Str) (q : Bool), s.length ≤ n →
      (parseCSVLineLoop s result current q).length
        = result.length + 1 + commasOutsideQuotes q s := by
  induction n with
  | zero =>
    intro s result current q hs
    have : s = [] := List.length_eq_zero.mp (Nat.le_zero.mp hs)
    subst this
    simp [parseCSVLineLoop, commasOutsideQuotes]
  | succ n ih =>
    intro s result current q hs
    cases s with
    | nil => simp [parseCSVLineLoop, commasOutsideQuotes]
    | cons c rest =>
      have hrest : rest.length ≤ n := by simpa using hs
      by_cases hq : c = '"'
      · subst hq
        cases q with
        | false =>
          rw [parseCSVLineLoop_open, ih rest _ _ _ hrest]
          simp [commasOutsideQuotes]
        | true =>
          cases rest with
          | nil =>
            rw [parseCSVLineLoop_close [] _ _ (by simp), ih [] _ _ _ (by simp)]
            simp [commasOutsideQuotes]
          | cons d rest2 =>
            by_cases hd : d = '"'
            · subst hd
              rw [parseCSVLineLoop_escaped, ih rest2 _ _ _ (by simp at hrest; omega)]
              simp [commasOutsideQuotes]
            · rw [parseCSVLineLoop_close (d :: rest2) _ _ (by simpa using hd),
                ih (d :: rest2) _ _ _ hrest]
              simp [commasOutsideQuotes]
      · by_cases hc : c = ','
        · subst hc
          cases q with
          | false =>
            rw [parseCSVLineLoop_comma, ih rest _ _ _ hrest]
            simp [commasOutsideQuotes]
            omega
          | true =>
            rw [parseCSVLineLoop_comma_inside, ih rest _ _ _ hrest]
            simp [commasOutsideQuotes]
        · rw [parseCSVLineLoop_other c rest _ _ q hq hc, ih rest _ _ _ hrest]
          simp [commasOutsideQuotes, hq, hc]

theorem parseCSVLineLoop_unquoted (s : Str) (result : List Str) (current : Str)
    (h : '"' ∉ s) :
    parseCSVLineLoop s result current false
      = result ++ trim (current ++ (splitOn ',' s).headD []) :: (splitOn ',' s).tail.map trim := by
  induction s generalizing result current with
  | nil => simp [parseCSVLineLoop, splitOn]
  | cons c cs ih =>
    have hq : c ≠ '"' := fun e => h (by simp [e])
    have hcs : '"' ∉ cs := fun e => h (by simp [e])
    by_cases hc : c = ','
    · subst hc
      rw [parseCSVLineLoop_comma, ih _ _ hcs]
      have hne := splitOn_ne_nil ',' cs
      cases hs : splitOn ',' cs with
      | nil => exact absurd hs hne
      | cons a as => simp [splitOn, hs]
    · rw [parseCSVLineLoop_other c cs _ _ false hq hc, ih _ _ hcs, splitOn_cons_ne ',' c cs hc]
      simp

theorem parseCSVLine_unquoted (line : Str) (h : '"' ∉ line) :
    parseCSVLine line = (splitOn ',' line).map trim := by
  unfold parseCSVLine
  rw [parseCSVLineLoop_unquoted line [] [] h]
  have hne := splitOn_ne_nil ',' line
  cases hs : splitOn ',' line with
  | nil => exact absurd hs hne
  | cons a as => simp

/-- C20. For every line `parseCSVLine` returns a list that is not empty and has
one field more than the line has commas outside quotes, a comma being outside
quotes when an even number of double quotes precedes it; and for every line
without a double quote the result is the line split at every comma, each piece
trimmed. -/
theorem parseCSVLine_fields (line : Str) :
    parseCSVLine line ≠ []
      ∧ (parseCSVLine line).length = 1 + commasOutsideQuotes false line
      ∧ ('"' ∉ line → parseCSVLine line = (splitOn ',' line).map trim) := by
  have hlen : (parseCSVLine line).length = 1 + commasOutsideQuotes false line := by
    unfold parseCSVLine
    rw [length_parseCSVLineLoop line.length line [] [] false (Nat.le_refl _)]
    simp
  refine ⟨?_, hlen, parseCSVLine_unquoted line⟩
  intro hnil
  rw [hnil] at hlen
  simp at hlen
  omega

/-- C20, witness: a line with a quoted comma, and a line without quotes. -/
theorem parseCSVLine_fields_witness :
    (parseCSVLine "\"a,b\", c ,d".toList).length = 1 + 2
      ∧ parseCSVLine " a , b,,c".toList = ["a".toList, "b".toList, [], "c".toList] :=
  ⟨(parseCSVLine_fields "\"a,b\", c ,d".toList).2.1,
    (parseCSVLine_fields " a , b,,c".toList).2.2 (by decide)⟩


/-! ## The header line -/

theorem unquoteHeader_unquoted (header : Str) (h : '"' ∉ header) :
    unquoteHeader header = header := by
  cases header with
  | nil => rfl
  | cons first rest =>
    have hf : first ≠ '"' := fun e => h (by simp [e])
    unfold unquoteHeader
    simp only []
    split
    · rfl
    · simp [hf]

/-- A header line without double quotes is read as a data line is. -/
theorem parseHeaders_unquoted (line : Str) (h : '"' ∉ line) :
    parseHeaders line = parseCSVLine line := by
  rw [parseCSVLine_unquoted line h]
  unfold parseHeaders
  apply List.map_congr_left
  intro piece hpiece
  rw [unquoteHeader_unquoted piece
    (fun hm => h ((infix_of_mem_splitOn ',' line piece hpiece).subset hm))]

/-- C14, the code at the failing input. The first column name is quoted and
contains a comma.  `parseCSV` splits the header line at every comma, so it
reads three column names, two of them with a stray double quote, where
`parseCSVLine` reads two; the data line then has two fields for three column
names and is dropped.  A quoted name with white space around it keeps its
quotes. -/
theorem parseHeaders_quoted_comma :
    parseHeaders "\"Name, Original\",Year".toList
        = ["\"Name".toList, "Original\"".toList, "Year".toList]
      ∧ parseCSVLine "\"Name, Original\",Year".toList
        = ["Name, Original".toList, "Year".toList]
      ∧ parseCSV quotedHeaderCsv = .ok []
      ∧ parseHeaders " \"Name\" ,Year".toList = ["\"Name\"".toList, "Year".toList]
      ∧ parseCSVLine " \"Name\" ,Year".toList = ["Name".toList, "Year".toList] := by
  refine ⟨by decide, by decide, rfl, by decide, by decide⟩


/-! ## File names -/

theorem isForbiddenChar_iff (c : Char) : isForbiddenChar c = true ↔ c ∈ forbiddenChars := by
  simp only [isForbiddenChar, forbiddenChars, Bool.or_eq_true, decide_eq_true_eq]
  simp only [String.toList, List.mem_cons, List.mem_nil_iff, or_false, or_assoc]

theorem dash_not_forbidden : isForbiddenChar '-' = false := by decide

theorem not_forbidden_of_mem_map (s : Str) :
    ∀ c ∈ s.map (fun c => if isForbiddenChar c then '-' else c), isForbiddenChar c = false := by
  intro c hc
  obtain ⟨d, -, hd⟩ := List.mem_map.mp hc
  by_cases h : isForbiddenChar d = true
  · simp only [h, if_true] at hd
    rw [← hd]
    exact dash_not_forbidden
  · simp only [h] at hd
    rw [← hd]
    simpa using h

theorem map_replace_of_not_forbidden (s : Str) (h : ∀ c ∈ s, isForbiddenChar c = false) :
    s.map (fun c => if isForbiddenChar c then '-' else c) = s := by
  induction s with
  | nil => rfl
  | cons c cs ih =>
    simp [h c (by simp), ih (fun d hd => h d (by simp [hd]))]

theorem mem_of_mem_trim (s : Str) (c : Char) (h : c ∈ trim s) : c ∈ s := by
  obtain ⟨w1, w2, hs, -⟩ := trim_spec s
  rw [hs]
  simp [h]

theorem trimStart_of_head (s : Str) (h : ∀ c ∈ s.head?, isWhiteSpace c = false) :
    trimStart s = s := by
  cases s with
  | nil => rfl
  | cons c cs => simp [trimStart, h c (by simp)]

theorem trim_of_trimmed (s : Str) (hhead : ∀ c ∈ s.head?, isWhiteSpace c = false)
    (hlast : ∀ c ∈ s.getLast?, isWhiteSpace c = false) : trim s = s := by
  unfold trim trimEnd
  rw [trimStart_of_head s hhead, trimStart_of_head s.reverse (by simpa using hlast)]
  simp

theorem trim_trim (s : Str) : trim (trim s) = trim s := by
  obtain ⟨_, _, _, _, _, hhead, hlast⟩ := trim_spec s
  exact trim_of_trimmed _ hhead hlast

theorem not_forbidden_of_mem_sanitizeFilename (s : Str) :
    ∀ c ∈ sanitizeFilename s, isForbiddenChar c = false :=
  fun c hc => not_forbidden_of_mem_map s c (mem_of_mem_trim _ c hc)

theorem sanitizeFilename_idem (s : Str) :
    sanitizeFilename (sanitizeFilename s) = sanitizeFilename s := by
  have h := map_replace_of_not_forbidden _ (not_forbidden_of_mem_sanitizeFilename s)
  have e : sanitizeFilename (sanitizeFilename s)
      = trim ((sanitizeFilename s).map (fun c => if isForbiddenChar c then '-' else c)) := rfl
  rw [e, h]
  exact trim_trim _

/-- C15. For every string, `sanitizeFilename` returns the string in which each
of the nine characters is replaced by a dash and every other character is
kept, without the white space at its two ends: the replaced string is white
space, the result, white space, and the result neither begins nor ends with
white space.  Hence the result contains none of the nine characters, and
`sanitizeFilename` is idempotent. -/
theorem sanitizeFilename_spec (s : Str) :
    (∃ w1 w2, s.map (fun c => if c ∈ forbiddenChars then '-' else c)
          = w1 ++ sanitizeFilename s ++ w2
        ∧ (∀ c ∈ w1, isWhiteSpace c = true) ∧ (∀ c ∈ w2, isWhiteSpace c = true))
      ∧ (∀ c ∈ (sanitizeFilename s).head?, isWhiteSpace c = false)
      ∧ (∀ c ∈ (sanitizeFilename s).getLast?, isWhiteSpace c = false)
      ∧ (∀ c ∈ sanitizeFilename s, c ∉ forbiddenChars)
      ∧ sanitizeFilename (sanitizeFilename s) = sanitizeFilename s := by
  have hmap : s.map (fun c => if c ∈ forbiddenChars then '-' else c)
      = s.map (fun c => if isForbiddenChar c then '-' else c) := by
    apply List.map_congr_left
    intro c _
    by_cases h : isForbiddenChar c = true
    · simp [h, (isForbiddenChar_iff c).mp h]
    · have : c ∉ forbiddenChars := fun hm => h ((isForbiddenChar_iff c).mpr hm)
      simp [h, this]
  obtain ⟨w1, w2, hs, h1, h2, hhead, hlast⟩ :=
    trim_spec (s.map (fun c => if isForbiddenChar c then '-' else c))
  refine ⟨⟨w1, w2, ?_, h1, h2⟩, hhead, hlast, ?_, sanitizeFilename_idem s⟩
  · rw [hmap]
    exact hs
  · intro c hc hm
    have := not_forbidden_of_mem_sanitizeFilename s c hc
    rw [(isForbiddenChar_iff c).mpr hm] at this
    cases this


/-- C15, witness: a title with a colon, a question mark and white space at its
ends. -/
theorem sanitizeFilename_spec_witness :
    sanitizeFilename " Who: me? ".toList = "Who- me-".toList
      ∧ sanitizeFilename (sanitizeFilename " Who: me? ".toList)
        = sanitizeFilename " Who: me? ".toList :=
  ⟨by decide, (sanitizeFilename_spec " Who: me? ".toList).2.2.2.2⟩

/-- The file name is free of the nine characters when the year is: the title is
sanitised, the year is appended as it is. -/
theorem not_forbidden_of_mem_rowFileName (row : Row)
    (hyear : ∀ c ∈ rowYear row, c ∉ forbiddenChars) :
    ∀ c ∈ rowFileName row, c ∉ forbiddenChars := by
  have h1 : ∀ c ∈ " (".toList, c ∉ forbiddenChars := by decide
  have h2 : ∀ c ∈ ")".toList, c ∉ forbiddenChars := by decide
  have h3 : ∀ c ∈ ".md".toList, c ∉ forbiddenChars := by decide
  intro c hc hm
  unfold rowFileName at hc
  simp only [List.mem_append] at hc
  rcases hc with (hc | hc) | hc
  · have := not_forbidden_of_mem_sanitizeFilename _ c hc
    rw [(isForbiddenChar_iff c).mpr hm] at this
    cases this
  · split at hc
    · simp at hc
    · simp only [List.mem_append] at hc
      rcases hc with (hc | hc) | hc
      · exact h1 c hc hm
      · exact hyear c hc hm
      · exact h2 c hc hm
  · exact h3 c hc hm

theorem rowFilePath_eq (settings : Settings) (row : Row) :
    rowFilePath settings row = settings.outputFolder ++ "/".toList ++ rowFileName row := rfl

/-- C19, the code at the failing input. The year `1995/96` is appended to the
sanitised title as it is, so the file name holds a slash and the document is
created two levels below the output folder. -/
theorem rowFileName_slash_in_year :
    rowFileName [("Name".toList, "Heat".toList), ("Year".toList, "1995/96".toList)]
        = "Heat (1995/96).md".toList
      ∧ '/' ∈ rowFileName [("Name".toList, "Heat".toList), ("Year".toList, "1995/96".toList)]
      ∧ (processCsvData appendSettings noPoster [] "Name,Year\nHeat,1995/96".toList).vault.map
          (fun document => document.1)
        = ["Movies/Heat (1995/96).md".toList] := by
  refine ⟨by decide, by decide, by decide⟩


/-! ## The poster lookup -/

/-- C16. With the outcome of the network call as an input, `getMoviePosterUrl`
always returns a string, also when its `try` block throws.  It returns the
empty string for an empty API key, a rejected call, a status outside 200 to
299, a body that cannot be decoded, a missing or empty result list, and a first
result without a poster path (absent, `null` or empty).  In every other case it
returns `https://image.tmdb.org/t/p/`, the image size and the poster path of
the first result, whatever the later results are. -/
theorem getMoviePosterUrl_spec (settings : Settings) :
    (∀ outcome e, getMoviePosterUrlTry settings outcome = .error e →
        getMoviePosterUrl settings outcome = [])
      ∧ (∀ outcome, settings.tmdbApiKey = [] → getMoviePosterUrl settings outcome = [])
      ∧ getMoviePosterUrl settings .transportFailure = []
      ∧ (∀ status body, ¬ (200 ≤ status ∧ status ≤ 299) →
          getMoviePosterUrl settings (.response status body) = [])
      ∧ (∀ status, getMoviePosterUrl settings (.response status none) = [])
      ∧ (∀ status, getMoviePosterUrl settings (.response status (some ⟨none⟩)) = [])
      ∧ (∀ status, getMoviePosterUrl settings (.response status (some ⟨some []⟩)) = [])
      ∧ (∀ status rest,
          getMoviePosterUrl settings (.response status (some ⟨some (⟨none⟩ :: rest)⟩)) = [])
      ∧ (∀ status rest,
          getMoviePosterUrl settings (.response status (some ⟨some (⟨some []⟩ :: rest)⟩)) = [])
      ∧ (∀ status path rest, settings.tmdbApiKey ≠ [] → 200 ≤ status → status ≤ 299 →
          path ≠ [] →
          getMoviePosterUrl settings (.response status (some ⟨some (⟨some path⟩ :: rest)⟩))
            = "https://image.tmdb.org/t/p/".toList ++ settings.imageSize ++ path) := by
  refine ⟨?_, ?_, ?_, ?_, ?_, ?_, ?_, ?_, ?_, ?_⟩
  · intro outcome e he
    unfold getMoviePosterUrl
    rw [he]
    split <;> rfl
  · intro outcome hkey
    simp [getMoviePosterUrl, hkey]
  · unfold getMoviePosterUrl
    split <;> rfl
  · intro status body hstatus
    have hok : responseOk status = false := by
      simp only [responseOk, Bool.and_eq_false_iff, decide_eq_false_iff_not]
      by_cases h : 200 ≤ status
      · exact Or.inr (fun h2 => hstatus ⟨h, h2⟩)
      · exact Or.inl h
    simp [getMoviePosterUrl, getMoviePosterUrlTry, hok]
  · intro status
    cases h : responseOk status <;> simp [getMoviePosterUrl, getMoviePosterUrlTry, h]
  · intro status
    cases h : responseOk status <;> simp [getMoviePosterUrl, getMoviePosterUrlTry, h]
  · intro status
    cases h : responseOk status <;> simp [getMoviePosterUrl, getMoviePosterUrlTry, h]
  · intro status rest
    cases h : responseOk status <;> simp [getMoviePosterUrl, getMoviePosterUrlTry, h]
  · intro status rest
    cases h : responseOk status <;> simp [getMoviePosterUrl, getMoviePosterUrlTry, h]
  · intro status path rest hkey h1 h2 hpath
    have hok : responseOk status = true := by simp [responseOk, h1, h2]
    cases path with
    | nil => exact absurd rfl hpath
    | cons c cs =>
      have hk : settings.tmdbApiKey.isEmpty = false := by
        cases h : settings.tmdbApiKey with
        | nil => exact absurd h hkey
        | cons a b => rfl
      simp [getMoviePosterUrl, getMoviePosterUrlTry, hok, hk, imageBaseUrl]

/-- C16, witness: a response with two results, of which the first has a poster
path. -/
theorem getMoviePosterUrl_spec_witness :
    getMoviePosterUrl ⟨"key".toList, [], "w185".toList, [], []⟩
        (.response 200 (some ⟨some [⟨some "/heat.jpg".toList⟩, ⟨some "/other.jpg".toList⟩]⟩))
      = "https://image.tmdb.org/t/p/w185/heat.jpg".toList :=
  (getMoviePosterUrl_spec ⟨"key".toList, [], "w185".toList, [], []⟩).2.2.2.2.2.2.2.2.2
    200 "/heat.jpg".toList [⟨some "/other.jpg".toList⟩] (by decide) (by decide) (by decide)
    (by decide)


/-! ## The counters of a run -/

theorem processRow_counters (settings : Settings) (fetchPoster : Str → Str)
    (st next : ImportState) (row : Row)
    (h : processRow settings fetchPoster st row = .ok next) :
    next.counters = { st.counters with count := st.counters.count + 1 }
      ∨ next.counters = { st.counters with updated := st.counters.updated + 1 }
      ∨ next.counters = { st.counters with skipped := st.counters.skipped + 1 } := by
  unfold processRow at h
  simp only [] at h
  split at h
  · simp only [Except.ok.injEq] at h
    rw [← h]
    exact Or.inr (Or.inr rfl)
  · have hcreate : ∀ r : Except Str ImportState,
        (match vaultCreate st.vault (rowFilePath settings row)
            (createNewMovieFile settings row (fetchPoster (trim (rowTitle row)))) with
          | .ok vault =>
            .ok { vault := vault,
                  counters := { st.counters with count := st.counters.count + 1 } }
          | .error e => .error e) = r → r = .ok next →
        next.counters = { st.counters with count := st.counters.count + 1 } := by
      intro r hr hn
      subst hr
      split at hn
      · simp only [Except.ok.injEq] at hn
        rw [← hn]
      · cases hn
    split at h
    · split at h
      · simp only [Except.ok.injEq] at h
        rw [← h]
        exact Or.inr (Or.inr rfl)
      · split at h
        · split at h
          · simp only [Except.ok.injEq] at h
            rw [← h]
            exact Or.inr (Or.inl rfl)
          · simp only [Except.ok.injEq] at h
            rw [← h]
            exact Or.inr (Or.inr rfl)
        · split at h
          · simp only [Except.ok.injEq] at h
            rw [← h]
            exact Or.inr (Or.inl rfl)
          · exact Or.inl (hcreate _ rfl h)
    · exact Or.inl (hcreate _ rfl h)

theorem processRow_total (settings : Settings) (fetchPoster : Str → Str)
    (st next : ImportState) (row : Row)
    (h : processRow settings fetchPoster st row = .ok next) :
    totalCount next.counters = totalCount st.counters + 1 := by
  rcases processRow_counters settings fetchPoster st next row h with h | h | h <;>
    rw [h] <;> simp only [totalCount] <;> omega

theorem processRows_total (settings : Settings) (fetchPoster : Nat → Str → Str)
    (rows : List Row) (index : Nat) (st : ImportState) (counters : Counters)
    (h : (processRows settings fetchPoster index rows st).summary = .ok counters) :
    totalCount counters = totalCount st.counters + rows.length := by
  induction rows generalizing index st with
  | nil =>
    simp only [processRows, Except.ok.injEq] at h
    rw [← h]
    simp
  | cons row rows ih =>
    rw [processRows] at h
    split at h
    · rename_i next hnext
      rw [ih _ _ h, processRow_total settings _ st next row hnext]
      simp only [List.length_cons]
      omega
    · cases h

theorem processRow_untitled (settings : Settings) (fetchPoster : Str → Str)
    (st : ImportState) (row : Row) (h : rowTitle row = []) :
    processRow settings fetchPoster st row
      = .ok { vault := st.vault,
              counters := { st.counters with skipped := st.counters.skipped + 1 } } := by
  simp [processRow, h]

/-- C18. The counter invariant of `processCsvData`.  An iteration that ends
without an exception adds one to exactly one of the three counters and leaves
the other two as they were; so after the loop has run over any list of rows,
the sum of the counters has grown by the number of those rows, and a run that
reports its counters reports a sum equal to the number of rows that `parseCSV`
returned.  A row without a title under any of the aliases is counted as
skipped and leaves every document as it was. -/
theorem processCsvData_counters (settings : Settings) (fetchPoster : Nat → Str → Str) :
    (∀ index st next row, processRow settings (fetchPoster index) st row = .ok next →
        next.counters = { st.counters with count := st.counters.count + 1 }
          ∨ next.counters = { st.counters with updated := st.counters.updated + 1 }
          ∨ next.counters = { st.counters with skipped := st.counters.skipped + 1 })
      ∧ (∀ rows index st counters,
          (processRows settings fetchPoster index rows st).summary = .ok counters →
          totalCount counters = totalCount st.counters + rows.length)
      ∧ (∀ vault csvContent counters,
          (processCsvData settings fetchPoster vault csvContent).summary = .ok counters →
          ∃ rows, parseCSV csvContent = .ok rows ∧ totalCount counters = rows.length)
      ∧ (∀ index st row, rowTitle row = [] →
          processRow settings (fetchPoster index) st row
            = .ok { vault := st.vault,
                    counters := { st.counters with skipped := st.counters.skipped + 1 } }) := by
  refine ⟨fun index st next row h => processRow_counters settings _ st next row h,
    fun rows index st counters h => processRows_total settings fetchPoster rows index st counters h,
    ?_, fun index st row h => processRow_untitled settings _ st row h⟩
  intro vault csvContent counters h
  unfold processCsvData at h
  split at h
  · rename_i rows hrows
    refine ⟨rows, hrows, ?_⟩
    have := processRows_total settings fetchPoster rows 0 _ counters h
    simpa [totalCount] using this
  · simp at h

/-- C18, witness: a run that creates a document, appends to it and skips a row
without title. -/
theorem processCsvData_counters_witness :
    (processCsvData appendSettings noPoster [] mixedCsv).summary
        = .ok { count := 1, updated := 1, skipped := 1 }
      ∧ ∃ rows, parseCSV mixedCsv = .ok rows
        ∧ totalCount { count := 1, updated := 1, skipped := 1 } = rows.length :=
  ⟨rfl, (processCsvData_counters appendSettings noPoster).2.2.1 [] mixedCsv
    { count := 1, updated := 1, skipped := 1 } rfl⟩


/-! ## The front-matter of a new document -/

theorem frontmatterFields_eq (entries : List (Str × Str)) :
    frontmatterFields entries = fieldLines entries := by
  induction entries with
  | nil => rfl
  | cons e es ih =>
    obtain ⟨key, value⟩ := e
    unfold fieldLines at ih ⊢
    by_cases h : value.isEmpty = true
    · simp [frontmatterFields, h, ih]
    · simp [frontmatterFields, h, ih, fieldLine]

theorem unescapeQuotes_escapeQuotes (value : Str) :
    unescapeQuotes (escapeQuotes value) = value := by
  induction value with
  | nil => rfl
  | cons c cs ih =>
    by_cases hc : c = '\''
    · subst hc
      have e : escapeQuotes ('\'' :: cs) = '\'' :: '\'' :: escapeQuotes cs := by
        simp [escapeQuotes]
      rw [e, unescapeQuotes]
      simp [ih]
    · have e : escapeQuotes (c :: cs) = c :: escapeQuotes cs := by
        simp [escapeQuotes, hc]
      rw [e]
      cases hrest : escapeQuotes cs with
      | nil =>
        rw [hrest] at ih
        rw [unescapeQuotes, ← ih]
        rfl
      | cons d ds =>
        rw [hrest] at ih
        rw [unescapeQuotes]
        simp [hc, ih]

theorem insertIndexed_perm (e : Nat × Str × Str) (l : List (Nat × Str × Str)) :
    (insertIndexed e l).Perm (e :: l) := by
  induction l with
  | nil => exact List.Perm.refl _
  | cons f fs ih =>
    rw [insertIndexed]
    split
    · exact List.Perm.refl _
    · exact ((List.Perm.cons f ih).trans (List.Perm.swap e f fs))

theorem sortIndexed_perm (l : List (Nat × Str × Str)) : (sortIndexed l).Perm l := by
  induction l with
  | nil => exact List.Perm.refl _
  | cons e es ih => exact (insertIndexed_perm e _).trans (List.Perm.cons e ih)

theorem insertIndexed_pairwise (e : Nat × Str × Str) (l : List (Nat × Str × Str))
    (h : l.Pairwise fun a b => a.1 ≤ b.1) :
    (insertIndexed e l).Pairwise fun a b => a.1 ≤ b.1 := by
  induction l with
  | nil => simp [insertIndexed]
  | cons f fs ih =>
    rw [List.pairwise_cons] at h
    rw [insertIndexed]
    split
    · rename_i hle
      refine List.pairwise_cons.mpr ⟨?_, List.pairwise_cons.mpr h⟩
      intro x hx
      rcases List.mem_cons.mp hx with hx | hx
      · rw [hx]; exact hle
      · exact Nat.le_trans hle (h.1 x hx)
    · rename_i hle
      refine List.pairwise_cons.mpr ⟨?_, ih h.2⟩
      intro x hx
      have hx2 := (insertIndexed_perm e fs).subset hx
      rcases List.mem_cons.mp hx2 with hx2 | hx2
      · rw [hx2]; omega
      · exact h.1 x hx2

theorem sortIndexed_pairwise (l : List (Nat × Str × Str)) :
    (sortIndexed l).Pairwise fun a b => a.1 ≤ b.1 := by
  induction l with
  | nil => simp [sortIndexed]
  | cons e es ih => exact insertIndexed_pairwise e _ ih

theorem map_filterMap_arrayIndex (row : Row) :
    (row.filterMap fun e => (arrayIndex e.1).map fun i => (i, e)).map (fun e => e.2)
      = row.filter fun e => (arrayIndex e.1).isSome := by
  induction row with
  | nil => rfl
  | cons e es ih =>
    cases h : arrayIndex e.1 with
    | none => simp [List.filterMap_cons, h, ih]
    | some i => simp [List.filterMap_cons, h, ih]

theorem objectEntries_of_no_index (row : Row) (h : ∀ e ∈ row, arrayIndex e.1 = none) :
    objectEntries row = row := by
  have h1 : (row.filterMap fun e => (arrayIndex e.1).map fun i => (i, e)) = [] := by
    rw [List.filterMap_eq_nil_iff]
    intro e he
    simp [h e he]
  have h2 : (row.filter fun e => (arrayIndex e.1).isNone) = row := by
    rw [List.filter_eq_self]
    intro e he
    simp [h e he]
  unfold objectEntries
  rw [h1, h2]
  rfl


/-- C13, amended. The text written by `createNewMovieFile` is: a three dash line;
one line with the key, a colon and the value in single quotes, every single
quote of the value doubled, for each column of `Object.entries` whose value is
not empty; the poster line when the poster URL is not empty; `watches: 1`;
`tags:` and one line per tag when there is a tag; a closing three dash line;
then the body.  `Object.entries` lists first the columns whose name is an array
index, in ascending numeric order, then all other columns in the order of the
row, so it is the row itself when no column name is an array index.  Replacing
the doubled single quotes of an emitted value by single ones gives back the
value of the column. -/
theorem createNewMovieFile_frontmatter (settings : Settings) (row : Row) (posterUrl : Str) :
    createNewMovieFile settings row posterUrl
        = "---\n".toList ++ fieldLines (objectEntries row)
          ++ (if posterUrl = [] then [] else "poster: '".toList ++ posterUrl ++ "'\n".toList)
          ++ "watches: 1\n".toList
          ++ (if getTagsArray settings = [] then []
              else "tags:\n".toList
                ++ (getTagsArray settings).flatMap fun tag => "  - ".toList ++ tag ++ "\n".toList)
          ++ "---\n".toList
          ++ ("\n".toList ++ firstTruthy row ["content".toList] ++ "\n\n".toList
            ++ ("## Watch History\n\n".toList
              ++ watchEntry (firstTruthy row ["Watched Date".toList, "Date".toList])
                  (firstTruthy row ["Rating".toList]) (firstTruthy row ["Review".toList])))
      ∧ (∃ indexed : List (Nat × Str × Str),
          objectEntries row
              = indexed.map (fun e => e.2) ++ row.filter (fun e => (arrayIndex e.1).isNone)
            ∧ (indexed.map fun e => e.2).Perm (row.filter fun e => (arrayIndex e.1).isSome)
            ∧ (∀ e ∈ indexed, arrayIndex e.2.1 = some e.1)
            ∧ indexed.Pairwise fun a b => a.1 ≤ b.1)
      ∧ ((∀ e ∈ row, arrayIndex e.1 = none) → objectEntries row = row)
      ∧ ∀ value, unescapeQuotes (escapeQuotes value) = value := by
  refine ⟨?_, ⟨sortIndexed (row.filterMap fun (e : Str × Str) =>
      (arrayIndex e.1).map fun i => (i, e)),
    rfl, ?_, ?_, sortIndexed_pairwise _⟩, objectEntries_of_no_index row,
    unescapeQuotes_escapeQuotes⟩
  · have hposter : posterLine posterUrl
        = if posterUrl = [] then [] else "poster: '".toList ++ posterUrl ++ "'\n".toList := by
      unfold posterLine
      cases posterUrl <;> simp
    have htags : tagsBlock (getTagsArray settings)
        = if getTagsArray settings = [] then []
          else "tags:\n".toList
            ++ (getTagsArray settings).flatMap fun tag => "  - ".toList ++ tag ++ "\n".toList := by
      unfold tagsBlock
      cases getTagsArray settings <;> simp
    have e : "---\n\n".toList = "---\n".toList ++ "\n".toList := by decide
    unfold createNewMovieFile
    simp only [frontmatterFields_eq, hposter, htags, e, List.append_assoc]
  · rw [← map_filterMap_arrayIndex]
    exact (sortIndexed_perm _).map _
  · intro e he
    have he2 := (sortIndexed_perm _).subset he
    obtain ⟨x, -, hx⟩ := List.mem_filterMap.mp he2
    cases hi : arrayIndex x.1 with
    | none => simp [hi] at hx
    | some i =>
      simp only [hi, Option.map_some', Option.some.injEq] at hx
      rw [← hx]
      exact hi

/-- C13, witness: the row of `Heat` has no column whose name is an array index,
so its lines come in the order of its columns. -/
theorem createNewMovieFile_frontmatter_witness : objectEntries heatRow = heatRow :=
  (createNewMovieFile_frontmatter appendSettings heatRow []).2.2.1 (by decide)

/-- C13, counterexample. The second column is named `2024`, an array index: its
line comes before the line of the first column. -/
theorem createNewMovieFile_index_key_first :
    createNewMovieFile appendSettings indexKeyRow []
      = "---\n2024: 'x'\nName: 'Heat'\nwatches: 1\n---\n\n\n\n## Watch History\n\n### \n\n".toList := by
  decide


/-! ## The counter written by the update policy -/

theorem watchCount_of_match (old before digits after : Str)
    (h : matchWatches old = some (before, digits, after)) :
    watchCount old = addOne (parseInt digits) := by
  simp [watchCount, h]

theorem watchCount_of_none (old : Str) (h : matchWatches old = none) :
    numToString (watchCount old) = "1".toList := by
  simp only [watchCount, h]
  decide

/-- The counter line of `updateMovieFile`.  The front-matter it writes carries
the line `watches: ` followed by the number of the leftmost `watches: ` with
digits anywhere in the existing text, front-matter or not, plus one (exact
below `2 ^ 53`); it carries `watches: 1` when the existing text has nowhere
`watches: ` followed by a digit. -/
theorem updateMovieFile_counter (settings : Settings) (old : Str) (row : Row)
    (posterUrl : Str) :
    updateMovieFile settings old row posterUrl
        = "---\n".toList ++ frontmatterFields (objectEntries row) ++ posterLine posterUrl
          ++ "watches: ".toList ++ numToString (watchCount old) ++ "\n".toList
          ++ tagsBlock (getTagsArray settings) ++ "---\n\n".toList
          ++ firstTruthy row ["content".toList] ++ existingWatchHistory old
      ∧ (∀ before digits after,
          old = before ++ "watches: ".toList ++ digits ++ after →
          digits ≠ [] → (∀ c ∈ digits, isDigit c = true) →
          (∀ c ∈ after.head?, isDigit c = false) →
          (∀ i, i < before.length → ∀ d t, isDigit d = true →
            old.drop i ≠ "watches: ".toList ++ d :: t) →
          digitsValue digits < 2 ^ 53 →
          numToString (watchCount old) = decimal (digitsValue digits + 1))
      ∧ ((∀ before d t, isDigit d = true → old ≠ before ++ "watches: ".toList ++ d :: t) →
          numToString (watchCount old) = "1".toList) := by
  refine ⟨rfl, ?_, fun h => watchCount_of_none old (matchWatches_eq_none old h)⟩
  intro before digits after hold hne hd ha hleft hsafe
  subst hold
  rw [watchCount_of_match _ _ _ _ (matchWatches_at before digits after hne hd ha hleft)]
  exact numToString_addOne_parseInt digits hsafe

/-- An instance of the counter line: the old document with the counter 5. -/
theorem updateMovieFile_counter_witness :
    numToString (watchCount countedDoc) = decimal (digitsValue "5".toList + 1) :=
  (updateMovieFile_counter appendSettings countedDoc heatRow []).2.1
    "---\n".toList "5".toList "\n---\n\n## Watch History\n\n### 2024-01-01\n\n".toList
    (by decide) (by decide) (by decide) (by decide)
    (by
      intro i hi d t hd
      have hi2 : i < 4 := hi
      interval_cases i <;> simp [countedDoc])
    (by decide)

/-- C12, the code at the failing input. The counter of the existing
front-matter is 1, but the field `Review` before it holds the text
`watches: 3 times`: the update writes `watches: 4`, not `watches: 2`. -/
theorem updateMovieFile_counts_review :
    updateMovieFile appendSettings reviewDoc [("Name".toList, "Heat".toList)] []
      = "---\nName: 'Heat'\nwatches: 4\n---\n\n\n\n## Watch History\n\n### 2024-01-01\n**Review:** watches: 3 times\n\n".toList := by
  decide

/-- The two merge operations read the counter from different texts.  The
front-matter of the document has no counter and its body has the line
`watches: 7`: the append searches the front-matter block and adds
`watches: 2`, the update searches the whole text and writes `watches: 8`. -/
theorem updateMovieFile_counts_body :
    appendWatchEntry bodyCounterDoc [("Name".toList, "Heat".toList)] [] "2024-02-02".toList
        = some "---\nName: 'Heat'\nwatches: 2\n---\n\nwatches: 7\n\n## Watch History\n\n### 2024-02-02\n\n### 2024-01-01\n\n".toList
      ∧ updateMovieFile appendSettings bodyCounterDoc [("Name".toList, "Heat".toList)] []
        = "---\nName: 'Heat'\nwatches: 8\n---\n\n\n\n## Watch History\n\n### 2024-01-01\n\n".toList := by
  decide

/-- The counter beyond `2 ^ 53`, where a sum of doubles is no longer exact, and
from `1e21`, where a Number prints in exponent form. -/
theorem bumpWatches_beyond_exact :
    bumpWatches "watches: 9007199254740993".toList = "watches: 9007199254740992".toList
      ∧ bumpWatches "watches: 99999999999999999999999".toList = "watches: 1e+23".toList := by
  decide


/-! ## The history step of the append policy -/

theorem findSplit_of_leftmost (pat before after : Str)
    (h : ∀ before2 after2, before ++ pat ++ after = before2 ++ pat ++ after2 →
      before.length ≤ before2.length) :
    findSplit pat (before ++ pat ++ after) = some (before, after) := by
  cases hf : findSplit pat (before ++ pat ++ after) with
  | none =>
    exact absurd ⟨before, after, rfl⟩ ((findSplit_eq_none_iff _ _).mp hf)
  | some r =>
    obtain ⟨b, a⟩ := r
    have hs := findSplit_eq_some _ _ _ _ hf
    have h1 := findSplit_leftmost _ _ _ _ hf before after rfl
    have h2 := h b a hs
    have hlen : before.length = b.length := Nat.le_antisymm h2 h1
    have hs2 : before ++ (pat ++ after) = b ++ (pat ++ a) := by
      simpa [List.append_assoc] using hs
    obtain ⟨e1, e2⟩ := List.append_inj hs2 hlen
    rw [e1, List.append_cancel_left e2]

theorem insertWatchEntry_of_absent (text entry : Str)
    (h : ¬ "## Watch History".toList <:+: text) :
    insertWatchEntry text entry = text ++ "\n\n## Watch History\n\n".toList ++ entry := by
  unfold insertWatchEntry
  rw [(includes_eq_false_iff _ _).mpr h]
  simp

theorem insertWatchEntry_of_leftmost (before after entry : Str)
    (h : ∀ before2 after2,
      before ++ "## Watch History\n\n".toList ++ after
        = before2 ++ "## Watch History\n\n".toList ++ after2 →
      before.length ≤ before2.length)
    (hdollar : '$' ∉ entry) (hhead : ∀ c ∈ entry.head?, isDigit c = false) :
    insertWatchEntry (before ++ "## Watch History\n\n".toList ++ after) entry
      = before ++ "## Watch History\n\n".toList ++ entry ++ after := by
  have hinc : includes "## Watch History".toList
      (before ++ "## Watch History\n\n".toList ++ after) = true := by
    rw [includes_iff]
    exact ⟨before, "\n\n".toList ++ after, by simp⟩
  have hexp := expandTemplate_first_capture "## Watch History\n\n".toList before after
    "## Watch History\n\n".toList entry hdollar hhead
  have e : "$1".toList ++ entry = '$' :: '1' :: entry := rfl
  unfold insertWatchEntry
  rw [hinc, findSplit_of_leftmost _ before after h]
  simp only [if_true, e, hexp, List.append_assoc]

theorem insertWatchEntry_of_tight (text entry : Str)
    (h : "## Watch History".toList <:+: text)
    (h2 : ¬ "## Watch History\n\n".toList <:+: text) :
    insertWatchEntry text entry = text := by
  unfold insertWatchEntry
  rw [(includes_iff _ _).mpr h, (findSplit_eq_none_iff _ _).mpr h2]
  simp

theorem updateFrontmatter_of_no_block (content posterUrl : Str)
    (h : matchFrontmatter content = none) : updateFrontmatter content posterUrl = content := by
  simp [updateFrontmatter, h]

theorem appendWatchEntry_eq_some (content : Str) (row : Row) (posterUrl watchedDate out : Str)
    (h : appendWatchEntry content row posterUrl watchedDate = some out) :
    out = insertWatchEntry (updateFrontmatter content posterUrl)
      (watchEntry watchedDate (firstTruthy row ["Rating".toList])
        (firstTruthy row ["Review".toList])) := by
  unfold appendWatchEntry at h
  simp only [] at h
  split at h
  · cases h
  · simp only [Option.some.injEq] at h
    exact h.symm

/-- C11, amended. Let an append not be skipped, and let the updated text be the
document after the front-matter step, which is the document itself when it has
no front-matter block.  When the updated text does not contain
`## Watch History`, the output is the updated text followed by a new
`## Watch History` section that holds the sub-entry.  When the updated text
contains `## Watch History` followed by a blank line, and the date, the rating
and the review contain no dollar, the output is the updated text with the
sub-entry, rating and review verbatim, inserted right after the leftmost such
heading. -/
theorem appendWatchEntry_entry (content : Str) (row : Row) (posterUrl watchedDate out : Str)
    (hout : appendWatchEntry content row posterUrl watchedDate = some out) :
    (matchFrontmatter content = none → updateFrontmatter content posterUrl = content)
      ∧ (¬ "## Watch History".toList <:+: updateFrontmatter content posterUrl →
          out = updateFrontmatter content posterUrl ++ "\n\n## Watch History\n\n".toList
            ++ watchEntry watchedDate (firstTruthy row ["Rating".toList])
                (firstTruthy row ["Review".toList]))
      ∧ (∀ before after,
          updateFrontmatter content posterUrl
            = before ++ "## Watch History\n\n".toList ++ after →
          (∀ before2 after2,
            updateFrontmatter content posterUrl
              = before2 ++ "## Watch History\n\n".toList ++ after2 →
            before.length ≤ before2.length) →
          '$' ∉ watchedDate → '$' ∉ firstTruthy row ["Rating".toList] →
          '$' ∉ firstTruthy row ["Review".toList] →
          out = before ++ "## Watch History\n\n".toList
            ++ watchEntry watchedDate (firstTruthy row ["Rating".toList])
                (firstTruthy row ["Review".toList])
            ++ after) := by
  have hins := appendWatchEntry_eq_some content row posterUrl watchedDate out hout
  refine ⟨updateFrontmatter_of_no_block content posterUrl, ?_, ?_⟩
  · intro habsent
    rw [hins, insertWatchEntry_of_absent _ _ habsent]
  · intro before after htext hleft hd hr hv
    rw [hins, htext]
    rw [htext] at hleft
    exact insertWatchEntry_of_leftmost before after _ hleft
      (dollar_not_mem_watchEntry _ _ _ hd hr hv) (head_watchEntry _ _ _)

/-- C11, witness: a viewing appended to a document whose history section holds
one viewing. -/
theorem appendWatchEntry_entry_witness :
    "## Watch History\n\n### 2024-02-02\n**Rating:** 5\n\n### 2024-01-01\n\n".toList
      = [] ++ "## Watch History\n\n".toList
        ++ watchEntry "2024-02-02".toList (firstTruthy heatRow ["Rating".toList])
            (firstTruthy heatRow ["Review".toList])
        ++ "### 2024-01-01\n\n".toList :=
  (appendWatchEntry_entry bareHistoryDoc heatRow [] "2024-02-02".toList
    "## Watch History\n\n### 2024-02-02\n**Rating:** 5\n\n### 2024-01-01\n\n".toList
    (by decide)).2.2 [] "### 2024-01-01\n\n".toList (by decide)
    (fun before2 after2 _ => Nat.zero_le _) (by decide) (by decide) (by decide)

/-- C11, counterexample. The document has a front-matter block and no history
section: the output is not the document followed by the new section, because
the counter of the block is raised as well. -/
theorem appendWatchEntry_changes_block :
    includes "## Watch History".toList plainDoc = false
      ∧ appendWatchEntry plainDoc [("Name".toList, "Heat".toList)] [] "2024-02-02".toList
        = some "---\nwatches: 2\n---\nbody\n\n## Watch History\n\n### 2024-02-02\n\n".toList
      ∧ plainDoc ++ "\n\n## Watch History\n\n".toList ++ watchEntry "2024-02-02".toList [] []
        = "---\nwatches: 1\n---\nbody\n\n## Watch History\n\n### 2024-02-02\n\n".toList := by
  decide


/-- What an append does to a document without front-matter block: nothing
before or after the place of insertion changes.  The text is followed by a new
section when it has no `## Watch History`; the sub-entry is inserted after the
leftmost heading with a blank line when it holds no dollar; and the text is
written back as it is when the heading is nowhere followed by a blank line. -/
theorem appendWatchEntry_no_block (content : Str) (row : Row)
    (posterUrl watchedDate out : Str) (hblock : matchFrontmatter content = none)
    (hout : appendWatchEntry content row posterUrl watchedDate = some out) :
    (¬ "## Watch History".toList <:+: content →
        out = content ++ "\n\n## Watch History\n\n".toList
          ++ watchEntry watchedDate (firstTruthy row ["Rating".toList])
              (firstTruthy row ["Review".toList]))
      ∧ (∀ before after, content = before ++ "## Watch History\n\n".toList ++ after →
          (∀ before2 after2, content = before2 ++ "## Watch History\n\n".toList ++ after2 →
            before.length ≤ before2.length) →
          '$' ∉ watchEntry watchedDate (firstTruthy row ["Rating".toList])
            (firstTruthy row ["Review".toList]) →
          out = before ++ "## Watch History\n\n".toList
            ++ watchEntry watchedDate (firstTruthy row ["Rating".toList])
                (firstTruthy row ["Review".toList])
            ++ after)
      ∧ ("## Watch History".toList <:+: content →
          ¬ "## Watch History\n\n".toList <:+: content → out = content) := by
  have hins := appendWatchEntry_eq_some content row posterUrl watchedDate out hout
  rw [updateFrontmatter_of_no_block content posterUrl hblock] at hins
  refine ⟨?_, ?_, ?_⟩
  · intro habsent
    rw [hins, insertWatchEntry_of_absent _ _ habsent]
  · intro before after htext hleft hd
    rw [hins, htext]
    rw [htext] at hleft
    exact insertWatchEntry_of_leftmost before after _ hleft hd (head_watchEntry _ _ _)
  · intro h1 h2
    rw [hins, insertWatchEntry_of_tight _ _ h1 h2]

/-- C17, the code at the failing input. The document has no front-matter block
and its history heading is followed by one newline only.  The append is not
skipped, yet the text written back is the document itself: the sub-entry of
the new viewing is nowhere in the output.  With the heading followed by a blank
line and the review `$15 well spent`, the text inserted is not the sub-entry:
`$1` is replaced by the heading. -/
theorem appendWatchEntry_tight_heading :
    matchFrontmatter tightHeadingDoc = none
      ∧ appendWatchEntry tightHeadingDoc [("Name".toList, "Heat".toList)] [] "2024-02-02".toList
        = some tightHeadingDoc
      ∧ matchFrontmatter bareHistoryDoc = none
      ∧ appendWatchEntry bareHistoryDoc
          [("Name".toList, "Heat".toList), ("Review".toList, "$15 well spent".toList)] []
          "2024-02-02".toList
        = some "## Watch History\n\n### 2024-02-02\n**Review:** ## Watch History\n\n5 well spent\n\n### 2024-01-01\n\n".toList := by
  decide


end Letterboxd
